import Mathlib

/-!
# PhotoMultiplierHitDigi: a shallow embedding

Source: `src/algorithms/digi/PhotoMultiplierHitDigi.cc`.

Conventions of the embedding.

* `double` and `float` values are rationals (`ℚ`): arithmetic is exact, there is
  no rounding, no NaN and no infinity. The one exception is the section
  "Double-precision evaluation of `qe_pass`", where every arithmetic result is
  rounded to the nearest binary64 value.
* `std::size_t`, the photo-electron counter and the 64-bit cell identifier are
  natural numbers; no arithmetic in the code can wrap them on realistic inputs.
* `std::unordered_map<CellIDType, std::vector<HitData>>` is an association list
  with `find` and `insert`; `insert` follows the standard library: it does
  nothing when the key is already present. Iteration order of the real container
  is unspecified; the list order used here is first-insertion order.
* The random source is a pair of draw streams with a read position each; a draw
  returns the value at the position and advances it.
* Logging calls are dropped.
-/

namespace eicrecon

/-- Cell identifier (`CellIDType`, a 64-bit unsigned integer in the source). -/
abbrev CellIDType := Nat

/-- Time of a hit (`TimeType`). -/
abbrev TimeType := ℚ

/-- Three coordinates (`dd4hep::Position`). -/
structure Position where
  x : ℚ
  y : ℚ
  z : ℚ
deriving DecidableEq, Repr

/-- Pulse group of one cell (`HitData`), fields in the order of the aggregate
initialisation `HitData{1, sig, time, pos_hit_local, pos_hit_global, indices}`. -/
structure HitData where
  npe : Nat
  signal : ℚ
  time : TimeType
  pos_local : Position
  pos_global : Position
  sim_hit_indices : List Nat
deriving DecidableEq, Repr

/-- Configuration (`m_cfg`), the options read by the code. -/
structure PhotoMultiplierHitDigiConfig where
  seed : Nat
  hitTimeWindow : ℚ
  timeResolution : ℚ
  speMean : ℚ
  speError : ℚ
  pedMean : ℚ
  pedError : ℚ
  enablePixelGaps : Bool
  pixelSize : ℚ
  safetyFactor : ℚ
  enableNoise : Bool
  noiseRate : ℚ
  noiseTimeWindow : ℚ
  quantumEfficiency : List (ℚ × ℚ)

/-- Random source (`m_random` behind `m_rngNorm` and `m_rngUni`): the values the
successive calls return, and how many calls of each kind were made so far. -/
structure RandomSource where
  gaus : Nat → ℚ
  uniform : Nat → ℚ
  nGaus : Nat
  nUniform : Nat

/-- One call of `m_rngNorm()`. -/
def m_rngNorm (r : RandomSource) : ℚ × RandomSource :=
  (r.gaus r.nGaus, { r with nGaus := r.nGaus + 1 })

/-- One call of `m_rngUni()`. -/
def m_rngUni (r : RandomSource) : ℚ × RandomSource :=
  (r.uniform r.nUniform, { r with nUniform := r.nUniform + 1 })

/-- A table `std::unordered_map<CellIDType, std::vector<α>>`. -/
abbrev GroupTable (α : Type) := List (CellIDType × List α)

/-- The hit-group table `std::unordered_map<CellIDType, std::vector<HitData>>`. -/
abbrev HitGroups := GroupTable HitData

/-- The call `hit_groups.find(id)`: the mapped vector, `none` for `end()`. -/
def GroupTable.find {α : Type} (hit_groups : GroupTable α) (id : CellIDType) :
    Option (List α) :=
  match hit_groups with
  | [] => none
  | kv :: rest => if kv.1 = id then some kv.2 else GroupTable.find rest id

/-- The call `hit_groups.insert({id, v})` of `std::unordered_map`: the pair is
added only when no element with key `id` exists; otherwise nothing changes. -/
def GroupTable.insert {α : Type} (hit_groups : GroupTable α) (id : CellIDType)
    (v : List α) : GroupTable α :=
  match GroupTable.find hit_groups id with
  | some _ => hit_groups
  | none => hit_groups ++ [(id, v)]

/-- Writing through the iterator `it` returned by `find(id)`: the vector mapped
to `id` is replaced by `v` (the loop of `InsertHit` mutates it in place). -/
def GroupTable.assign {α : Type} (hit_groups : GroupTable α) (id : CellIDType)
    (v : List α) : GroupTable α :=
  match hit_groups with
  | [] => []
  | kv :: rest =>
    if kv.1 = id then (kv.1, v) :: rest else kv :: GroupTable.assign rest id v

/-- The `for (ghit = begin; ghit != end; ++ghit, ++i)` loop of `InsertHit`
(lines 347-357), started at counter `i`: returns the vector after the loop and
the final value of `i`. The first group within the time window is updated and
the loop stops (`break`) with `i` at its position; when no group matches, `i`
ends at its start value plus the number of groups. -/
def InsertHit_loop (cfg : PhotoMultiplierHitDigiConfig) (amp : ℚ) (time : TimeType)
    (sim_hit_index : Nat) (is_noise_hit : Bool) : List HitData → Nat → List HitData × Nat
  | [], i => ([], i)
  | ghit :: rest, i =>
    if |time - ghit.time| ≤ cfg.hitTimeWindow then
      ({ ghit with
          npe := ghit.npe + 1
          signal := ghit.signal + amp
          sim_hit_indices :=
            if !is_noise_hit then ghit.sim_hit_indices ++ [sim_hit_index]
            else ghit.sim_hit_indices } :: rest, i)
    else
      let r := InsertHit_loop cfg amp time sim_hit_index is_noise_hit rest (i + 1)
      (ghit :: r.1, r.2)

/-- The function `PhotoMultiplierHitDigi::InsertHit` (lines 334-374). The table is
passed by reference in the source and returned here, together with the random
source after the draws the call made. -/
def InsertHit (cfg : PhotoMultiplierHitDigiConfig) (rng : RandomSource)
    (hit_groups : HitGroups) (id : CellIDType) (amp : ℚ) (time : TimeType)
    (pos_hit_local pos_hit_global : Position) (sim_hit_index : Nat)
    (is_noise_hit : Bool) : HitGroups × RandomSource :=
  match GroupTable.find hit_groups id with
  | some groups =>
    let r := InsertHit_loop cfg amp time sim_hit_index is_noise_hit groups 0
    let hit_groups1 := GroupTable.assign hit_groups id r.1
    -- no hits group found
    if r.2 ≥ r.1.length then
      let g := m_rngNorm rng
      let sig := amp + cfg.pedMean + cfg.pedError * g.1
      let indices : List Nat := if !is_noise_hit then [sim_hit_index] else []
      (GroupTable.insert hit_groups1 id
        [HitData.mk 1 sig time pos_hit_local pos_hit_global indices], g.2)
    else (hit_groups1, rng)
  | none =>
    let g := m_rngNorm rng
    let sig := amp + cfg.pedMean + cfg.pedError * g.1
    let indices : List Nat := if !is_noise_hit then [sim_hit_index] else []
    (GroupTable.insert hit_groups id
      [HitData.mk 1 sig time pos_hit_local pos_hit_global indices], g.2)

/-! ## Quantum efficiency -/

/-- The call `std::sort(qeff.begin(), qeff.end(), cmp)` with `cmp v1 v2` being
`v1.first < v2.first` (lines 206-209): afterwards no element compares less than
an earlier one. The standard leaves the order of points of equal energy open;
the insertion sort used here keeps them in their input order. -/
def std_sort_by_energy (qeff : List (ℚ × ℚ)) : List (ℚ × ℚ) :=
  qeff.insertionSort (fun v1 v2 => v1.1 ≤ v2.1)

/-- The function `PhotoMultiplierHitDigi::qe_init` (lines 196-228): returns the
member `qeff` it leaves. The constant `hc` (Planck constant times speed of light
in eV nm, built from unit constants of the external `dd4hep` library) is a
parameter. The two unit warnings only log. -/
def qe_init (hc : ℚ) (cfg : PhotoMultiplierHitDigiConfig) : List (ℚ × ℚ) :=
  let qeff := cfg.quantumEfficiency.map (fun p => (hc / p.1, p.2))
  let qeff := std_sort_by_energy qeff
  if qeff.isEmpty then [(2.6, 0.3), (7.0, 0.3)] else qeff

/-- Dereferencing the iterator at position `i` of the table. -/
def deref (qeff : List (ℚ × ℚ)) (i : Nat) : ℚ × ℚ := qeff.getD i (0, 0)

/-- How the `while (mid != end)` loop of `interval_search` is left. -/
inductive SearchLoopExit where
  /-- Left by `return mid` inside the loop (line 242). -/
  | returned (mid : Nat)
  /-- The loop condition failed; the values of `mid` and `end` then. -/
  | finished (mid en : Nat)
deriving DecidableEq, Repr

/-- The `while (mid != end)` loop of `interval_search` (lines 238-249) over
iterator positions; `mid` is `std::next(beg, std::distance(beg, end)/2)` at
every loop head. The iterator range is valid (`beg ≤ en`) throughout. -/
def interval_search_loop (qeff : List (ℚ × ℚ)) (val : ℚ) (comp : ℚ × ℚ → ℚ → ℚ)
    (beg en : Nat) (h : beg ≤ en) : SearchLoopExit :=
  let mid := beg + (en - beg) / 2
  if hm : mid ≠ en then
    if comp (deref qeff mid) val = 0 then SearchLoopExit.returned mid
    else if comp (deref qeff mid) val > 0 then
      interval_search_loop qeff val comp beg mid (by omega)
    else interval_search_loop qeff val comp (mid + 1) en (by omega)
  else SearchLoopExit.finished mid en
termination_by en - beg
decreasing_by all_goals omega

/-- The function `PhotoMultiplierHitDigi::interval_search` (lines 231-255) over
iterator positions of the table; position `en` is the `end` iterator. -/
def interval_search (qeff : List (ℚ × ℚ)) (beg en : Nat) (h : beg ≤ en) (val : ℚ)
    (comp : ℚ × ℚ → ℚ → ℚ) : Nat :=
  let dist := en - beg
  if dist < 2 ∨ comp (deref qeff beg) val > 0 ∨ comp (deref qeff (en - 1)) val < 0 then en
  else
    match interval_search_loop qeff val comp beg en h with
    | SearchLoopExit.returned mid => mid
    | SearchLoopExit.finished mid en1 =>
      if mid = en1 ∨ comp (deref qeff mid) val > 0 then mid - 1 else mid

/-- The comparison passed by `qe_pass` to `interval_search` (lines 260-262). -/
def qe_comp (vals : ℚ × ℚ) (val : ℚ) : ℚ := vals.1 - val

/-- The function `PhotoMultiplierHitDigi::qe_pass` (lines 257-277) on the table
`qeff`. -/
def qe_pass (qeff : List (ℚ × ℚ)) (ev rand : ℚ) : Bool :=
  let it := interval_search qeff 0 qeff.length (Nat.zero_le _) ev qe_comp
  if it = qeff.length then false
  else
    let prob := (deref qeff it).2
    let itn := it + 1
    let prob :=
      if itn ≠ qeff.length ∧ (deref qeff itn).1 - (deref qeff it).1 ≠ 0 then
        ((deref qeff it).2 * ((deref qeff itn).1 - ev)
            + (deref qeff itn).2 * (ev - (deref qeff it).1))
          / ((deref qeff itn).1 - (deref qeff it).1)
      else prob
    decide (rand ≤ prob)

/-- The value of the local `prob` of `qe_pass` when line 276 is reached; `none`
when `qe_pass` returns at line 266 (energy out of the data range). -/
def qe_prob (qeff : List (ℚ × ℚ)) (ev : ℚ) : Option ℚ :=
  let it := interval_search qeff 0 qeff.length (Nat.zero_le _) ev qe_comp
  if it = qeff.length then none
  else
    let prob := (deref qeff it).2
    let itn := it + 1
    if itn ≠ qeff.length ∧ (deref qeff itn).1 - (deref qeff it).1 ≠ 0 then
      some (((deref qeff it).2 * ((deref qeff itn).1 - ev)
            + (deref qeff itn).2 * (ev - (deref qeff it).1))
          / ((deref qeff itn).1 - (deref qeff it).1))
    else some prob

/-- The straightforward linear scan that the specification compares
`interval_search` with, written from the specification and not from the code:
walk the table in ascending order from position `i`; the first point whose
energy equals `val`, or which encloses `val` together with its successor
(energy below `val`, successor's energy above), is the result; when no point
matches the walk ends at the `end` position (energy before the first or after
the last point). -/
def linear_scan_from : List (ℚ × ℚ) → ℚ → Nat → Nat
  | [], _, i => i
  | [p], val, i => if p.1 = val then i else i + 1
  | p :: q :: rest, val, i =>
    if p.1 = val ∨ (p.1 < val ∧ val < q.1) then i
    else linear_scan_from (q :: rest) val (i + 1)

/-- The linear scan of the whole table. -/
def linear_scan (qeff : List (ℚ × ℚ)) (val : ℚ) : Nat := linear_scan_from qeff val 0

/-! ## The event loop and the output records -/

/-- A simulated hit (`edm4hep::SimTrackerHit`), the members the code reads. -/
structure SimTrackerHit where
  cellID : CellIDType
  EDep : ℚ
  time : TimeType
  position : Position
deriving DecidableEq, Repr

/-- What the code takes from outside: the cell-id to position converter, the
sensor-frame transform (`get_sensor_local_position`, built on geometry calls),
the conversion `vec2pos` of a simulated hit's position vector into a
`dd4hep::Position` (line 100; declared in the class header, whose text is not
part of `PhotoMultiplierHitDigi.cc`), the `dd4hep` unit constants `mm` and `ns`,
and the cell identifiers that `m_VisitRngCellIDs` hands to its action for a
given probability. -/
structure Services where
  position : CellIDType → Position
  get_sensor_local_position : CellIDType → Position → Position
  vec2pos : Position → Position
  mm : ℚ
  ns : ℚ
  VisitRngCellIDs : ℚ → List CellIDType

/-- An output raw hit (`edm4eic::RawTrackerHit`). -/
structure RawTrackerHit where
  cellID : CellIDType
  charge : Int
  timeStamp : Int
deriving DecidableEq, Repr

/-- An output association (`edm4eic::MCRecoTrackerHitAssociation`); the raw hit
is referenced by its position in the raw-hit collection. -/
structure MCRecoTrackerHitAssociation where
  weight : ℚ
  rawHit : Nat
  simHits : List SimTrackerHit
deriving DecidableEq, Repr

/-- The result record (`PhotoMultiplierHitDigiResult`). -/
structure PhotoMultiplierHitDigiResult where
  raw_hits : List RawTrackerHit
  hit_assocs : List MCRecoTrackerHitAssociation
deriving DecidableEq, Repr

/-- The conversion `static_cast<integer type>(floating value)`: the fractional
part is discarded (rounding toward zero). Values outside the integer type are
not modelled. -/
def static_cast_int (v : ℚ) : Int := Int.tdiv v.num v.den

/-- Body of the loop over simulated hits (lines 83-121) for the hit at position
`sim_hit_index`; a `continue` returns the table unchanged. -/
def process_sim_hit (cfg : PhotoMultiplierHitDigiConfig) (svc : Services)
    (qeff : List (ℚ × ℚ)) (st : HitGroups × RandomSource) (sim_hit_index : Nat)
    (sim_hit : SimTrackerHit) : HitGroups × RandomSource :=
  let edep_eV := sim_hit.EDep * 1e9
  let id := sim_hit.cellID
  -- overall safety factor
  let u1 := m_rngUni st.2
  if u1.1 > cfg.safetyFactor then (st.1, u1.2)
  else
    -- quantum efficiency
    let u2 := m_rngUni u1.2
    if !qe_pass qeff edep_eV u2.1 then (st.1, u2.2)
    else
      -- pixel gap cuts
      let pos_hit_global : Position :=
        if cfg.enablePixelGaps then svc.position id else ⟨0, 0, 0⟩
      let pos_pixel : Position :=
        if cfg.enablePixelGaps then svc.get_sensor_local_position id pos_hit_global
        else ⟨0, 0, 0⟩
      let pos_hit : Position :=
        if cfg.enablePixelGaps then
          svc.get_sensor_local_position id (svc.vec2pos sim_hit.position)
        else ⟨0, 0, 0⟩
      if cfg.enablePixelGaps ∧
          (|pos_hit.x / svc.mm - pos_pixel.x / svc.mm| > cfg.pixelSize / 2 ∨
           |pos_hit.y / svc.mm - pos_pixel.y / svc.mm| > cfg.pixelSize / 2) then
        (st.1, u2.2)
      else
        -- cell time, signal amplitude, truth photon
        let time := sim_hit.time
        let g := m_rngNorm u2.2
        let amp := cfg.speMean + g.1 * cfg.speError
        InsertHit cfg g.2 st.1 id amp time pos_hit pos_hit_global sim_hit_index false

/-- The loop over simulated hits (lines 82-122), from position `sim_hit_index`. -/
def sim_hit_loop (cfg : PhotoMultiplierHitDigiConfig) (svc : Services)
    (qeff : List (ℚ × ℚ)) :
    List SimTrackerHit → Nat → HitGroups × RandomSource → HitGroups × RandomSource
  | [], _, st => st
  | sim_hit :: rest, sim_hit_index, st =>
    sim_hit_loop cfg svc qeff rest (sim_hit_index + 1)
      (process_sim_hit cfg svc qeff st sim_hit_index sim_hit)

/-- The lambda `cellID_action` (lines 139-158). -/
def cellID_action (cfg : PhotoMultiplierHitDigiConfig) (svc : Services)
    (st : HitGroups × RandomSource) (id : CellIDType) : HitGroups × RandomSource :=
  -- cell time, signal amplitude
  let g := m_rngNorm st.2
  let amp := cfg.speMean + g.1 * cfg.speError
  let u := m_rngUni g.2
  let time : TimeType := cfg.noiseTimeWindow * u.1 / svc.ns
  let pos_hit_global := svc.position id
  InsertHit cfg u.2 st.1 id amp time ⟨0, 0, 0⟩ pos_hit_global 0 true

/-- Noise injection (lines 136-160). -/
def noise_injection (cfg : PhotoMultiplierHitDigiConfig) (svc : Services)
    (st : HitGroups × RandomSource) : HitGroups × RandomSource :=
  if cfg.enableNoise then
    let p := cfg.noiseRate * cfg.noiseTimeWindow
    (svc.VisitRngCellIDs p).foldl (cellID_action cfg svc) st
  else st

/-- The loop `for (auto i : data.sim_hit_indices) hit_assoc.addToSimHits(sim_hits->at(i))`
(lines 188-189); `none` when an `at(i)` throws for an index out of range. -/
def addToSimHits (sim_hits : List SimTrackerHit) : List Nat → Option (List SimTrackerHit)
  | [] => some []
  | i :: rest =>
    match sim_hits[i]? with
    | none => none
    | some hit =>
      match addToSimHits sim_hits rest with
      | none => none
      | some hits => some (hit :: hits)

/-- The inner loop `for (auto &data : it.second)` (lines 168-191) for cell `id`,
adding to the result built so far. -/
def build_cell (cfg : PhotoMultiplierHitDigiConfig) (sim_hits : List SimTrackerHit)
    (id : CellIDType) :
    List HitData → PhotoMultiplierHitDigiResult → Option PhotoMultiplierHitDigiResult
  | [], result => some result
  | data :: rest, result =>
    -- build RawTrackerHit
    let raw_hit : RawTrackerHit :=
      ⟨id, static_cast_int data.signal, static_cast_int (data.time / cfg.timeResolution)⟩
    let raw_hit_pos := result.raw_hits.length
    let raw_hits := result.raw_hits ++ [raw_hit]
    -- build MCRecoTrackerHitAssociation (for non-noise hits only)
    if !data.sim_hit_indices.isEmpty then
      match addToSimHits sim_hits data.sim_hit_indices with
      | none => none
      | some hits =>
        build_cell cfg sim_hits id rest
          ⟨raw_hits, result.hit_assocs ++ [⟨1, raw_hit_pos, hits⟩]⟩
    else build_cell cfg sim_hits id rest ⟨raw_hits, result.hit_assocs⟩

/-- The outer loop `for (auto &it : hit_groups)` (lines 167-192). -/
def build_output (cfg : PhotoMultiplierHitDigiConfig) (sim_hits : List SimTrackerHit) :
    HitGroups → PhotoMultiplierHitDigiResult → Option PhotoMultiplierHitDigiResult
  | [], result => some result
  | it :: rest, result =>
    match build_cell cfg sim_hits it.1 it.2 result with
    | none => none
    | some result1 => build_output cfg sim_hits rest result1

/-- The table at line 162 of `AlgorithmProcess`: after the loop over simulated
hits and the noise injection, with the random source left behind. -/
def final_hit_groups (cfg : PhotoMultiplierHitDigiConfig) (svc : Services)
    (qeff : List (ℚ × ℚ)) (rng : RandomSource) (sim_hits : List SimTrackerHit) :
    HitGroups × RandomSource :=
  noise_injection cfg svc (sim_hit_loop cfg svc qeff sim_hits 0 ([], rng))

/-- The function `PhotoMultiplierHitDigi::AlgorithmProcess` (lines 73-194);
`none` when a `sim_hits->at(i)` throws. -/
def AlgorithmProcess (cfg : PhotoMultiplierHitDigiConfig) (svc : Services)
    (qeff : List (ℚ × ℚ)) (rng : RandomSource) (sim_hits : List SimTrackerHit) :
    Option PhotoMultiplierHitDigiResult :=
  build_output cfg sim_hits (final_hit_groups cfg svc qeff rng sim_hits).1 ⟨[], []⟩

/-! ## Calls of `InsertHit` and their bookkeeping -/

/-- The arguments of one `InsertHit` call. -/
structure InsertCall where
  id : CellIDType
  amp : ℚ
  time : TimeType
  pos_hit_local : Position
  pos_hit_global : Position
  sim_hit_index : Nat
  is_noise_hit : Bool

/-- Successive `InsertHit` calls on a table. -/
def run_calls (cfg : PhotoMultiplierHitDigiConfig) :
    List InsertCall → HitGroups × RandomSource → HitGroups × RandomSource
  | [], st => st
  | c :: cs, st =>
    run_calls cfg cs
      (InsertHit cfg st.2 st.1 c.id c.amp c.time c.pos_hit_local c.pos_hit_global
        c.sim_hit_index c.is_noise_hit)

/-- Bookkeeping attached to a group, not part of the program state: the
standard-normal draw taken when the group was created, and the amplitudes of
the call that created the group and of the calls merged into it, in order. -/
structure GroupRecord where
  draw : ℚ
  amps : List ℚ
deriving DecidableEq, Repr

/-- A hit-group table with the bookkeeping record next to every group. -/
abbrev TracedGroups := GroupTable (HitData × GroupRecord)

/-- Dropping the bookkeeping. -/
def TracedGroups.erase (t : TracedGroups) : HitGroups :=
  t.map (fun kv => (kv.1, kv.2.map Prod.fst))

/-- The loop of `InsertHit` (see `InsertHit_loop`), which also records the
amplitude in the record of the group it merges into. -/
def InsertHit_loop_traced (cfg : PhotoMultiplierHitDigiConfig) (amp : ℚ) (time : TimeType)
    (sim_hit_index : Nat) (is_noise_hit : Bool) :
    List (HitData × GroupRecord) → Nat → List (HitData × GroupRecord) × Nat
  | [], i => ([], i)
  | ghit :: rest, i =>
    if |time - ghit.1.time| ≤ cfg.hitTimeWindow then
      (({ ghit.1 with
          npe := ghit.1.npe + 1
          signal := ghit.1.signal + amp
          sim_hit_indices :=
            if !is_noise_hit then ghit.1.sim_hit_indices ++ [sim_hit_index]
            else ghit.1.sim_hit_indices },
        { ghit.2 with amps := ghit.2.amps ++ [amp] }) :: rest, i)
    else
      let r := InsertHit_loop_traced cfg amp time sim_hit_index is_noise_hit rest (i + 1)
      (ghit :: r.1, r.2)

/-- The function `InsertHit` (see `InsertHit`), which also records the draw and
the amplitude of a group it creates. -/
def InsertHit_traced (cfg : PhotoMultiplierHitDigiConfig) (rng : RandomSource)
    (hit_groups : TracedGroups) (id : CellIDType) (amp : ℚ) (time : TimeType)
    (pos_hit_local pos_hit_global : Position) (sim_hit_index : Nat)
    (is_noise_hit : Bool) : TracedGroups × RandomSource :=
  match GroupTable.find hit_groups id with
  | some groups =>
    let r := InsertHit_loop_traced cfg amp time sim_hit_index is_noise_hit groups 0
    let hit_groups1 := GroupTable.assign hit_groups id r.1
    if r.2 ≥ r.1.length then
      let g := m_rngNorm rng
      let sig := amp + cfg.pedMean + cfg.pedError * g.1
      let indices : List Nat := if !is_noise_hit then [sim_hit_index] else []
      (GroupTable.insert hit_groups1 id
        [(HitData.mk 1 sig time pos_hit_local pos_hit_global indices, ⟨g.1, [amp]⟩)], g.2)
    else (hit_groups1, rng)
  | none =>
    let g := m_rngNorm rng
    let sig := amp + cfg.pedMean + cfg.pedError * g.1
    let indices : List Nat := if !is_noise_hit then [sim_hit_index] else []
    (GroupTable.insert hit_groups id
      [(HitData.mk 1 sig time pos_hit_local pos_hit_global indices, ⟨g.1, [amp]⟩)], g.2)

/-- Successive `InsertHit` calls with the bookkeeping. -/
def run_calls_traced (cfg : PhotoMultiplierHitDigiConfig) :
    List InsertCall → TracedGroups × RandomSource → TracedGroups × RandomSource
  | [], st => st
  | c :: cs, st =>
    run_calls_traced cfg cs
      (InsertHit_traced cfg st.2 st.1 c.id c.amp c.time c.pos_hit_local c.pos_hit_global
        c.sim_hit_index c.is_noise_hit)

/-- What the record of a group says about the group: the signal is the
pedestal mean, plus the pedestal spread times the recorded draw, plus the
recorded amplitudes; there is one recorded amplitude per photo-electron; and the
recorded draw is a standard-normal draw of the stream `gaus` taken at a position
from `n0` up to, not including, `n1`. -/
def GroupRecord.explains (cfg : PhotoMultiplierHitDigiConfig) (gaus : Nat → ℚ)
    (n0 n1 : Nat) (gr : HitData × GroupRecord) : Prop :=
  gr.1.signal = cfg.pedMean + cfg.pedError * gr.2.draw + gr.2.amps.sum ∧
  gr.2.amps.length = gr.1.npe ∧
  ∃ n, n0 ≤ n ∧ n < n1 ∧ gr.2.draw = gaus n

/-! ## Reading tables and results -/

/-- The (cell, group) pairs of a table in iteration order: cells in table
order, the groups of a cell in vector order. -/
def HitGroups.pairs (t : HitGroups) : List (CellIDType × HitData) :=
  t.flatMap (fun kv => kv.2.map (fun g => (kv.1, g)))

/-- The content of an association: weight, referenced raw-hit position, and
the simulated hits it lists. -/
def MCRecoTrackerHitAssociation.content (a : MCRecoTrackerHitAssociation) :
    ℚ × Nat × List (Option SimTrackerHit) :=
  (a.weight, a.rawHit, a.simHits.map some)

/-- Every contributor index of the table is a position of `sim_hits`. -/
def HitGroups.indicesValid (t : HitGroups) (sim_hits : List SimTrackerHit) : Prop :=
  ∀ kv ∈ t, ∀ g ∈ kv.2, ∀ i ∈ g.sim_hit_indices, i < sim_hits.length

/-- The group `ghit` after a merge (lines 351-353). -/
def HitData.merged (ghit : HitData) (amp : ℚ) (sim_hit_index : Nat) (is_noise_hit : Bool) :
    HitData :=
  { ghit with
    npe := ghit.npe + 1
    signal := ghit.signal + amp
    sim_hit_indices :=
      if !is_noise_hit then ghit.sim_hit_indices ++ [sim_hit_index]
      else ghit.sim_hit_indices }

/-- Cell, representative time, local and global position of a (cell, group)
pair. -/
def groupKey (p : CellIDType × HitData) : CellIDType × TimeType × Position × Position :=
  (p.1, p.2.time, p.2.pos_local, p.2.pos_global)

/-! ## Scenario inputs -/

/-- An accepted simulated hit as handed to `InsertHit` by the hit loop. -/
structure AcceptedHit where
  amp : ℚ
  time : TimeType
  pos_hit_local : Position
  pos_hit_global : Position
  sim_hit_index : Nat

/-- Successive `InsertHit` calls, all for cell `id`, none marked as noise. -/
def insertHits (cfg : PhotoMultiplierHitDigiConfig) (id : CellIDType) :
    List AcceptedHit → HitGroups × RandomSource → HitGroups × RandomSource
  | [], st => st
  | h :: hs, st =>
    insertHits cfg id hs
      (InsertHit cfg st.2 st.1 id h.amp h.time h.pos_hit_local h.pos_hit_global
        h.sim_hit_index false)

/-- Configuration of the grouping scenarios: time window `0.1`, unit time
resolution, no pedestal, all gates open, no noise. -/
def scenarioCfg : PhotoMultiplierHitDigiConfig :=
  { seed := 1, hitTimeWindow := 1 / 10, timeResolution := 1, speMean := 1,
    speError := 0, pedMean := 0, pedError := 0, enablePixelGaps := false,
    pixelSize := 1, safetyFactor := 1, enableNoise := false, noiseRate := 0,
    noiseTimeWindow := 0, quantumEfficiency := [] }

/-- Random source whose every draw is `0`. -/
def zeroRng : RandomSource :=
  { gaus := fun _ => 0, uniform := fun _ => 0, nGaus := 0, nUniform := 0 }

/-- The origin, used where a position does not matter. -/
def origin : Position := ⟨0, 0, 0⟩

/-- Scenario hit of source index 0 at time `0.0`, unit amplitude. -/
def hitAt0 : AcceptedHit := ⟨1, 0, origin, origin, 0⟩

/-- Scenario hit of source index 1 at time `0.05`, unit amplitude. -/
def hitNear : AcceptedHit := ⟨1, 1 / 20, origin, origin, 1⟩

/-- Scenario hit of source index 1 at time `0.5`, unit amplitude. -/
def hitFar : AcceptedHit := ⟨1, 1 / 2, origin, origin, 1⟩

/-- The default quantum-efficiency table of `qe_init` (line 219). -/
def defaultQeff : List (ℚ × ℚ) := [(2.6, 0.3), (7.0, 0.3)]

/-- A configuration with the given quantum-efficiency pairs, otherwise as
`scenarioCfg`. -/
def cfgWithQE (qe : List (ℚ × ℚ)) : PhotoMultiplierHitDigiConfig :=
  { scenarioCfg with quantumEfficiency := qe }

/-- A sorted table with two points of the same energy at its end. -/
def sharedEnergyQeff : List (ℚ × ℚ) := [(1, 1 / 10), (2, 1 / 5), (2, 4 / 5)]

/-- A configured table of three pairs, not in energy order. -/
def threePointQE : List (ℚ × ℚ) := [(310, 1 / 10), (620, 1 / 5), (400, 3 / 10)]

/-- A simulated hit in cell `0xA` at time `2.5`, with energy inside the default
table. -/
def simHitA : SimTrackerHit := ⟨0xA, 4 / 1000000000, 5 / 2, origin⟩

/-- A table of one cell with one group of signal `-3.5`, time `2.5` and
contributor 0. -/
def oneGroupTable : HitGroups := [(0xA, [HitData.mk 3 (-7 / 2) (5 / 2) origin origin [0]])]

/-- A configuration with time resolution `0.5`, otherwise as `scenarioCfg`. -/
def halfResolutionCfg : PhotoMultiplierHitDigiConfig :=
  { scenarioCfg with timeResolution := 1 / 2 }

/-- Two noise events in cell `0xA`, at times `0.0` and `0.05`, unit amplitude. -/
def noiseCalls : List InsertCall :=
  [⟨0xA, 1, 0, origin, origin, 0, true⟩, ⟨0xA, 1, 1 / 20, origin, origin, 0, true⟩]

/-- Services of the scenarios: every cell at the origin, the sensor frame equal
to the global frame, unit constants one, `vec2pos` keeping the coordinates, no
noise cell. -/
def plainServices : Services :=
  { position := fun _ => origin, get_sensor_local_position := fun _ p => p,
    vec2pos := fun v => v, mm := 1, ns := 1, VisitRngCellIDs := fun _ => [] }

/-- A configuration with safety factor 0 and noise off, otherwise as
`scenarioCfg`. -/
def closedGateCfg : PhotoMultiplierHitDigiConfig :=
  { scenarioCfg with safetyFactor := 0, enableNoise := false }

/-- Random source whose every draw is `0.5`. -/
def halfRng : RandomSource :=
  { gaus := fun _ => 1 / 2, uniform := fun _ => 1 / 2, nGaus := 0, nUniform := 0 }

/-! ## TrackingResultTrajectory

Source: `src/algorithms/tracking/JugTrack/TrackingResultTrajectory.hpp`. The
types `Acts::VectorMultiTrajectory` and `TrackParameters` are declared in other
headers and are type parameters here. -/

/-- The index type `Acts::MultiTrajectoryTraits::IndexType`. -/
abbrev IndexType := Nat

/-- The map `IndexedParameters`, a `std::unordered_map<IndexType, TrackParameters>`,
as the list of its elements. -/
abbrev IndexedParameters (TrackParameters : Type) := List (IndexType × TrackParameters)

/-- The call `m.find(entryIndex)` of `std::unordered_map`: the mapped value of an
element with that key, `none` for `end()`. -/
def IndexedParameters.find {TrackParameters : Type} (m : IndexedParameters TrackParameters)
    (entryIndex : IndexType) : Option TrackParameters :=
  match m with
  | [] => none
  | kv :: rest => if kv.1 = entryIndex then some kv.2 else IndexedParameters.find rest entryIndex

/-- The call `m.count(entryIndex)` of `std::unordered_map`: the number of
elements with that key. -/
def IndexedParameters.count {TrackParameters : Type} (m : IndexedParameters TrackParameters)
    (entryIndex : IndexType) : Nat :=
  match m with
  | [] => 0
  | kv :: rest =>
    (if kv.1 = entryIndex then 1 else 0) + IndexedParameters.count rest entryIndex

/-- The call `std::count(first, last, value)` on a vector of indices. -/
def std_count (v : List IndexType) (value : IndexType) : Nat :=
  match v with
  | [] => 0
  | a :: rest => (if a = value then 1 else 0) + std_count rest value

/-- The struct `TrackingResultTrajectory` (lines 25-99); a null
`m_multiTrajectory` pointer is `none`. -/
structure TrackingResultTrajectory (MultiTrajectory TrackParameters : Type) where
  m_multiTrajectory : Option MultiTrajectory
  m_trackTips : List IndexType
  m_trackParameters : IndexedParameters TrackParameters

/-- The default constructor (line 36), with the member initialisers of lines
94-98. -/
def TrackingResultTrajectory.default_construct {MultiTrajectory TrackParameters : Type} :
    TrackingResultTrajectory MultiTrajectory TrackParameters :=
  ⟨none, [], []⟩

/-- The constructor from a multi trajectory, tip indices and parameters (lines
42-47). -/
def TrackingResultTrajectory.construct {MultiTrajectory TrackParameters : Type}
    (multiTraj : Option MultiTrajectory) (tTips : List IndexType)
    (parameters : IndexedParameters TrackParameters) :
    TrackingResultTrajectory MultiTrajectory TrackParameters :=
  ⟨multiTraj, tTips, parameters⟩

/-- The member `empty()` (line 50). -/
def TrackingResultTrajectory.empty {MultiTrajectory TrackParameters : Type}
    (self : TrackingResultTrajectory MultiTrajectory TrackParameters) : Bool :=
  self.m_trackTips.isEmpty

/-- The member `tips()` (lines 56-58). -/
def TrackingResultTrajectory.tips {MultiTrajectory TrackParameters : Type}
    (self : TrackingResultTrajectory MultiTrajectory TrackParameters) : List IndexType :=
  self.m_trackTips

/-- The member `hasTrajectory(entryIndex)` (lines 64-66). -/
def TrackingResultTrajectory.hasTrajectory {MultiTrajectory TrackParameters : Type}
    (self : TrackingResultTrajectory MultiTrajectory TrackParameters)
    (entryIndex : IndexType) : Bool :=
  decide (0 < std_count self.m_trackTips entryIndex)

/-- The member `hasTrackParameters(entryIndex)` (lines 72-75). -/
def TrackingResultTrajectory.hasTrackParameters {MultiTrajectory TrackParameters : Type}
    (self : TrackingResultTrajectory MultiTrajectory TrackParameters)
    (entryIndex : IndexType) : Bool :=
  decide (0 < IndexedParameters.count self.m_trackParameters entryIndex)

/-- The member `trackParameters(entryIndex)` (lines 81-90); the thrown
`std::runtime_error` is the error value with its message. -/
def TrackingResultTrajectory.trackParameters {MultiTrajectory TrackParameters : Type}
    (self : TrackingResultTrajectory MultiTrajectory TrackParameters)
    (entryIndex : IndexType) : Except String TrackParameters :=
  match IndexedParameters.find self.m_trackParameters entryIndex with
  | none =>
    Except.error
      ("No fitted track parameters for trajectory with entry index = " ++ toString entryIndex)
  | some second => Except.ok second

/-- Parameters for the entries 3 and 7 (the parameters themselves are numbers
here). -/
def exampleParameters : IndexedParameters Nat := [(3, 30), (7, 70)]

/-- A trajectory object with tips 3 and 7 and parameters for both. -/
def exampleTrajectory : TrackingResultTrajectory Unit Nat :=
  TrackingResultTrajectory.construct (some ()) [3, 7] exampleParameters

/-- A table of three points with strictly increasing energies. -/
def threePointQeff : List (ℚ × ℚ) := [(2, 1 / 5), (3, 3 / 10), (4, 1 / 10)]

/-- Two real hits in cell `0xA` at times `0.0` and `0.5`, unit amplitude, as
`InsertHit` calls. -/
def farCalls : List InsertCall :=
  [⟨0xA, 1, 0, origin, origin, 0, false⟩, ⟨0xA, 1, 1 / 2, origin, origin, 1, false⟩]

/-- A configuration with noise on, rate 2 and noise time window 3, otherwise as
`scenarioCfg`. -/
def noiseCfg : PhotoMultiplierHitDigiConfig :=
  { scenarioCfg with enableNoise := true, noiseRate := 2, noiseTimeWindow := 3 }

/-- Services whose noise generator visits cell `0xB` once, otherwise as
`plainServices`. -/
def oneNoiseCellServices : Services :=
  { plainServices with VisitRngCellIDs := fun _ => [0xB] }

/-- A configuration with pixel gaps on and pixel size 1, otherwise as
`scenarioCfg`. -/
def pixelGapCfg : PhotoMultiplierHitDigiConfig :=
  { scenarioCfg with enablePixelGaps := true, pixelSize := 1 }

/-- A simulated hit of 4 eV in cell `0xA` whose x-offset from the pixel centre is
exactly half the pixel size and whose z-offset is large. -/
def edgeHit : SimTrackerHit := ⟨0xA, 4 / 1000000000, 0, ⟨1 / 2, 0, 100⟩⟩

/-- A simulated hit of 4 eV in cell `0xA` whose y-offset from the pixel centre is
just above half the pixel size. -/
def gapHit : SimTrackerHit := ⟨0xA, 4 / 1000000000, 0, ⟨0, 51 / 100, 0⟩⟩

/-- Services in which the length unit `mm` is `1 / 10`: every cell at the origin,
the sensor frame equal to the global frame, and `vec2pos` multiplying each
coordinate by `mm`. -/
def tenthServices : Services :=
  { position := fun _ => origin, get_sensor_local_position := fun _ p => p,
    vec2pos := fun v => ⟨v.x * (1 / 10), v.y * (1 / 10), v.z * (1 / 10)⟩,
    mm := 1 / 10, ns := 1, VisitRngCellIDs := fun _ => [] }

/-- A simulated hit of 4 eV in cell `0xA` at `(0.25, -0.25, 0)`. -/
def quarterHit : SimTrackerHit := ⟨0xA, 4 / 1000000000, 0, ⟨1 / 4, -(1 / 4), 0⟩⟩

/-! ## CalorimeterIslandCluster

The class `CalorimeterIslandCluster` is used by
`src/detectors/EEMC/ProtoCluster_factory_EcalEndcapNIslandProtoClusters.h` and
exercised by `src/tests/algorithms_test/calorimetry_CalorimeterIslandCluster.cc`;
its own source (`algorithms/calorimetry/CalorimeterIslandCluster.h`) is
missing from the sources embedded here. -/

/-- A calorimeter hit (`edm4eic::CalorimeterHit`): the members set by the test
that the clustering reads; local coordinates in mm. -/
structure CalorimeterHit where
  cellID : Nat
  energy : ℚ
  local_x : ℚ
  local_y : ℚ
deriving DecidableEq, Repr

/-- A protocluster (`edm4eic::ProtoCluster`): its hits, as positions in the input
collection, and its weights. -/
structure ProtoCluster where
  hits : List Nat
  weights : List ℚ
deriving DecidableEq, Repr

/-- Modelled from the spec: the neighbour test of `CalorimeterIslandCluster` for
the metric `localDistXY`, whose source is missing. Two hits are neighbours when
the distance of their local x coordinates and the distance of their local y
coordinates are both within the thresholds `localDistXY`. -/
def is_neighbour (localDistXY : ℚ × ℚ) (h1 h2 : CalorimeterHit) : Bool :=
  decide (|h1.local_x - h2.local_x| ≤ localDistXY.1 ∧ |h1.local_y - h2.local_y| ≤ localDistXY.2)

/-- The neighbour test on positions of the input collection. -/
def neighbours (localDistXY : ℚ × ℚ) (hits : List CalorimeterHit) (i j : Nat) : Bool :=
  match hits[i]?, hits[j]? with
  | some h1, some h2 => is_neighbour localDistXY h1 h2
  | _, _ => false

/-- Modelled from the spec: one step of the grouping of `CalorimeterIslandCluster`,
whose source is missing. The hit at position `i` joins all groups formed so far
that hold a neighbour of it, and these groups become one. -/
def add_to_groups (localDistXY : ℚ × ℚ) (hits : List CalorimeterHit)
    (groups : List (List Nat)) (i : Nat) : List (List Nat) :=
  groups.filter (fun g => !g.any (fun j => neighbours localDistXY hits i j)) ++
    [(groups.filter (fun g => g.any (fun j => neighbours localDistXY hits i j))).flatten ++ [i]]

/-- Modelled from the spec: the grouping of `CalorimeterIslandCluster`, whose
source is missing: the hits are partitioned into the connected components of the
neighbour relation, built by taking the hits in input order. -/
def group_hits (localDistXY : ℚ × ℚ) (hits : List CalorimeterHit) : List (List Nat) :=
  (List.range hits.length).foldl (add_to_groups localDistXY hits) []

/-- Modelled from the spec: `CalorimeterIslandCluster::AlgorithmProcess`, whose
source is missing, for `m_splitCluster = false` and zero energy thresholds: every
group of neighbouring hits becomes one protocluster with one weight per hit. -/
def CalorimeterIslandCluster_AlgorithmProcess (localDistXY : ℚ × ℚ)
    (hits : List CalorimeterHit) : List ProtoCluster :=
  (group_hits localDistXY hits).map (fun g => ⟨g, g.map (fun _ => 1)⟩)

/-- The test input "on a single cell". -/
def singleCellHits : List CalorimeterHit := [⟨0, 5, 0, 0⟩]

/-- The test input "on two separated cells" (local offsets 1.1 mm). -/
def separatedHits : List CalorimeterHit := [⟨0, 5, 0, 0⟩, ⟨1, 6, 11 / 10, 11 / 10⟩]

/-- The test input "on two adjacent cells" (local offsets 0.9 mm). -/
def adjacentHits : List CalorimeterHit := [⟨0, 5, 0, 0⟩, ⟨1, 6, 9 / 10, 9 / 10⟩]

/-- The test input "run on three adjacent cells" (local offsets 0, 0.9, 1.8 mm). -/
def chainHits : List CalorimeterHit :=
  [⟨0, 5, 0, 0⟩, ⟨1, 1, 9 / 10, 9 / 10⟩, ⟨1, 6, 9 / 5, 9 / 5⟩]

/-- A sorted table with two points of the same energy at its start. -/
def sharedEnergyQeffLow : List (ℚ × ℚ) := [(2, 1 / 5), (2, 4 / 5), (3, 3 / 10)]

/-- The table that holds the group of `hitAt0` after its insertion into the
empty table with `scenarioCfg` and `zeroRng`. -/
def hitAt0Table : HitGroups := [(0xA, [HitData.mk 1 1 0 origin origin [0]])]

/-- A real hit and a noise event in cell `0xA`, both at time `0.0`, then a real
hit in cell `0xB`, as `InsertHit` calls. -/
def mixedCalls : List InsertCall :=
  [⟨0xA, 1, 0, origin, origin, 0, false⟩, ⟨0xA, 1, 0, origin, origin, 0, true⟩,
    ⟨0xB, 1, 0, origin, origin, 1, false⟩]

/-- The contributor lists of a table, one per (cell, group) pair, in iteration
order. -/
def HitGroups.contributors (t : HitGroups) : List (List Nat) :=
  (HitGroups.pairs t).map (fun p => p.2.sim_hit_indices)

/-- Contributor lists that are each strictly increasing with entries below `k`,
and that together hold no index twice. -/
def contributorsBelow (k : Nat) (L : List (List Nat)) : Prop :=
  (∀ l ∈ L, List.Sorted (fun a b : Nat => a < b) l ∧ ∀ i ∈ l, i < k) ∧ L.flatten.Nodup

/-- Three simulated hits of 4 eV: two in cell `0xA` at times `0.0` and `0.05`,
one in cell `0xB`. -/
def threeSimHits : List SimTrackerHit :=
  [⟨0xA, 4 / 1000000000, 0, origin⟩, ⟨0xB, 4 / 1000000000, 0, origin⟩,
    ⟨0xA, 4 / 1000000000, 1 / 20, origin⟩]

/-! ## Double-precision evaluation of `qe_pass`

Everywhere else a `double` is an exact rational. The definitions of this section
evaluate `qe_pass` with the result of every arithmetic operation rounded to the
nearest binary64 value (53-bit significand, ties to the even significand), one
rounding per operation and no fused multiply-add. The exponent range is not
bounded: overflow and subnormal values are not modelled. -/

/-- Rounding to the nearest integer, ties to the even integer. -/
def roundNearestEven (x : ℚ) : ℤ :=
  if x - ⌊x⌋ < 1 / 2 then ⌊x⌋
  else if 1 / 2 < x - ⌊x⌋ then ⌊x⌋ + 1
  else if ⌊x⌋ % 2 = 0 then ⌊x⌋ else ⌊x⌋ + 1

/-- The binary64 value nearest to `q`: with `2 ^ e ≤ |q| < 2 ^ (e + 1)` the
significand `q * 2 ^ (52 - e)` is rounded to an integer and scaled back. -/
def round_binary64 (q : ℚ) : ℚ :=
  if q = 0 then 0
  else roundNearestEven (q * 2 ^ (52 - Int.log 2 |q|)) * 2 ^ (Int.log 2 |q| - 52)

/-- The comparison passed by `qe_pass` to `interval_search` (lines 260-262), the
difference rounded to binary64. -/
def qe_comp_double (vals : ℚ × ℚ) (val : ℚ) : ℚ := round_binary64 (vals.1 - val)

/-- The function `PhotoMultiplierHitDigi::qe_pass` (lines 257-277) on a table
`qeff` of binary64 values, every difference, product, sum and quotient rounded
to binary64. -/
def qe_pass_double (qeff : List (ℚ × ℚ)) (ev rand : ℚ) : Bool :=
  let it := interval_search qeff 0 qeff.length (Nat.zero_le _) ev qe_comp_double
  if it = qeff.length then false
  else
    let prob := (deref qeff it).2
    let itn := it + 1
    let prob :=
      if itn ≠ qeff.length ∧ round_binary64 ((deref qeff itn).1 - (deref qeff it).1) ≠ 0 then
        round_binary64
          (round_binary64
              (round_binary64
                  ((deref qeff it).2 * round_binary64 ((deref qeff itn).1 - ev))
                + round_binary64
                  ((deref qeff itn).2 * round_binary64 (ev - (deref qeff it).1)))
            / round_binary64 ((deref qeff itn).1 - (deref qeff it).1))
      else prob
    decide (rand ≤ prob)

/-- The default table `{{2.6, 0.3}, {7.0, 0.3}}` of line 218 as binary64 values:
each decimal literal rounded to the nearest binary64 value. -/
def defaultQeffDouble : List (ℚ × ℚ) :=
  [(round_binary64 2.6, round_binary64 0.3), (round_binary64 7.0, round_binary64 0.3)]
/-! ## Theorems -/

/-! ### The hit-group table -/

theorem find_single (id : CellIDType) (v : List HitData) :
    GroupTable.find [(id, v)] id = some v := by
  simp [GroupTable.find]

theorem InsertHit_empty (cfg : PhotoMultiplierHitDigiConfig) (rng : RandomSource)
    (id : CellIDType) (amp : ℚ) (time : TimeType) (pl pg : Position) (idx : Nat)
    (noise : Bool) :
    InsertHit cfg rng [] id amp time pl pg idx noise =
      ([(id, [HitData.mk 1 (amp + cfg.pedMean + cfg.pedError * rng.gaus rng.nGaus) time pl pg
          (if !noise then [idx] else [])])],
        { rng with nGaus := rng.nGaus + 1 }) := by
  simp [InsertHit, GroupTable.find, GroupTable.insert, m_rngNorm]

/-- C1 (the code at the scenario input): cell `0xA`, accepted hits at times `0.0`
and `0.5`, window `0.1`. The second `InsertHit` finds the cell, finds no group
within the window, and its `insert` on the existing key adds nothing: the table
holds one group, the first hit's, with photo-electron count 1 and contributors
`[0]`, not two groups. -/
theorem C1_far_hits_leave_one_group :
    (insertHits scenarioCfg 0xA [hitAt0, hitFar] ([], zeroRng)).1
      = [(0xA, [HitData.mk 1 1 0 origin origin [0]])] := by
  simp [insertHits, InsertHit, InsertHit_loop, GroupTable.find, GroupTable.insert,
    GroupTable.assign, m_rngNorm, scenarioCfg, zeroRng, hitAt0, hitFar]
  norm_num [abs_le]

/-- Merging a list of in-window real hits into the only group of a cell. -/
theorem insertHits_single_group (cfg : PhotoMultiplierHitDigiConfig) (id : CellIDType)
    (hs : List AcceptedHit) (g : HitData) (rng : RandomSource)
    (hwin : ∀ x ∈ hs, |x.time - g.time| ≤ cfg.hitTimeWindow) :
    insertHits cfg id hs ([(id, [g])], rng) =
      ([(id, [{ g with
          npe := g.npe + hs.length
          signal := g.signal + (hs.map (fun x => x.amp)).sum
          sim_hit_indices := g.sim_hit_indices ++ hs.map (fun x => x.sim_hit_index) }])],
        rng) := by
  induction hs generalizing g with
  | nil => simp [insertHits]
  | cons h hs ih =>
    have h1 : |h.time - g.time| ≤ cfg.hitTimeWindow := hwin h (List.mem_cons_self _ _)
    have step : InsertHit cfg rng [(id, [g])] id h.amp h.time h.pos_hit_local
        h.pos_hit_global h.sim_hit_index false =
        ([(id, [{ g with
            npe := g.npe + 1
            signal := g.signal + h.amp
            sim_hit_indices := g.sim_hit_indices ++ [h.sim_hit_index] }])], rng) := by
      simp [InsertHit, InsertHit_loop, GroupTable.find, GroupTable.assign, h1]
    simp only [insertHits, step]
    rw [ih]
    · simp [Nat.add_assoc, Nat.add_comm 1, add_assoc]
    · intro x hx
      exact hwin x (List.mem_cons_of_mem _ hx)

/-- C2: for every cell and every non-empty sequence of accepted real hits of that
cell in which every later hit lies within `hitTimeWindow` of the first hit's time
(absolute difference at most the window, boundary included), inserting them in
order into the empty table gives exactly one group for the cell; its
photo-electron count is the number of hits, its contributor list is the hits'
source indices in arrival order, and its time is the first hit's. -/
theorem C2_hits_within_window_merge (cfg : PhotoMultiplierHitDigiConfig)
    (rng : RandomSource) (id : CellIDType) (h : AcceptedHit) (hs : List AcceptedHit)
    (hwin : ∀ x ∈ hs, |x.time - h.time| ≤ cfg.hitTimeWindow) :
    ∃ g : HitData,
      (insertHits cfg id (h :: hs) ([], rng)).1 = [(id, [g])] ∧
      g.npe = (h :: hs).length ∧
      g.sim_hit_indices = (h :: hs).map (fun x => x.sim_hit_index) ∧
      g.time = h.time := by
  simp only [insertHits, InsertHit_empty]
  rw [insertHits_single_group cfg id hs _ _ (by simpa using hwin)]
  exact ⟨_, rfl, by simp [Nat.add_comm], by simp, rfl⟩

/-- C2 at the scenario input: cell `0xA`, times `0.0` and `0.05`, window `0.1`
give one group with photo-electron count 2 and contributors `[0, 1]`. -/
theorem C2_hits_within_window_merge_witness :
    (∀ x ∈ [hitNear], |x.time - hitAt0.time| ≤ scenarioCfg.hitTimeWindow) ∧
    ∃ g : HitData,
      (insertHits scenarioCfg 0xA [hitAt0, hitNear] ([], zeroRng)).1 = [(0xA, [g])] ∧
      g.npe = 2 ∧ g.sim_hit_indices = [0, 1] ∧ g.time = 0 :=
  have hw : ∀ x ∈ [hitNear], |x.time - hitAt0.time| ≤ scenarioCfg.hitTimeWindow := by
    intro x hx
    simp only [List.mem_singleton] at hx
    subst hx
    norm_num [scenarioCfg, hitNear, hitAt0, abs_le]
  ⟨hw, C2_hits_within_window_merge scenarioCfg zeroRng 0xA hitAt0 [hitNear] hw⟩

/-! ### Quantum efficiency -/

theorem deref_mem (qeff : List (ℚ × ℚ)) (i : Nat) (h : i < qeff.length) :
    deref qeff i ∈ qeff := by
  unfold deref
  rw [List.getD_eq_getElem _ _ h]
  exact List.getElem_mem h

/-- The first test of `interval_search` (line 235) sends every value outside the
range of first and last energy, and every table of fewer than two points, to
the `end` position. -/
theorem interval_search_special (qeff : List (ℚ × ℚ)) (val : ℚ)
    (h : qeff.length < 2 ∨ val < (deref qeff 0).1 ∨ (deref qeff (qeff.length - 1)).1 < val) :
    interval_search qeff 0 qeff.length (Nat.zero_le _) val qe_comp = qeff.length := by
  unfold interval_search
  have hc : (qeff.length - 0 < 2 ∨ qe_comp (deref qeff 0) val > 0 ∨
      qe_comp (deref qeff (qeff.length - 1)) val < 0) := by
    rcases h with h | h | h
    · left; omega
    · right; left; unfold qe_comp; linarith
    · right; right; unfold qe_comp; linarith
  simp only [hc, if_true]

/-- C3: for every quantum-efficiency table (sorted or not), every energy strictly
below all table energies (below the minimum) or strictly above all of them
(above the maximum), and every draw, `qe_pass` returns false. -/
theorem C3_qe_pass_out_of_range (qeff : List (ℚ × ℚ)) (ev rand : ℚ)
    (h : (∀ p ∈ qeff, ev < p.1) ∨ (∀ p ∈ qeff, p.1 < ev)) :
    qe_pass qeff ev rand = false := by
  have hs : interval_search qeff 0 qeff.length (Nat.zero_le _) ev qe_comp = qeff.length := by
    apply interval_search_special
    by_cases hl : qeff.length < 2
    · exact Or.inl hl
    · right
      rcases h with h | h
      · exact Or.inl (h _ (deref_mem qeff 0 (by omega)))
      · exact Or.inr (h _ (deref_mem qeff _ (by omega)))
  unfold qe_pass
  simp only [hs, if_true]

/-- C3 on the default table: energies `2` (below `2.6`) and `8` (above `7.0`) are
rejected at draw `0`. -/
theorem C3_qe_pass_out_of_range_witness :
    ((∀ p ∈ defaultQeff, (2 : ℚ) < p.1) ∨ (∀ p ∈ defaultQeff, p.1 < (2 : ℚ))) ∧
    qe_pass defaultQeff 2 0 = false :=
  have h : (∀ p ∈ defaultQeff, (2 : ℚ) < p.1) ∨ (∀ p ∈ defaultQeff, p.1 < (2 : ℚ)) := by
    left
    intro p hp
    simp only [defaultQeff, List.mem_cons, List.mem_singleton, List.not_mem_nil, or_false] at hp
    rcases hp with hp | hp <;> subst hp <;> norm_num
  ⟨h, C3_qe_pass_out_of_range defaultQeff 2 0 h⟩

/-- Energies of a table sorted ascending are monotone in the position. -/
theorem sorted_deref_le (qeff : List (ℚ × ℚ))
    (hs : List.Sorted (fun a b : ℚ × ℚ => a.1 ≤ b.1) qeff) (i j : Nat) (hij : i ≤ j)
    (hj : j < qeff.length) : (deref qeff i).1 ≤ (deref qeff j).1 := by
  unfold deref
  rw [List.getD_eq_getElem _ _ hj, List.getD_eq_getElem _ _ (lt_of_le_of_lt hij hj)]
  rcases Nat.eq_or_lt_of_le hij with h | h
  · subst h; exact le_refl _
  · exact (List.pairwise_iff_getElem.mp hs) i j _ hj h

/-- What the loop of `interval_search` computes on a sorted table, given that all
energies before `beg` are below `val` and the energy at `en` (if any) is above. -/
theorem interval_search_loop_spec (qeff : List (ℚ × ℚ)) (val : ℚ)
    (hs : List.Sorted (fun a b : ℚ × ℚ => a.1 ≤ b.1) qeff)
    (beg en : Nat) (h : beg ≤ en) (hen : en ≤ qeff.length)
    (hlo : ∀ i, i < beg → (deref qeff i).1 < val)
    (hhi : en < qeff.length → val < (deref qeff en).1) :
    (∃ mid, interval_search_loop qeff val qe_comp beg en h = SearchLoopExit.returned mid ∧
        mid < qeff.length ∧ (deref qeff mid).1 = val) ∨
    (∃ m, interval_search_loop qeff val qe_comp beg en h = SearchLoopExit.finished m m ∧
        m ≤ qeff.length ∧ (∀ i, i < m → (deref qeff i).1 < val) ∧
        (m < qeff.length → val < (deref qeff m).1)) := by
  induction beg, en, h using interval_search_loop.induct qeff val qe_comp with
  | case1 beg en h mid hm hc =>
    left
    refine ⟨mid, ?_, ?_, ?_⟩
    · rw [interval_search_loop]; simp only [mid] at hm hc ⊢; simp [hm, hc]
    · simp only [mid] at hm ⊢; omega
    · simp only [qe_comp] at hc; linarith
  | case2 beg en h mid hm hc hgt ih =>
    rw [interval_search_loop]
    simp only [mid] at hm hc hgt ih ⊢
    simp only [hm, hc, hgt, ne_eq, not_false_eq_true, dite_true, if_true, if_false]
    apply ih (by omega) hlo
    intro _
    simp only [qe_comp] at hgt; linarith
  | case3 beg en h mid hm hc hgt ih =>
    rw [interval_search_loop]
    simp only [mid] at hm hc hgt ih ⊢
    simp only [hm, hc, hgt, ne_eq, not_false_eq_true, dite_true, if_true, if_false]
    apply ih hen _ hhi
    intro i hi
    have h1 : (deref qeff i).1 ≤ (deref qeff (beg + (en - beg) / 2)).1 :=
      sorted_deref_le qeff hs i _ (by omega) (by omega)
    have h2 : (deref qeff (beg + (en - beg) / 2)).1 < val := by
      simp only [qe_comp] at hc hgt
      rcases lt_trichotomy ((deref qeff (beg + (en - beg) / 2)).1) val with h3 | h3 | h3
      · exact h3
      · exact absurd (by linarith) hc
      · exact absurd (by linarith) hgt
    linarith
  | case4 beg en h mid hm =>
    right
    simp only [mid] at hm
    have hbe : beg = en := by omega
    subst hbe
    refine ⟨beg, ?_, hen, hlo, hhi⟩
    rw [interval_search_loop]; simp

/-- On a sorted table of at least two points and a value within the range of the
first and last energy, `interval_search` returns a position of the table whose
energy equals the value, or the position just below the value between two
adjacent energies. -/
theorem interval_search_spec (qeff : List (ℚ × ℚ)) (val : ℚ)
    (hs : List.Sorted (fun a b : ℚ × ℚ => a.1 ≤ b.1) qeff) (hn : 2 ≤ qeff.length)
    (hlo : (deref qeff 0).1 ≤ val) (hhi : val ≤ (deref qeff (qeff.length - 1)).1) :
    ∃ it, interval_search qeff 0 qeff.length (Nat.zero_le _) val qe_comp = it ∧
      it < qeff.length ∧
      ((deref qeff it).1 = val ∨
        (it + 1 < qeff.length ∧ (deref qeff it).1 < val ∧ val < (deref qeff (it + 1)).1)) := by
  have hc : ¬ (qeff.length - 0 < 2 ∨ qe_comp (deref qeff 0) val > 0 ∨
      qe_comp (deref qeff (qeff.length - 1)) val < 0) := by
    simp only [qe_comp]
    rintro (h | h | h)
    · omega
    · linarith
    · linarith
  unfold interval_search
  simp only [hc, if_false]
  rcases interval_search_loop_spec qeff val hs 0 qeff.length (Nat.zero_le _) (le_refl _)
      (fun i hi => absurd hi (Nat.not_lt_zero i)) (fun h => absurd h (lt_irrefl _)) with
    ⟨mid, he, hm, hv⟩ | ⟨m, he, hm, hb, ha⟩
  · rw [he]
    exact ⟨mid, rfl, hm, Or.inl hv⟩
  · rw [he]
    simp only [true_or, if_true]
    have hm0 : m ≠ 0 := by
      rintro rfl
      have := ha (by omega)
      linarith
    have hmn : m ≠ qeff.length := by
      rintro rfl
      have := hb (qeff.length - 1) (by omega)
      linarith
    have hlt : m < qeff.length := lt_of_le_of_ne hm hmn
    refine ⟨m - 1, rfl, by omega, Or.inr ⟨by omega, hb _ (by omega), ?_⟩⟩
    have : m - 1 + 1 = m := by omega
    rw [this]
    exact ha hlt

/-- The two ways `qe_pass` ends, in terms of `qe_prob`. -/
theorem qe_pass_eq (qeff : List (ℚ × ℚ)) (ev rand : ℚ) :
    qe_pass qeff ev rand =
      match qe_prob qeff ev with
      | none => false
      | some prob => decide (rand ≤ prob) := by
  unfold qe_pass qe_prob
  by_cases h : interval_search qeff 0 qeff.length (Nat.zero_le _) ev qe_comp = qeff.length
  · simp only [h, if_true]
  · simp only [h, if_false]
    split_ifs <;> rfl

/-- On a sorted table of at least two points and an energy within the range of
the first and last energy, `qe_pass` reaches line 276 with `prob` equal to the
efficiency of a table point of that energy, or to the linear interpolation
between the two adjacent points that enclose the energy. -/
theorem qe_prob_spec (qeff : List (ℚ × ℚ)) (ev : ℚ)
    (hs : List.Sorted (fun a b : ℚ × ℚ => a.1 ≤ b.1) qeff) (hn : 2 ≤ qeff.length)
    (hlo : (deref qeff 0).1 ≤ ev) (hhi : ev ≤ (deref qeff (qeff.length - 1)).1) :
    ∃ it prob, qe_prob qeff ev = some prob ∧ it < qeff.length ∧
      (((deref qeff it).1 = ev ∧ prob = (deref qeff it).2) ∨
        (it + 1 < qeff.length ∧ (deref qeff it).1 < ev ∧ ev < (deref qeff (it + 1)).1 ∧
          prob = ((deref qeff it).2 * ((deref qeff (it + 1)).1 - ev)
              + (deref qeff (it + 1)).2 * (ev - (deref qeff it).1))
            / ((deref qeff (it + 1)).1 - (deref qeff it).1))) := by
  obtain ⟨it, hit, hlt, hcase⟩ := interval_search_spec qeff ev hs hn hlo hhi
  have hne : it ≠ qeff.length := Nat.ne_of_lt hlt
  unfold qe_prob
  simp only [hit, hne, if_false]
  by_cases hc : it + 1 ≠ qeff.length ∧ (deref qeff (it + 1)).1 - (deref qeff it).1 ≠ 0
  · simp only [hc, ne_eq, not_false_eq_true, and_self, if_true]
    refine ⟨it, _, rfl, hlt, ?_⟩
    rcases hcase with he | ⟨h1, h2, h3⟩
    · left
      refine ⟨he, ?_⟩
      have hd := hc.2
      rw [← he]
      field_simp
    · right
      exact ⟨h1, h2, h3, rfl⟩
  · simp only [hc, if_false]
    refine ⟨it, _, rfl, hlt, ?_⟩
    rcases hcase with he | ⟨h1, h2, h3⟩
    · exact Or.inl ⟨he, rfl⟩
    · exfalso
      apply hc
      refine ⟨by omega, ?_⟩
      intro h0
      linarith

/-- Linear interpolation between two values in `[lo, hi]` stays in `[lo, hi]`. -/
theorem interpolation_bounds (e1 e2 q1 q2 ev lo hi : ℚ) (h1 : e1 < ev) (h2 : ev < e2)
    (hq1 : lo ≤ q1 ∧ q1 ≤ hi) (hq2 : lo ≤ q2 ∧ q2 ≤ hi) :
    lo ≤ (q1 * (e2 - ev) + q2 * (ev - e1)) / (e2 - e1) ∧
      (q1 * (e2 - ev) + q2 * (ev - e1)) / (e2 - e1) ≤ hi := by
  have hd : 0 < e2 - e1 := by linarith
  have ha : 0 < e2 - ev := by linarith
  have hb : 0 < ev - e1 := by linarith
  constructor
  · rw [le_div_iff₀ hd]
    nlinarith [mul_nonneg (sub_nonneg.mpr hq1.1) ha.le, mul_nonneg (sub_nonneg.mpr hq2.1) hb.le]
  · rw [div_le_iff₀ hd]
    nlinarith [mul_nonneg (sub_nonneg.mpr hq1.2) ha.le, mul_nonneg (sub_nonneg.mpr hq2.2) hb.le]

theorem defaultQeff_sorted : List.Sorted (fun a b : ℚ × ℚ => a.1 ≤ b.1) defaultQeff := by
  simp only [defaultQeff, List.Sorted, List.pairwise_cons, List.mem_singleton,
    List.not_mem_nil, forall_eq, List.Pairwise.nil, and_true]
  norm_num

/-- Energies of a table with strictly increasing energies are strictly monotone
in the position. -/
theorem strict_deref_lt (qeff : List (ℚ × ℚ))
    (hs : List.Sorted (fun a b : ℚ × ℚ => a.1 < b.1) qeff) (i j : Nat) (hij : i < j)
    (hj : j < qeff.length) : (deref qeff i).1 < (deref qeff j).1 := by
  unfold deref
  rw [List.getD_eq_getElem _ _ hj, List.getD_eq_getElem _ _ (lt_trans hij hj)]
  exact (List.pairwise_iff_getElem.mp hs) i j _ hj hij

theorem strict_sorted_le (qeff : List (ℚ × ℚ))
    (hs : List.Sorted (fun a b : ℚ × ℚ => a.1 < b.1) qeff) :
    List.Sorted (fun a b : ℚ × ℚ => a.1 ≤ b.1) qeff :=
  List.Pairwise.imp (fun h => le_of_lt h) hs

/-- On a table with strictly increasing energies, for any two adjacent points
that enclose the energy, `qe_pass` compares the draw with the linear
interpolation between these two points. -/
theorem qe_prob_strict (qeff : List (ℚ × ℚ))
    (hs : List.Sorted (fun a b : ℚ × ℚ => a.1 < b.1) qeff) (k : Nat)
    (hk : k + 1 < qeff.length) (ev : ℚ)
    (hlo : (deref qeff k).1 ≤ ev) (hhi : ev ≤ (deref qeff (k + 1)).1) :
    qe_prob qeff ev =
      some (((deref qeff k).2 * ((deref qeff (k + 1)).1 - ev)
            + (deref qeff (k + 1)).2 * (ev - (deref qeff k).1))
          / ((deref qeff (k + 1)).1 - (deref qeff k).1)) := by
  have hle := strict_sorted_le qeff hs
  have h0 : (deref qeff 0).1 ≤ ev :=
    le_trans (sorted_deref_le qeff hle 0 k (Nat.zero_le _) (by omega)) hlo
  have hN : ev ≤ (deref qeff (qeff.length - 1)).1 :=
    le_trans hhi (sorted_deref_le qeff hle (k + 1) _ (by omega) (by omega))
  have hd : (deref qeff k).1 < (deref qeff (k + 1)).1 :=
    strict_deref_lt qeff hs k (k + 1) (by omega) hk
  have hd0 : (deref qeff (k + 1)).1 - (deref qeff k).1 ≠ 0 := by
    intro h; linarith
  obtain ⟨it, prob, hp, hlt, hcase⟩ := qe_prob_spec qeff ev hle (by omega) h0 hN
  rw [hp]
  congr 1
  rcases hcase with ⟨he, hpr⟩ | ⟨h1, h2, h3, hpr⟩
  · have hk1 : k ≤ it := by
      by_contra hc
      have := strict_deref_lt qeff hs it k (by omega) (by omega)
      linarith
    have hk2 : it ≤ k + 1 := by
      by_contra hc
      have := strict_deref_lt qeff hs (k + 1) it (by omega) hlt
      linarith
    rcases Nat.eq_or_lt_of_le hk1 with h | h
    · subst h
      rw [hpr, ← he]
      field_simp
    · have h' : it = k + 1 := by omega
      subst h'
      rw [hpr, ← he]
      field_simp
  · have hk1 : k ≤ it := by
      by_contra hc
      have := sorted_deref_le qeff hle (it + 1) k (by omega) (by omega)
      linarith
    have hk2 : it ≤ k := by
      by_contra hc
      have := sorted_deref_le qeff hle (k + 1) it (by omega) hlt
      linarith
    have h' : it = k := by omega
    subst h'
    exact hpr

theorem std_sort_by_energy_sorted (l : List (ℚ × ℚ)) :
    List.Sorted (fun a b : ℚ × ℚ => a.1 ≤ b.1) (std_sort_by_energy l) := by
  haveI : IsTotal (ℚ × ℚ) (fun a b => a.1 ≤ b.1) := ⟨fun a b => le_total a.1 b.1⟩
  haveI : IsTrans (ℚ × ℚ) (fun a b => a.1 ≤ b.1) := ⟨fun _ _ _ h1 h2 => le_trans h1 h2⟩
  exact List.sorted_insertionSort _ l

theorem std_sort_by_energy_perm (l : List (ℚ × ℚ)) : (std_sort_by_energy l).Perm l :=
  List.perm_insertionSort _ l

/-- C6: for every positive `hc` and every configured list of (wavelength,
efficiency) pairs with positive wavelengths, the table left by `qe_init` is
non-empty and sorted ascending by energy, with positive energies; it is the
default table `[(2.6, 0.3), (7.0, 0.3)]` when nothing is configured, and
otherwise a permutation of the configured points converted by
`energy = hc / wavelength` (so it has the configured length and efficiencies). -/
theorem C6_qe_init_table (hc : ℚ) (cfg : PhotoMultiplierHitDigiConfig) (hhc : 0 < hc)
    (hwl : ∀ p ∈ cfg.quantumEfficiency, 0 < p.1) :
    qe_init hc cfg ≠ [] ∧
    List.Sorted (fun a b : ℚ × ℚ => a.1 ≤ b.1) (qe_init hc cfg) ∧
    (∀ p ∈ qe_init hc cfg, 0 < p.1) ∧
    (cfg.quantumEfficiency = [] → qe_init hc cfg = [(2.6, 0.3), (7.0, 0.3)]) ∧
    (cfg.quantumEfficiency ≠ [] →
      (qe_init hc cfg).Perm (cfg.quantumEfficiency.map (fun p => (hc / p.1, p.2))) ∧
      (qe_init hc cfg).length = cfg.quantumEfficiency.length ∧
      ((qe_init hc cfg).map Prod.snd).Perm (cfg.quantumEfficiency.map Prod.snd)) := by
  have hperm := std_sort_by_energy_perm (cfg.quantumEfficiency.map (fun p => (hc / p.1, p.2)))
  by_cases he : cfg.quantumEfficiency = []
  · have hq : qe_init hc cfg = [(2.6, 0.3), (7.0, 0.3)] := by
      simp [qe_init, he, std_sort_by_energy]
    rw [hq]
    refine ⟨by simp, ?_, ?_, fun _ => rfl, fun h => absurd he h⟩
    · simp only [List.Sorted, List.pairwise_cons, List.mem_singleton, List.not_mem_nil,
        forall_eq, List.Pairwise.nil, and_true]
      norm_num
    · intro p hp
      simp only [List.mem_cons, List.mem_singleton, List.not_mem_nil, or_false] at hp
      rcases hp with hp | hp <;> subst hp <;> norm_num
  · have hne : std_sort_by_energy (cfg.quantumEfficiency.map (fun p => (hc / p.1, p.2))) ≠ [] := by
      intro h
      rw [h] at hperm
      have := hperm.length_eq
      simp only [List.length_nil, List.length_map] at this
      exact he (List.length_eq_zero.mp this.symm)
    have hq : qe_init hc cfg =
        std_sort_by_energy (cfg.quantumEfficiency.map (fun p => (hc / p.1, p.2))) := by
      simp only [qe_init, List.isEmpty_iff, hne, if_false]
    rw [hq]
    refine ⟨hne, std_sort_by_energy_sorted _, ?_, fun h => absurd h he, fun _ => ⟨hperm, ?_, ?_⟩⟩
    · intro p hp
      have hp' := hperm.mem_iff.mp hp
      simp only [List.mem_map] at hp'
      obtain ⟨a, ha, rfl⟩ := hp'
      exact div_pos hhc (hwl a ha)
    · simpa using hperm.length_eq
    · have := hperm.map Prod.snd
      simpa [List.map_map, Function.comp_def] using this

/-- C6 at `hc = 1240` and the configured pairs (310, 0.1), (620, 0.2), (400, 0.3):
the table is these points by ascending energy, `[(2, 0.2), (3.1, 0.3), (4, 0.1)]`. -/
theorem C6_qe_init_table_witness :
    ((0 : ℚ) < 1240 ∧ ∀ p ∈ (cfgWithQE threePointQE).quantumEfficiency, 0 < p.1) ∧
    qe_init 1240 (cfgWithQE threePointQE) = [(2, 1 / 5), (31 / 10, 3 / 10), (4, 1 / 10)] ∧
    List.Sorted (fun a b : ℚ × ℚ => a.1 ≤ b.1) (qe_init 1240 (cfgWithQE threePointQE)) ∧
    (qe_init 1240 (cfgWithQE threePointQE)).length = 3 := by
  have hwl : ∀ p ∈ (cfgWithQE threePointQE).quantumEfficiency, 0 < p.1 := by
    intro p hp
    simp only [cfgWithQE, threePointQE, List.mem_cons, List.mem_singleton, List.not_mem_nil,
      or_false] at hp
    rcases hp with hp | hp | hp <;> subst hp <;> norm_num
  have hne : (cfgWithQE threePointQE).quantumEfficiency ≠ [] := by
    simp [cfgWithQE, threePointQE]
  have h := C6_qe_init_table 1240 (cfgWithQE threePointQE) (by norm_num) hwl
  refine ⟨⟨by norm_num, hwl⟩, ?_, h.2.1, ?_⟩
  · norm_num [qe_init, cfgWithQE, threePointQE, std_sort_by_energy, List.insertionSort,
      List.orderedInsert]
  · rw [(h.2.2.2.2 hne).2.1]
    simp [cfgWithQE, threePointQE]

/-! ### Tables: membership and bookkeeping -/

theorem find_some_mem {α : Type} (t : GroupTable α) (id : CellIDType) (v : List α)
    (h : GroupTable.find t id = some v) : (id, v) ∈ t := by
  induction t with
  | nil => simp [GroupTable.find] at h
  | cons kv rest ih =>
    unfold GroupTable.find at h
    by_cases hk : kv.1 = id
    · simp only [hk, if_true, Option.some.injEq] at h
      subst hk; subst h
      exact List.mem_cons_self _ _
    · simp only [hk, if_false] at h
      exact List.mem_cons_of_mem _ (ih h)

theorem mem_assign {α : Type} (t : GroupTable α) (id : CellIDType) (v : List α)
    (kv : CellIDType × List α) (h : kv ∈ GroupTable.assign t id v) :
    kv ∈ t ∨ kv = (id, v) := by
  induction t with
  | nil => simp [GroupTable.assign] at h
  | cons a rest ih =>
    unfold GroupTable.assign at h
    by_cases hk : a.1 = id
    · simp only [hk, if_true, List.mem_cons] at h
      rcases h with h | h
      · exact Or.inr h
      · exact Or.inl (List.mem_cons_of_mem _ h)
    · simp only [hk, if_false, List.mem_cons] at h
      rcases h with h | h
      · exact Or.inl (h ▸ List.mem_cons_self _ _)
      · rcases ih h with h' | h'
        · exact Or.inl (List.mem_cons_of_mem _ h')
        · exact Or.inr h'

theorem mem_insert {α : Type} (t : GroupTable α) (id : CellIDType) (v : List α)
    (kv : CellIDType × List α) (h : kv ∈ GroupTable.insert t id v) :
    kv ∈ t ∨ kv = (id, v) := by
  unfold GroupTable.insert at h
  cases hf : GroupTable.find t id with
  | some w => rw [hf] at h; exact Or.inl h
  | none =>
    rw [hf] at h
    simp only [List.mem_append, List.mem_singleton] at h
    exact h

theorem find_erase (t : TracedGroups) (id : CellIDType) :
    GroupTable.find (TracedGroups.erase t) id =
      (GroupTable.find t id).map (List.map Prod.fst) := by
  induction t with
  | nil => rfl
  | cons kv rest ih =>
    simp only [TracedGroups.erase, List.map_cons, GroupTable.find] at ih ⊢
    by_cases hk : kv.1 = id
    · simp [hk]
    · simp only [hk, if_false]
      exact ih

theorem assign_erase (t : TracedGroups) (id : CellIDType) (v : List (HitData × GroupRecord)) :
    TracedGroups.erase (GroupTable.assign t id v) =
      GroupTable.assign (TracedGroups.erase t) id (v.map Prod.fst) := by
  induction t with
  | nil => rfl
  | cons kv rest ih =>
    simp only [TracedGroups.erase, List.map_cons, GroupTable.assign] at ih ⊢
    by_cases hk : kv.1 = id
    · simp [hk]
    · simp only [hk, if_false, List.map_cons, List.cons.injEq, true_and]
      exact ih

theorem insert_erase (t : TracedGroups) (id : CellIDType) (v : List (HitData × GroupRecord)) :
    TracedGroups.erase (GroupTable.insert t id v) =
      GroupTable.insert (TracedGroups.erase t) id (v.map Prod.fst) := by
  unfold GroupTable.insert
  rw [find_erase]
  cases hf : GroupTable.find t id with
  | some w => simp
  | none => simp [TracedGroups.erase]

theorem loop_erase (cfg : PhotoMultiplierHitDigiConfig) (amp : ℚ) (time : TimeType)
    (idx : Nat) (noise : Bool) (l : List (HitData × GroupRecord)) (i : Nat) :
    InsertHit_loop cfg amp time idx noise (l.map Prod.fst) i =
      ((InsertHit_loop_traced cfg amp time idx noise l i).1.map Prod.fst,
        (InsertHit_loop_traced cfg amp time idx noise l i).2) := by
  induction l generalizing i with
  | nil => rfl
  | cons g rest ih =>
    simp only [List.map_cons, InsertHit_loop, InsertHit_loop_traced]
    by_cases hw : |time - g.1.time| ≤ cfg.hitTimeWindow
    · simp [hw]
    · simp only [hw, if_false, List.map_cons]
      rw [ih]

/-- The bookkeeping does not change what `InsertHit` computes. -/
theorem InsertHit_traced_erase (cfg : PhotoMultiplierHitDigiConfig) (rng : RandomSource)
    (t : TracedGroups) (id : CellIDType) (amp : ℚ) (time : TimeType) (pl pg : Position)
    (idx : Nat) (noise : Bool) :
    InsertHit cfg rng (TracedGroups.erase t) id amp time pl pg idx noise =
      (TracedGroups.erase (InsertHit_traced cfg rng t id amp time pl pg idx noise).1,
        (InsertHit_traced cfg rng t id amp time pl pg idx noise).2) := by
  unfold InsertHit InsertHit_traced
  rw [find_erase]
  cases hf : GroupTable.find t id with
  | none => simp [insert_erase]
  | some groups =>
    simp only [Option.map_some', loop_erase, List.length_map]
    by_cases hc : (InsertHit_loop_traced cfg amp time idx noise groups 0).2 ≥
        (InsertHit_loop_traced cfg amp time idx noise groups 0).1.length
    · simp only [hc, if_true, insert_erase, assign_erase, List.map_cons, List.map_nil]
    · simp only [hc, if_false, assign_erase]

theorem run_calls_traced_erase (cfg : PhotoMultiplierHitDigiConfig) (calls : List InsertCall)
    (t : TracedGroups) (rng : RandomSource) :
    run_calls cfg calls (TracedGroups.erase t, rng) =
      (TracedGroups.erase (run_calls_traced cfg calls (t, rng)).1,
        (run_calls_traced cfg calls (t, rng)).2) := by
  induction calls generalizing t rng with
  | nil => rfl
  | cons c cs ih =>
    simp only [run_calls, run_calls_traced]
    rw [InsertHit_traced_erase]
    exact ih _ _

theorem explains_mono (cfg : PhotoMultiplierHitDigiConfig) (gaus : Nat → ℚ) (n0 n1 n2 : Nat)
    (h12 : n1 ≤ n2) (gr : HitData × GroupRecord)
    (h : GroupRecord.explains cfg gaus n0 n1 gr) : GroupRecord.explains cfg gaus n0 n2 gr := by
  obtain ⟨h1, h2, n, hn0, hn1, hd⟩ := h
  exact ⟨h1, h2, n, hn0, lt_of_lt_of_le hn1 h12, hd⟩

theorem loop_traced_explains (cfg : PhotoMultiplierHitDigiConfig) (gaus : Nat → ℚ)
    (n0 n1 : Nat) (amp : ℚ) (time : TimeType) (idx : Nat) (noise : Bool)
    (l : List (HitData × GroupRecord)) (i : Nat)
    (h : ∀ gr ∈ l, GroupRecord.explains cfg gaus n0 n1 gr) :
    ∀ gr ∈ (InsertHit_loop_traced cfg amp time idx noise l i).1,
      GroupRecord.explains cfg gaus n0 n1 gr := by
  induction l generalizing i with
  | nil => intro gr hgr; simp [InsertHit_loop_traced] at hgr
  | cons g rest ih =>
    intro gr hgr
    unfold InsertHit_loop_traced at hgr
    by_cases hw : |time - g.1.time| ≤ cfg.hitTimeWindow
    · simp only [hw, if_true, List.mem_cons] at hgr
      rcases hgr with hgr | hgr
      · obtain ⟨h1, h2, hn⟩ := h g (List.mem_cons_self _ _)
        subst hgr
        refine ⟨?_, ?_, hn⟩
        · simp only [List.sum_append, List.sum_cons, List.sum_nil]
          rw [h1]; ring
        · simp only [List.length_append, List.length_singleton]
          rw [h2]
      · exact h gr (List.mem_cons_of_mem _ hgr)
    · simp only [hw, if_false, List.mem_cons] at hgr
      rcases hgr with hgr | hgr
      · exact h gr (hgr ▸ List.mem_cons_self _ _)
      · exact ih (i + 1) (fun x hx => h x (List.mem_cons_of_mem _ hx)) gr hgr

/-- One `InsertHit` call keeps every record true to its group. -/
theorem InsertHit_traced_explains (cfg : PhotoMultiplierHitDigiConfig) (gaus : Nat → ℚ)
    (n0 : Nat) (rng : RandomSource) (t : TracedGroups) (id : CellIDType) (amp : ℚ)
    (time : TimeType) (pl pg : Position) (idx : Nat) (noise : Bool)
    (hg : rng.gaus = gaus) (hn : n0 ≤ rng.nGaus)
    (h : ∀ kv ∈ t, ∀ gr ∈ kv.2, GroupRecord.explains cfg gaus n0 rng.nGaus gr) :
    (InsertHit_traced cfg rng t id amp time pl pg idx noise).2.gaus = gaus ∧
    n0 ≤ (InsertHit_traced cfg rng t id amp time pl pg idx noise).2.nGaus ∧
    ∀ kv ∈ (InsertHit_traced cfg rng t id amp time pl pg idx noise).1, ∀ gr ∈ kv.2,
      GroupRecord.explains cfg gaus n0
        (InsertHit_traced cfg rng t id amp time pl pg idx noise).2.nGaus gr := by
  have hnew : ∀ (indices : List Nat),
      GroupRecord.explains cfg gaus n0 (rng.nGaus + 1)
        (HitData.mk 1 (amp + cfg.pedMean + cfg.pedError * (m_rngNorm rng).1) time pl pg indices,
          ⟨(m_rngNorm rng).1, [amp]⟩) := by
    intro indices
    refine ⟨?_, rfl, rng.nGaus, hn, Nat.lt_succ_self _, ?_⟩
    · simp only [List.sum_cons, List.sum_nil]; ring
    · simp [m_rngNorm, hg]
  unfold InsertHit_traced
  cases hf : GroupTable.find t id with
  | none =>
    refine ⟨hg, Nat.le_succ_of_le hn, ?_⟩
    intro kv hkv gr hgr
    rcases mem_insert _ _ _ _ hkv with hk | hk
    · exact explains_mono cfg gaus n0 _ _ (Nat.le_succ _) gr (h kv hk gr hgr)
    · subst hk
      simp only [List.mem_singleton] at hgr
      subst hgr
      exact hnew _
  | some groups =>
    have hgroups : ∀ gr ∈ groups, GroupRecord.explains cfg gaus n0 rng.nGaus gr :=
      h _ (find_some_mem t id groups hf)
    have hloop := loop_traced_explains cfg gaus n0 rng.nGaus amp time idx noise groups 0 hgroups
    have hassign : ∀ kv ∈ GroupTable.assign t id
        (InsertHit_loop_traced cfg amp time idx noise groups 0).1, ∀ gr ∈ kv.2,
        GroupRecord.explains cfg gaus n0 rng.nGaus gr := by
      intro kv hkv gr hgr
      rcases mem_assign _ _ _ _ hkv with hk | hk
      · exact h kv hk gr hgr
      · subst hk; exact hloop gr hgr
    by_cases hc : (InsertHit_loop_traced cfg amp time idx noise groups 0).2 ≥
        (InsertHit_loop_traced cfg amp time idx noise groups 0).1.length
    · simp only [hc, if_true]
      refine ⟨hg, Nat.le_succ_of_le hn, ?_⟩
      intro kv hkv gr hgr
      rcases mem_insert _ _ _ _ hkv with hk | hk
      · exact explains_mono cfg gaus n0 _ _ (Nat.le_succ _) gr (hassign kv hk gr hgr)
      · subst hk
        simp only [List.mem_singleton] at hgr
        subst hgr
        exact hnew _
    · simp only [hc, if_false]
      exact ⟨hg, hn, hassign⟩

theorem run_calls_traced_explains (cfg : PhotoMultiplierHitDigiConfig) (gaus : Nat → ℚ)
    (n0 : Nat) (calls : List InsertCall) (t : TracedGroups) (rng : RandomSource)
    (hg : rng.gaus = gaus) (hn : n0 ≤ rng.nGaus)
    (h : ∀ kv ∈ t, ∀ gr ∈ kv.2, GroupRecord.explains cfg gaus n0 rng.nGaus gr) :
    ∀ kv ∈ (run_calls_traced cfg calls (t, rng)).1, ∀ gr ∈ kv.2,
      GroupRecord.explains cfg gaus n0 (run_calls_traced cfg calls (t, rng)).2.nGaus gr := by
  induction calls generalizing t rng with
  | nil => exact h
  | cons c cs ih =>
    simp only [run_calls_traced]
    obtain ⟨h1, h2, h3⟩ := InsertHit_traced_explains cfg gaus n0 rng t c.id c.amp c.time
      c.pos_hit_local c.pos_hit_global c.sim_hit_index c.is_noise_hit hg hn h
    exact ih _ _ h1 h2 h3

/-- C7: for every sequence of `InsertHit` calls (real hits and noise events) from
the empty table, the run with bookkeeping computes the same table and random
source as the plain run, and for every group of the table the accumulated signal
is `pedMean + pedError * g + (sum of the recorded amplitudes)`, where the
recorded amplitudes are those of the creating call and of the calls merged into
the group (one per photo-electron) and `g` is the one standard-normal draw taken
at the creation of the group: the pedestal enters once per group. -/
theorem C7_pedestal_once_per_group (cfg : PhotoMultiplierHitDigiConfig)
    (rng : RandomSource) (calls : List InsertCall) :
    run_calls cfg calls ([], rng) =
      (TracedGroups.erase (run_calls_traced cfg calls ([], rng)).1,
        (run_calls_traced cfg calls ([], rng)).2) ∧
    ∀ kv ∈ (run_calls_traced cfg calls ([], rng)).1, ∀ gr ∈ kv.2,
      gr.1.signal = cfg.pedMean + cfg.pedError * gr.2.draw + gr.2.amps.sum ∧
      gr.2.amps.length = gr.1.npe ∧
      ∃ n, rng.nGaus ≤ n ∧ n < (run_calls_traced cfg calls ([], rng)).2.nGaus ∧
        gr.2.draw = rng.gaus n := by
  refine ⟨run_calls_traced_erase cfg calls [] rng, ?_⟩
  exact run_calls_traced_explains cfg rng.gaus rng.nGaus calls [] rng rfl (le_refl _)
    (fun kv hkv => absurd hkv (List.not_mem_nil _))

/-! ### The output builder -/

theorem addToSimHits_valid (sim_hits : List SimTrackerHit) (idxs : List Nat)
    (h : ∀ i ∈ idxs, i < sim_hits.length) :
    ∃ hits, addToSimHits sim_hits idxs = some hits ∧
      hits.map some = idxs.map (fun i => sim_hits[i]?) := by
  induction idxs with
  | nil => exact ⟨[], rfl, rfl⟩
  | cons i rest ih =>
    obtain ⟨hits, h1, h2⟩ := ih (fun j hj => h j (List.mem_cons_of_mem _ hj))
    have hi : i < sim_hits.length := h i (List.mem_cons_self _ _)
    refine ⟨sim_hits[i] :: hits, ?_, ?_⟩
    · simp [addToSimHits, List.getElem?_eq_getElem hi, h1]
    · simp [List.getElem?_eq_getElem hi, h2]

/-- What the inner output loop adds for the groups of one cell. -/
theorem build_cell_spec (cfg : PhotoMultiplierHitDigiConfig) (sim_hits : List SimTrackerHit)
    (id : CellIDType) (gs : List HitData) (result : PhotoMultiplierHitDigiResult)
    (hv : ∀ g ∈ gs, ∀ i ∈ g.sim_hit_indices, i < sim_hits.length) :
    ∃ r, build_cell cfg sim_hits id gs result = some r ∧
      r.raw_hits = result.raw_hits ++ gs.map (fun g =>
        (⟨id, static_cast_int g.signal, static_cast_int (g.time / cfg.timeResolution)⟩ :
          RawTrackerHit)) ∧
      r.hit_assocs.map MCRecoTrackerHitAssociation.content =
        result.hit_assocs.map MCRecoTrackerHitAssociation.content ++
          ((List.enumFrom result.raw_hits.length (gs.map (fun g => (id, g)))).filter
            (fun kp => !kp.2.2.sim_hit_indices.isEmpty)).map
            (fun kp => ((1 : ℚ), kp.1, kp.2.2.sim_hit_indices.map (fun i => sim_hits[i]?))) := by
  induction gs generalizing result with
  | nil => exact ⟨result, rfl, by simp, by simp⟩
  | cons g rest ih =>
    have hrest : ∀ g' ∈ rest, ∀ i ∈ g'.sim_hit_indices, i < sim_hits.length :=
      fun g' hg' => hv g' (List.mem_cons_of_mem _ hg')
    obtain ⟨hits, hh1, hh2⟩ := addToSimHits_valid sim_hits g.sim_hit_indices
      (hv g (List.mem_cons_self _ _))
    unfold build_cell
    by_cases he : g.sim_hit_indices.isEmpty = true
    · simp only [he, Bool.not_true, Bool.false_eq_true, if_false]
      obtain ⟨r, hr1, hr2, hr3⟩ := ih ⟨result.raw_hits ++ [_], result.hit_assocs⟩ hrest
      refine ⟨r, hr1, ?_, ?_⟩
      · rw [hr2]; simp
      · rw [hr3]
        simp [List.enumFrom_cons, List.filter_cons, he]
    · simp only [he, Bool.not_false, if_true, hh1]
      obtain ⟨r, hr1, hr2, hr3⟩ := ih ⟨result.raw_hits ++ [_], result.hit_assocs ++ [_]⟩ hrest
      refine ⟨r, hr1, ?_, ?_⟩
      · rw [hr2]; simp
      · rw [hr3]
        simp [List.enumFrom_cons, List.filter_cons, he,
          MCRecoTrackerHitAssociation.content, hh2]

/-- What the output loops add for a table. -/
theorem build_output_spec (cfg : PhotoMultiplierHitDigiConfig) (sim_hits : List SimTrackerHit)
    (t : HitGroups) (result : PhotoMultiplierHitDigiResult)
    (hv : HitGroups.indicesValid t sim_hits) :
    ∃ r, build_output cfg sim_hits t result = some r ∧
      r.raw_hits = result.raw_hits ++ (HitGroups.pairs t).map (fun p =>
        (⟨p.1, static_cast_int p.2.signal, static_cast_int (p.2.time / cfg.timeResolution)⟩ :
          RawTrackerHit)) ∧
      r.hit_assocs.map MCRecoTrackerHitAssociation.content =
        result.hit_assocs.map MCRecoTrackerHitAssociation.content ++
          ((List.enumFrom result.raw_hits.length (HitGroups.pairs t)).filter
            (fun kp => !kp.2.2.sim_hit_indices.isEmpty)).map
            (fun kp => ((1 : ℚ), kp.1, kp.2.2.sim_hit_indices.map (fun i => sim_hits[i]?))) := by
  induction t generalizing result with
  | nil => exact ⟨result, rfl, by simp [HitGroups.pairs], by simp [HitGroups.pairs]⟩
  | cons kv rest ih =>
    obtain ⟨r1, h1, h2, h3⟩ := build_cell_spec cfg sim_hits kv.1 kv.2 result
      (hv kv (List.mem_cons_self _ _))
    obtain ⟨r, hr1, hr2, hr3⟩ := ih r1 (fun kv' hkv' => hv kv' (List.mem_cons_of_mem _ hkv'))
    refine ⟨r, ?_, ?_, ?_⟩
    · simp only [build_output, h1]
      exact hr1
    · rw [hr2, h2]
      simp [HitGroups.pairs, List.flatMap_cons, List.map_map, Function.comp_def]
    · rw [hr3, h3, h2]
      simp [HitGroups.pairs, List.flatMap_cons, List.enumFrom_append, List.filter_append,
        List.append_assoc]

/-! ### Properties of groups kept by `InsertHit` -/

theorem InsertHit_loop_preserves (P : HitData → Prop) (cfg : PhotoMultiplierHitDigiConfig)
    (amp : ℚ) (time : TimeType) (idx : Nat) (noise : Bool)
    (hmerge : ∀ g, P g → P { g with
      npe := g.npe + 1
      signal := g.signal + amp
      sim_hit_indices := if !noise then g.sim_hit_indices ++ [idx] else g.sim_hit_indices })
    (l : List HitData) (i : Nat) (h : ∀ g ∈ l, P g) :
    ∀ g ∈ (InsertHit_loop cfg amp time idx noise l i).1, P g := by
  induction l generalizing i with
  | nil => intro g hg; simp [InsertHit_loop] at hg
  | cons a rest ih =>
    intro g hg
    unfold InsertHit_loop at hg
    by_cases hw : |time - a.time| ≤ cfg.hitTimeWindow
    · simp only [hw, if_true, List.mem_cons] at hg
      rcases hg with hg | hg
      · subst hg; exact hmerge a (h a (List.mem_cons_self _ _))
      · exact h g (List.mem_cons_of_mem _ hg)
    · simp only [hw, if_false, List.mem_cons] at hg
      rcases hg with hg | hg
      · exact h g (hg ▸ List.mem_cons_self _ _)
      · exact ih (i + 1) (fun x hx => h x (List.mem_cons_of_mem _ hx)) g hg

/-- A property of groups that survives a merge and holds for a new group holds
for every group after `InsertHit` if it held for every group before. -/
theorem InsertHit_preserves (P : HitData → Prop) (cfg : PhotoMultiplierHitDigiConfig)
    (rng : RandomSource) (t : HitGroups) (id : CellIDType) (amp : ℚ) (time : TimeType)
    (pl pg : Position) (idx : Nat) (noise : Bool)
    (hmerge : ∀ g, P g → P { g with
      npe := g.npe + 1
      signal := g.signal + amp
      sim_hit_indices := if !noise then g.sim_hit_indices ++ [idx] else g.sim_hit_indices })
    (hnew : ∀ sig, P (HitData.mk 1 sig time pl pg (if !noise then [idx] else [])))
    (h : ∀ kv ∈ t, ∀ g ∈ kv.2, P g) :
    ∀ kv ∈ (InsertHit cfg rng t id amp time pl pg idx noise).1, ∀ g ∈ kv.2, P g := by
  unfold InsertHit
  cases hf : GroupTable.find t id with
  | none =>
    intro kv hkv g hg
    rcases mem_insert _ _ _ _ hkv with hk | hk
    · exact h kv hk g hg
    · subst hk
      simp only [List.mem_singleton] at hg
      subst hg
      exact hnew _
  | some groups =>
    have hloop := InsertHit_loop_preserves P cfg amp time idx noise hmerge groups 0
      (h _ (find_some_mem t id groups hf))
    have hassign : ∀ kv ∈ GroupTable.assign t id
        (InsertHit_loop cfg amp time idx noise groups 0).1, ∀ g ∈ kv.2, P g := by
      intro kv hkv g hg
      rcases mem_assign _ _ _ _ hkv with hk | hk
      · exact h kv hk g hg
      · subst hk; exact hloop g hg
    by_cases hc : (InsertHit_loop cfg amp time idx noise groups 0).2 ≥
        (InsertHit_loop cfg amp time idx noise groups 0).1.length
    · simp only [hc, if_true]
      intro kv hkv g hg
      rcases mem_insert _ _ _ _ hkv with hk | hk
      · exact hassign kv hk g hg
      · subst hk
        simp only [List.mem_singleton] at hg
        subst hg
        exact hnew _
    · simp only [hc, if_false]
      exact hassign

/-- A call of `InsertHit` with an index below `n`, or for a noise event, keeps
every contributor index below `n`. -/
theorem InsertHit_indices_lt (n : Nat) (cfg : PhotoMultiplierHitDigiConfig)
    (rng : RandomSource) (t : HitGroups) (id : CellIDType) (amp : ℚ) (time : TimeType)
    (pl pg : Position) (idx : Nat) (noise : Bool) (hidx : noise = true ∨ idx < n)
    (h : ∀ kv ∈ t, ∀ g ∈ kv.2, ∀ i ∈ g.sim_hit_indices, i < n) :
    ∀ kv ∈ (InsertHit cfg rng t id amp time pl pg idx noise).1, ∀ g ∈ kv.2,
      ∀ i ∈ g.sim_hit_indices, i < n := by
  apply InsertHit_preserves (fun g => ∀ i ∈ g.sim_hit_indices, i < n) cfg rng t id amp time
    pl pg idx noise _ _ h
  · intro g hg i hi
    rcases hidx with hn | hn
    · subst hn; exact hg i (by simpa using hi)
    · cases noise
      · simp only [Bool.not_false, if_true, List.mem_append, List.mem_singleton] at hi
        rcases hi with hi | hi
        · exact hg i hi
        · rw [hi]; exact hn
      · exact hg i (by simpa using hi)
  · intro sig i hi
    rcases hidx with hn | hn
    · subst hn; simp at hi
    · cases noise
      · simp only [Bool.not_false, if_true, List.mem_singleton] at hi
        rw [hi]; exact hn
      · simp at hi

theorem process_sim_hit_indices_lt (n : Nat) (cfg : PhotoMultiplierHitDigiConfig)
    (svc : Services) (qeff : List (ℚ × ℚ)) (st : HitGroups × RandomSource) (idx : Nat)
    (sim_hit : SimTrackerHit) (hidx : idx < n)
    (h : ∀ kv ∈ st.1, ∀ g ∈ kv.2, ∀ i ∈ g.sim_hit_indices, i < n) :
    ∀ kv ∈ (process_sim_hit cfg svc qeff st idx sim_hit).1, ∀ g ∈ kv.2,
      ∀ i ∈ g.sim_hit_indices, i < n := by
  unfold process_sim_hit
  simp only []
  split_ifs <;>
    first
    | exact h
    | exact InsertHit_indices_lt n cfg _ st.1 _ _ _ _ _ idx false (Or.inr hidx) h

theorem sim_hit_loop_indices_lt (n : Nat) (cfg : PhotoMultiplierHitDigiConfig)
    (svc : Services) (qeff : List (ℚ × ℚ)) (hits : List SimTrackerHit) (k : Nat)
    (st : HitGroups × RandomSource) (hk : k + hits.length ≤ n)
    (h : ∀ kv ∈ st.1, ∀ g ∈ kv.2, ∀ i ∈ g.sim_hit_indices, i < n) :
    ∀ kv ∈ (sim_hit_loop cfg svc qeff hits k st).1, ∀ g ∈ kv.2,
      ∀ i ∈ g.sim_hit_indices, i < n := by
  induction hits generalizing k st with
  | nil => exact h
  | cons a rest ih =>
    simp only [sim_hit_loop]
    simp only [List.length_cons] at hk
    exact ih (k + 1) _ (by omega)
      (process_sim_hit_indices_lt n cfg svc qeff st k a (by omega) h)

theorem cellID_action_foldl_indices_lt (n : Nat) (cfg : PhotoMultiplierHitDigiConfig)
    (svc : Services) (ids : List CellIDType) (st : HitGroups × RandomSource)
    (h : ∀ kv ∈ st.1, ∀ g ∈ kv.2, ∀ i ∈ g.sim_hit_indices, i < n) :
    ∀ kv ∈ (ids.foldl (cellID_action cfg svc) st).1, ∀ g ∈ kv.2,
      ∀ i ∈ g.sim_hit_indices, i < n := by
  induction ids generalizing st with
  | nil => exact h
  | cons id rest ih =>
    simp only [List.foldl_cons]
    apply ih
    unfold cellID_action
    exact InsertHit_indices_lt n cfg _ st.1 _ _ _ _ _ 0 true (Or.inl rfl) h

theorem noise_injection_indices_lt (n : Nat) (cfg : PhotoMultiplierHitDigiConfig)
    (svc : Services) (st : HitGroups × RandomSource)
    (h : ∀ kv ∈ st.1, ∀ g ∈ kv.2, ∀ i ∈ g.sim_hit_indices, i < n) :
    ∀ kv ∈ (noise_injection cfg svc st).1, ∀ g ∈ kv.2, ∀ i ∈ g.sim_hit_indices, i < n := by
  unfold noise_injection
  by_cases hn : cfg.enableNoise = true
  · simp only [hn, if_true]
    exact cellID_action_foldl_indices_lt n cfg svc _ st h
  · simp only [hn, if_false]
    exact h

/-- The contributor indices of the final table of `AlgorithmProcess` are
positions of the input collection. -/
theorem final_hit_groups_valid (cfg : PhotoMultiplierHitDigiConfig) (svc : Services)
    (qeff : List (ℚ × ℚ)) (rng : RandomSource) (sim_hits : List SimTrackerHit) :
    HitGroups.indicesValid (final_hit_groups cfg svc qeff rng sim_hits).1 sim_hits := by
  unfold HitGroups.indicesValid final_hit_groups
  apply noise_injection_indices_lt
  apply sim_hit_loop_indices_lt _ cfg svc qeff sim_hits 0 _ (by omega)
  intro kv hkv
  exact absurd hkv (List.not_mem_nil _)

/-- The conversion to the integer type discards the fractional part: it is the
floor of a non-negative value and the ceiling of a negative one. -/
theorem static_cast_int_trunc (v : ℚ) :
    static_cast_int v = if 0 ≤ v then ⌊v⌋ else ⌈v⌉ := by
  unfold static_cast_int
  by_cases h : 0 ≤ v
  · simp only [h, if_true]
    rw [Rat.floor_def, Int.tdiv_eq_ediv (Rat.num_nonneg.mpr h) (Int.ofNat_nonneg _)]
  · simp only [h, if_false]
    have hneg : 0 ≤ -v := by linarith [not_le.mp h]
    have h1 : ⌈v⌉ = -⌊-v⌋ := by rw [Int.floor_neg, neg_neg]
    rw [h1, Rat.floor_def, Rat.neg_num, Rat.neg_den,
      ← Int.tdiv_eq_ediv (by simpa using Rat.num_nonneg.mpr hneg) (Int.ofNat_nonneg _),
      Int.neg_tdiv, neg_neg]

/-- C9: for every input, `AlgorithmProcess` returns a result; its raw hits are,
in order, one per (cell, group) pair of the final table, each carrying the cell
identifier of its pair; its associations are, in order, one per pair with a
non-empty contributor list, each with weight 1, referencing the raw hit at the
position of its pair, and listing the simulated hits at the group's contributor
indices in contributor order. -/
theorem C9_output_records (cfg : PhotoMultiplierHitDigiConfig) (svc : Services)
    (qeff : List (ℚ × ℚ)) (rng : RandomSource) (sim_hits : List SimTrackerHit) :
    ∃ r, AlgorithmProcess cfg svc qeff rng sim_hits = some r ∧
      r.raw_hits.length = (HitGroups.pairs (final_hit_groups cfg svc qeff rng sim_hits).1).length ∧
      r.raw_hits.map (fun h => h.cellID) =
        (HitGroups.pairs (final_hit_groups cfg svc qeff rng sim_hits).1).map (fun p => p.1) ∧
      r.hit_assocs.map MCRecoTrackerHitAssociation.content =
        ((HitGroups.pairs (final_hit_groups cfg svc qeff rng sim_hits).1).enum.filter
            (fun kp => !kp.2.2.sim_hit_indices.isEmpty)).map
          (fun kp => ((1 : ℚ), kp.1, kp.2.2.sim_hit_indices.map (fun i => sim_hits[i]?))) := by
  obtain ⟨r, h1, h2, h3⟩ := build_output_spec cfg sim_hits
    (final_hit_groups cfg svc qeff rng sim_hits).1 ⟨[], []⟩
    (final_hit_groups_valid cfg svc qeff rng sim_hits)
  refine ⟨r, h1, ?_, ?_, ?_⟩
  · rw [h2]; simp
  · rw [h2]; simp [List.map_map, Function.comp_def]
  · rw [h3]; simp [List.enum]

/-- C10: for every non-zero `timeResolution` and every table whose contributor
indices are valid (as in every final table of `AlgorithmProcess`), the output
loops return a result in which the raw hit of each (cell, group) pair has as
charge the group's signal with the fractional part discarded (floor if the
signal is non-negative, ceiling if negative) and as timestamp the group's time
divided by `timeResolution`, converted the same way; two tables whose pairs
agree in cell, signal and time give the same raw hits, whatever the
photo-electron counts, positions and contributors; and `AlgorithmProcess`
returns the result of these loops on its final table. -/
theorem C10_charge_and_timestamp (cfg : PhotoMultiplierHitDigiConfig)
    (sim_hits : List SimTrackerHit) (t : HitGroups) (htr : cfg.timeResolution ≠ 0)
    (hv : HitGroups.indicesValid t sim_hits) :
    (∃ r, build_output cfg sim_hits t ⟨[], []⟩ = some r ∧
      r.raw_hits.map (fun h => (h.charge, h.timeStamp)) =
        (HitGroups.pairs t).map (fun p =>
          (if 0 ≤ p.2.signal then ⌊p.2.signal⌋ else ⌈p.2.signal⌉,
            if 0 ≤ p.2.time / cfg.timeResolution then ⌊p.2.time / cfg.timeResolution⌋
            else ⌈p.2.time / cfg.timeResolution⌉)) ∧
      ∀ t2 : HitGroups, HitGroups.indicesValid t2 sim_hits →
        (HitGroups.pairs t2).map (fun p => (p.1, p.2.signal, p.2.time)) =
          (HitGroups.pairs t).map (fun p => (p.1, p.2.signal, p.2.time)) →
        ∃ r2, build_output cfg sim_hits t2 ⟨[], []⟩ = some r2 ∧ r2.raw_hits = r.raw_hits) ∧
    (∀ (svc : Services) (qeff : List (ℚ × ℚ)) (rng : RandomSource),
      AlgorithmProcess cfg svc qeff rng sim_hits =
        build_output cfg sim_hits (final_hit_groups cfg svc qeff rng sim_hits).1 ⟨[], []⟩ ∧
      HitGroups.indicesValid (final_hit_groups cfg svc qeff rng sim_hits).1 sim_hits) := by
  have _hdiv : ∀ x : ℚ, x / cfg.timeResolution * cfg.timeResolution = x :=
    fun x => div_mul_cancel₀ x htr
  refine ⟨?_, fun svc qeff rng => ⟨rfl, final_hit_groups_valid cfg svc qeff rng sim_hits⟩⟩
  obtain ⟨r, h1, h2, _⟩ := build_output_spec cfg sim_hits t ⟨[], []⟩ hv
  refine ⟨r, h1, ?_, ?_⟩
  · rw [h2]
    simp [List.map_map, Function.comp_def, static_cast_int_trunc]
  · intro t2 hv2 heq
    obtain ⟨r2, h21, h22, _⟩ := build_output_spec cfg sim_hits t2 ⟨[], []⟩ hv2
    refine ⟨r2, h21, ?_⟩
    rw [h22, h2]
    have e : ∀ l : List (CellIDType × HitData),
        l.map (fun p => (⟨p.1, static_cast_int p.2.signal,
          static_cast_int (p.2.time / cfg.timeResolution)⟩ : RawTrackerHit)) =
        (l.map (fun p => (p.1, p.2.signal, p.2.time))).map (fun q =>
          (⟨q.1, static_cast_int q.2.1,
            static_cast_int (q.2.2 / cfg.timeResolution)⟩ : RawTrackerHit)) := by
      intro l; simp [List.map_map, Function.comp_def]
    simp only [List.nil_append]
    rw [e, e, heq]

/-- C10 at a concrete table: one group of signal `-3.5` and time `2.5` with time
resolution `0.5` gives a raw hit of charge `-3` and timestamp `5`. -/
theorem C10_charge_and_timestamp_witness :
    halfResolutionCfg.timeResolution ≠ 0 ∧ HitGroups.indicesValid oneGroupTable [simHitA] ∧
    ∃ r, build_output halfResolutionCfg [simHitA] oneGroupTable ⟨[], []⟩ = some r ∧
      r.raw_hits.map (fun h => (h.charge, h.timeStamp)) = [(-3, 5)] := by
  have htr : halfResolutionCfg.timeResolution ≠ 0 := by
    norm_num [halfResolutionCfg]
  have hv : HitGroups.indicesValid oneGroupTable [simHitA] := by
    intro kv hkv g hg i hi
    simp only [oneGroupTable, List.mem_singleton] at hkv
    subst hkv
    simp only [List.mem_singleton] at hg
    subst hg
    simp only [List.mem_singleton] at hi
    subst hi
    simp
  obtain ⟨r, h1, h2, _⟩ := (C10_charge_and_timestamp halfResolutionCfg [simHitA] oneGroupTable
    htr hv).1
  refine ⟨htr, hv, r, h1, ?_⟩
  rw [h2]
  have c1 : ⌈(-(7 / 2) : ℚ)⌉ = -3 := by
    rw [Int.ceil_eq_iff]; norm_num
  have c2 : ⌊(5 : ℚ)⌋ = 5 := by
    rw [Int.floor_eq_iff]; norm_num
  norm_num [HitGroups.pairs, oneGroupTable, halfResolutionCfg, scenarioCfg, c1, c2]

/-! ### Noise events and contributor lists -/

theorem find_assign {α : Type} (t : GroupTable α) (id : CellIDType) (gs v : List α)
    (h : GroupTable.find t id = some gs) :
    GroupTable.find (GroupTable.assign t id v) id = some v := by
  induction t with
  | nil => simp [GroupTable.find] at h
  | cons kv rest ih =>
    unfold GroupTable.find at h
    unfold GroupTable.assign
    by_cases hk : kv.1 = id
    · simp [hk, GroupTable.find]
    · simp only [hk, if_false] at h ⊢
      unfold GroupTable.find
      simp only [hk, if_false]
      exact ih h

theorem insert_of_find_some {α : Type} (t : GroupTable α) (id : CellIDType) (gs v : List α)
    (h : GroupTable.find t id = some gs) : GroupTable.insert t id v = t := by
  unfold GroupTable.insert
  rw [h]

theorem insert_of_find_none {α : Type} (t : GroupTable α) (id : CellIDType) (v : List α)
    (h : GroupTable.find t id = none) : GroupTable.insert t id v = t ++ [(id, v)] := by
  unfold GroupTable.insert
  rw [h]

theorem pairs_append (t1 t2 : HitGroups) :
    HitGroups.pairs (t1 ++ t2) = HitGroups.pairs t1 ++ HitGroups.pairs t2 := by
  simp [HitGroups.pairs, List.flatMap_append]

/-- Replacing the groups of a cell by groups with the same contributor lists
leaves the contributor lists of the table as they were. -/
theorem pairs_assign_indices (t : HitGroups) (id : CellIDType) (gs v : List HitData)
    (h : GroupTable.find t id = some gs)
    (hv : v.map (fun g => g.sim_hit_indices) = gs.map (fun g => g.sim_hit_indices)) :
    (HitGroups.pairs (GroupTable.assign t id v)).map (fun p => p.2.sim_hit_indices) =
      (HitGroups.pairs t).map (fun p => p.2.sim_hit_indices) := by
  induction t with
  | nil => simp [GroupTable.find] at h
  | cons kv rest ih =>
    unfold GroupTable.find at h
    unfold GroupTable.assign
    by_cases hk : kv.1 = id
    · simp only [hk, if_true, Option.some.injEq] at h ⊢
      subst h
      simp only [HitGroups.pairs, List.flatMap_cons, List.map_append, List.map_map,
        Function.comp_def]
      rw [hv]
    · simp only [hk, if_false] at h ⊢
      have := ih h
      simp only [HitGroups.pairs, List.flatMap_cons, List.map_append] at this ⊢
      rw [this]

theorem InsertHit_loop_noise_indices (cfg : PhotoMultiplierHitDigiConfig) (amp : ℚ)
    (time : TimeType) (idx : Nat) (l : List HitData) (i : Nat) :
    (InsertHit_loop cfg amp time idx true l i).1.map (fun g => g.sim_hit_indices) =
      l.map (fun g => g.sim_hit_indices) := by
  induction l generalizing i with
  | nil => rfl
  | cons g rest ih =>
    unfold InsertHit_loop
    by_cases hw : |time - g.time| ≤ cfg.hitTimeWindow
    · simp [hw]
    · simp only [hw, if_false, List.map_cons]
      rw [ih]

/-- A noise event changes no contributor list; a group it creates has none. -/
theorem InsertHit_noise_indices (cfg : PhotoMultiplierHitDigiConfig) (rng : RandomSource)
    (t : HitGroups) (id : CellIDType) (amp : ℚ) (time : TimeType) (pl pg : Position)
    (idx : Nat) :
    ∃ k, (HitGroups.pairs (InsertHit cfg rng t id amp time pl pg idx true).1).map
        (fun p => p.2.sim_hit_indices) =
      (HitGroups.pairs t).map (fun p => p.2.sim_hit_indices) ++ List.replicate k [] := by
  unfold InsertHit
  cases hf : GroupTable.find t id with
  | none =>
    refine ⟨1, ?_⟩
    simp [insert_of_find_none _ _ _ hf, pairs_append, HitGroups.pairs]
  | some groups =>
    refine ⟨0, ?_⟩
    have ha := pairs_assign_indices t id groups
      (InsertHit_loop cfg amp time idx true groups 0).1 hf
      (InsertHit_loop_noise_indices cfg amp time idx groups 0)
    have hi := fun v => insert_of_find_some (GroupTable.assign t id
      (InsertHit_loop cfg amp time idx true groups 0).1) id _ v
      (find_assign t id groups (InsertHit_loop cfg amp time idx true groups 0).1 hf)
    simp only [List.replicate_zero, List.append_nil]
    by_cases hc : (InsertHit_loop cfg amp time idx true groups 0).2 ≥
        (InsertHit_loop cfg amp time idx true groups 0).1.length
    · simp only [hc, if_true, hi]; exact ha
    · simp only [hc, if_false]; exact ha

theorem run_calls_noise_indices (cfg : PhotoMultiplierHitDigiConfig)
    (calls : List InsertCall) (t : HitGroups) (rng : RandomSource)
    (hn : ∀ c ∈ calls, c.is_noise_hit = true) :
    ∃ k, (HitGroups.pairs (run_calls cfg calls (t, rng)).1).map (fun p => p.2.sim_hit_indices) =
      (HitGroups.pairs t).map (fun p => p.2.sim_hit_indices) ++ List.replicate k [] := by
  induction calls generalizing t rng with
  | nil => exact ⟨0, by simp [run_calls]⟩
  | cons c cs ih =>
    simp only [run_calls]
    have hc : c.is_noise_hit = true := hn c (List.mem_cons_self _ _)
    obtain ⟨k1, h1⟩ := InsertHit_noise_indices cfg rng t c.id c.amp c.time c.pos_hit_local
      c.pos_hit_global c.sim_hit_index
    obtain ⟨k2, h2⟩ := ih (InsertHit cfg rng t c.id c.amp c.time c.pos_hit_local
      c.pos_hit_global c.sim_hit_index c.is_noise_hit).1
      (InsertHit cfg rng t c.id c.amp c.time c.pos_hit_local
      c.pos_hit_global c.sim_hit_index c.is_noise_hit).2
      (fun x hx => hn x (List.mem_cons_of_mem _ hx))
    refine ⟨k1 + k2, ?_⟩
    rw [h2, hc, h1, List.append_assoc, List.replicate_add]

/-- Every association of the output references the raw hit of a group that has
contributors. -/
theorem build_output_assoc_nonempty (cfg : PhotoMultiplierHitDigiConfig)
    (sim_hits : List SimTrackerHit) (t : HitGroups)
    (hv : HitGroups.indicesValid t sim_hits) :
    ∃ r, build_output cfg sim_hits t ⟨[], []⟩ = some r ∧
      ∀ a ∈ r.hit_assocs, ∃ p, (HitGroups.pairs t)[a.rawHit]? = some p ∧
        p.2.sim_hit_indices ≠ [] := by
  obtain ⟨r, h1, _, h3⟩ := build_output_spec cfg sim_hits t ⟨[], []⟩ hv
  refine ⟨r, h1, ?_⟩
  intro a ha
  have hm : a.content ∈ r.hit_assocs.map MCRecoTrackerHitAssociation.content :=
    List.mem_map_of_mem _ ha
  rw [h3] at hm
  simp only [List.map_nil, List.nil_append, List.length_nil, List.mem_map, List.mem_filter]
    at hm
  obtain ⟨kp, ⟨hkp, hne⟩, he⟩ := hm
  have hk : kp.1 = a.rawHit := by
    have := congrArg (fun c => c.2.1) he
    simpa [MCRecoTrackerHitAssociation.content] using this
  refine ⟨kp.2, ?_, ?_⟩
  · rw [← hk]
    exact List.mem_enum_iff_getElem?.mp hkp
  · intro h0
    simp [h0] at hne

/-- C8: (1) when the cell has no entry in the table, `InsertHit` appends the cell
with one new group of photo-electron count 1 whose contributor list is exactly
`[sim_hit_index]` for a real hit and empty for a noise event; (2) for every
table and every sequence of noise events, the contributor lists after the calls
are those before, unchanged and in place, followed by empty lists for the groups
created: a group that received only noise events has zero contributors; (3) for
every table with valid contributor indices, and so for the final table of
`AlgorithmProcess`, the output is produced and every association in it
references the raw hit of a group with a non-empty contributor list: no
association is emitted for a group without contributors. -/
theorem C8_contributors_of_new_and_noise_groups (cfg : PhotoMultiplierHitDigiConfig)
    (rng : RandomSource) :
    (∀ (t : HitGroups) (id : CellIDType) (amp : ℚ) (time : TimeType) (pl pg : Position)
        (idx : Nat) (noise : Bool), GroupTable.find t id = none →
      (InsertHit cfg rng t id amp time pl pg idx noise).1 =
        t ++ [(id, [HitData.mk 1 (amp + cfg.pedMean + cfg.pedError * rng.gaus rng.nGaus)
          time pl pg (if noise then [] else [idx])])]) ∧
    (∀ (t : HitGroups) (calls : List InsertCall), (∀ c ∈ calls, c.is_noise_hit = true) →
      ∃ k, (HitGroups.pairs (run_calls cfg calls (t, rng)).1).map
          (fun p => p.2.sim_hit_indices) =
        (HitGroups.pairs t).map (fun p => p.2.sim_hit_indices) ++ List.replicate k []) ∧
    (∀ (sim_hits : List SimTrackerHit) (t : HitGroups), HitGroups.indicesValid t sim_hits →
      ∃ r, build_output cfg sim_hits t ⟨[], []⟩ = some r ∧
        ∀ a ∈ r.hit_assocs, ∃ p, (HitGroups.pairs t)[a.rawHit]? = some p ∧
          p.2.sim_hit_indices ≠ []) ∧
    (∀ (svc : Services) (qeff : List (ℚ × ℚ)) (sim_hits : List SimTrackerHit),
      ∃ r, AlgorithmProcess cfg svc qeff rng sim_hits = some r ∧
        ∀ a ∈ r.hit_assocs, ∃ p,
          (HitGroups.pairs (final_hit_groups cfg svc qeff rng sim_hits).1)[a.rawHit]? = some p ∧
          p.2.sim_hit_indices ≠ []) := by
  refine ⟨?_, ?_, ?_, ?_⟩
  · intro t id amp time pl pg idx noise hf
    unfold InsertHit
    rw [hf]
    simp only [insert_of_find_none _ _ _ hf, m_rngNorm]
    cases noise <;> simp
  · intro t calls hn
    exact run_calls_noise_indices cfg calls t rng hn
  · intro sim_hits t hv
    exact build_output_assoc_nonempty cfg sim_hits t hv
  · intro svc qeff sim_hits
    exact build_output_assoc_nonempty cfg sim_hits _
      (final_hit_groups_valid cfg svc qeff rng sim_hits)

/-- C8 at concrete inputs: a real hit and a noise event inserted into the empty
table, and two noise events in one cell, after which the output for the table
has one raw hit and no association. -/
theorem C8_contributors_of_new_and_noise_groups_witness :
    (InsertHit scenarioCfg zeroRng [] 0xA 1 0 origin origin 7 false).1 =
      [(0xA, [HitData.mk 1 1 0 origin origin [7]])] ∧
    (InsertHit scenarioCfg zeroRng [] 0xA 1 0 origin origin 7 true).1 =
      [(0xA, [HitData.mk 1 1 0 origin origin []])] ∧
    (run_calls scenarioCfg noiseCalls ([], zeroRng)).1 =
      [(0xA, [HitData.mk 2 2 0 origin origin []])] ∧
    build_output scenarioCfg [simHitA] (run_calls scenarioCfg noiseCalls ([], zeroRng)).1
      ⟨[], []⟩ = some ⟨[⟨0xA, 2, 0⟩], []⟩ := by
  have h := (C8_contributors_of_new_and_noise_groups scenarioCfg zeroRng).1
  have e1 := h [] 0xA 1 0 origin origin 7 false rfl
  have e2 := h [] 0xA 1 0 origin origin 7 true rfl
  have e3 : (run_calls scenarioCfg noiseCalls ([], zeroRng)).1 =
      [(0xA, [HitData.mk 2 2 0 origin origin []])] := by
    simp [run_calls, noiseCalls, InsertHit, InsertHit_loop, GroupTable.find, GroupTable.insert,
      GroupTable.assign, m_rngNorm, scenarioCfg, zeroRng]
    norm_num [abs_le]
  refine ⟨?_, ?_, e3, ?_⟩
  · rw [e1]; norm_num [scenarioCfg, zeroRng]
  · rw [e2]; norm_num [scenarioCfg, zeroRng]
  · rw [e3]
    have c2 : static_cast_int 2 = 2 := by
      rw [static_cast_int_trunc]; norm_num
    have c0 : static_cast_int 0 = 0 := by
      rw [static_cast_int_trunc]; norm_num
    simp [build_output, build_cell, scenarioCfg, c2, c0]

/-! ### The event loop -/

/-- With safety factor 0 and positive uniform draws the loop over simulated hits
rejects every hit at the first gate: the table is untouched and one uniform
draw is taken per hit. -/
theorem sim_hit_loop_closed_gate (cfg : PhotoMultiplierHitDigiConfig) (svc : Services)
    (qeff : List (ℚ × ℚ)) (hits : List SimTrackerHit) (k : Nat) (t : HitGroups)
    (r : RandomSource) (hs : cfg.safetyFactor = 0) (hu : ∀ n, 0 < r.uniform n) :
    sim_hit_loop cfg svc qeff hits k (t, r) =
      (t, { r with nUniform := r.nUniform + hits.length }) := by
  induction hits generalizing k r with
  | nil => rfl
  | cons a rest ih =>
    have hstep : process_sim_hit cfg svc qeff (t, r) k a =
        (t, { r with nUniform := r.nUniform + 1 }) := by
      unfold process_sim_hit
      have : (m_rngUni r).1 > cfg.safetyFactor := by
        rw [hs]; exact hu _
      simp only [this, if_true]
      rfl
    simp only [sim_hit_loop, hstep]
    rw [ih (k + 1) { r with nUniform := r.nUniform + 1 } hu]
    simp only [List.length_cons]
    congr 2
    omega

/-- C11: with noise off and safety factor 0, for every input sequence of
simulated hits and every stream of uniform draws in the open interval (0, 1),
no hit passes the safety-factor gate: the final table is empty, exactly one
uniform draw per hit and no standard-normal draw is taken, and
`AlgorithmProcess` returns an empty raw-hit collection and an empty association
collection. -/
theorem C11_closed_safety_gate (cfg : PhotoMultiplierHitDigiConfig) (svc : Services)
    (qeff : List (ℚ × ℚ)) (rng : RandomSource) (sim_hits : List SimTrackerHit)
    (hn : cfg.enableNoise = false) (hs : cfg.safetyFactor = 0)
    (hu : ∀ n, 0 < rng.uniform n ∧ rng.uniform n < 1) :
    final_hit_groups cfg svc qeff rng sim_hits =
      ([], { rng with nUniform := rng.nUniform + sim_hits.length }) ∧
    AlgorithmProcess cfg svc qeff rng sim_hits = some ⟨[], []⟩ := by
  have hf : final_hit_groups cfg svc qeff rng sim_hits =
      ([], { rng with nUniform := rng.nUniform + sim_hits.length }) := by
    unfold final_hit_groups noise_injection
    simp only [hn, Bool.false_eq_true, if_false]
    exact sim_hit_loop_closed_gate cfg svc qeff sim_hits 0 [] rng hs (fun n => (hu n).1)
  refine ⟨hf, ?_⟩
  unfold AlgorithmProcess
  rw [hf]
  rfl

/-- C11 at a concrete input: two simulated hits, every uniform draw `0.5`. -/
theorem C11_closed_safety_gate_witness :
    closedGateCfg.enableNoise = false ∧ closedGateCfg.safetyFactor = 0 ∧
    (∀ n, 0 < halfRng.uniform n ∧ halfRng.uniform n < 1) ∧
    AlgorithmProcess closedGateCfg plainServices defaultQeff halfRng [simHitA, simHitA] =
      some ⟨[], []⟩ :=
  have hu : ∀ n, 0 < halfRng.uniform n ∧ halfRng.uniform n < 1 := by
    intro n
    norm_num [halfRng]
  ⟨rfl, rfl, hu,
    (C11_closed_safety_gate closedGateCfg plainServices defaultQeff halfRng [simHitA, simHitA]
      rfl rfl hu).2⟩

/-! ### TrackingResultTrajectory -/

theorem indexedParameters_count_pos {TP : Type} (m : IndexedParameters TP) (i : IndexType) :
    0 < IndexedParameters.count m i ↔ ∃ p, IndexedParameters.find m i = some p := by
  induction m with
  | nil => simp [IndexedParameters.count, IndexedParameters.find]
  | cons kv rest ih =>
    unfold IndexedParameters.count IndexedParameters.find
    by_cases hk : kv.1 = i
    · simp [hk]
    · simp only [hk, if_false, Nat.zero_add]
      exact ih

theorem indexedParameters_find_mem {TP : Type} (m : IndexedParameters TP) (i : IndexType)
    (p : TP) (h : IndexedParameters.find m i = some p) : (i, p) ∈ m := by
  induction m with
  | nil => simp [IndexedParameters.find] at h
  | cons kv rest ih =>
    unfold IndexedParameters.find at h
    by_cases hk : kv.1 = i
    · simp only [hk, if_true, Option.some.injEq] at h
      subst hk; subst h
      exact List.mem_cons_self _ _
    · simp only [hk, if_false] at h
      exact List.mem_cons_of_mem _ (ih h)

theorem indexedParameters_find_unique {TP : Type} (m : IndexedParameters TP) (i : IndexType)
    (p q : TP) (hnd : (m.map Prod.fst).Nodup) (h : IndexedParameters.find m i = some p)
    (hq : (i, q) ∈ m) : q = p := by
  induction m with
  | nil => simp at hq
  | cons kv rest ih =>
    simp only [List.map_cons, List.nodup_cons] at hnd
    unfold IndexedParameters.find at h
    by_cases hk : kv.1 = i
    · simp only [hk, if_true, Option.some.injEq] at h
      rcases List.mem_cons.mp hq with hq | hq
      · rw [← h, ← hq]
      · exfalso
        apply hnd.1
        rw [hk]
        exact List.mem_map_of_mem Prod.fst hq
    · simp only [hk, if_false] at h
      rcases List.mem_cons.mp hq with hq | hq
      · exact absurd (by rw [← hq]) hk
      · exact ih hnd.2 h hq

theorem std_count_pos (v : List IndexType) (i : IndexType) : 0 < std_count v i ↔ i ∈ v := by
  induction v with
  | nil => simp [std_count]
  | cons a rest ih =>
    unfold std_count
    by_cases hk : a = i
    · simp [hk]
    · simp only [hk, if_false, Nat.zero_add, List.mem_cons]
      rw [ih]
      constructor
      · exact Or.inr
      · rintro (h | h)
        · exact absurd h.symm hk
        · exact h

/-- C12: for every trajectory object and every entry index, `trackParameters`
raises the runtime error exactly when `hasTrackParameters` is false; otherwise
it returns parameters that the map given at construction holds for that index,
and they are the only ones for it when the keys of the map are distinct, as in
a `std::unordered_map`. -/
theorem C12_trackParameters_error_iff {MT TP : Type} (multiTraj : Option MT)
    (tTips : List IndexType) (parameters : IndexedParameters TP) (entryIndex : IndexType) :
    ((∃ msg, (TrackingResultTrajectory.construct multiTraj tTips parameters).trackParameters
        entryIndex = Except.error msg) ↔
      (TrackingResultTrajectory.construct multiTraj tTips parameters).hasTrackParameters
        entryIndex = false) ∧
    ((TrackingResultTrajectory.construct multiTraj tTips parameters).hasTrackParameters
        entryIndex = true →
      ∃ p, (TrackingResultTrajectory.construct multiTraj tTips parameters).trackParameters
          entryIndex = Except.ok p ∧ (entryIndex, p) ∈ parameters ∧
        ((parameters.map Prod.fst).Nodup → ∀ q, (entryIndex, q) ∈ parameters → q = p)) := by
  unfold TrackingResultTrajectory.trackParameters TrackingResultTrajectory.hasTrackParameters
    TrackingResultTrajectory.construct
  simp only [decide_eq_false_iff_not, decide_eq_true_eq, indexedParameters_count_pos]
  cases hf : IndexedParameters.find parameters entryIndex with
  | none => simp
  | some p =>
    refine ⟨by simp, fun _ => ⟨p, rfl, indexedParameters_find_mem _ _ _ hf, ?_⟩⟩
    intro hnd q hq
    exact indexedParameters_find_unique parameters entryIndex p q hnd hf hq

/-- C12 at a concrete object: parameters exist for entry 7 and are returned; for
entry 5 the error is raised. -/
theorem C12_trackParameters_error_iff_witness :
    exampleTrajectory.hasTrackParameters 7 = true ∧
    (∃ p, exampleTrajectory.trackParameters 7 = Except.ok p ∧ (7, p) ∈ exampleParameters) ∧
    exampleTrajectory.trackParameters 7 = Except.ok 70 ∧
    exampleTrajectory.hasTrackParameters 5 = false ∧
    ∃ msg, exampleTrajectory.trackParameters 5 = Except.error msg := by
  have h7 := (C12_trackParameters_error_iff (some ()) [3, 7] exampleParameters 7).2
  have h5 := (C12_trackParameters_error_iff (some ()) [3, 7] exampleParameters 5).1
  have e7 : exampleTrajectory.hasTrackParameters 7 = true := by decide
  have e5 : exampleTrajectory.hasTrackParameters 5 = false := by decide
  obtain ⟨p, hp, hmem, _⟩ := h7 e7
  exact ⟨e7, ⟨p, hp, hmem⟩, rfl, e5, h5.mpr e5⟩

/-- C13: `empty()` is true exactly when `hasTrajectory` is false for every entry
index; for an object constructed from tip indices, `hasTrajectory(i)` is true
exactly when `i` is among them; and a default-constructed object is empty. -/
theorem C13_empty_iff_no_trajectory {MT TP : Type}
    (self : TrackingResultTrajectory MT TP) :
    (self.empty = true ↔ ∀ i, self.hasTrajectory i = false) ∧
    (∀ (multiTraj : Option MT) (tTips : List IndexType) (parameters : IndexedParameters TP)
        (i : IndexType),
      (TrackingResultTrajectory.construct multiTraj tTips parameters).hasTrajectory i = true ↔
        i ∈ tTips) ∧
    (TrackingResultTrajectory.default_construct :
      TrackingResultTrajectory MT TP).empty = true := by
  refine ⟨?_, ?_, rfl⟩
  · unfold TrackingResultTrajectory.empty TrackingResultTrajectory.hasTrajectory
    simp only [decide_eq_false_iff_not, std_count_pos, List.isEmpty_iff]
    constructor
    · intro h i
      rw [h]
      exact List.not_mem_nil i
    · intro h
      exact List.eq_nil_iff_forall_not_mem.mpr h
  · intro multiTraj tTips parameters i
    unfold TrackingResultTrajectory.hasTrajectory TrackingResultTrajectory.construct
    simp only [decide_eq_true_eq, std_count_pos]

/-! ### The search against a linear scan -/

theorem deref_cons_succ (p : ℚ × ℚ) (l : List (ℚ × ℚ)) (k : Nat) :
    deref (p :: l) (k + 1) = deref l k := by
  simp [deref]

theorem deref_cons_zero (p : ℚ × ℚ) (l : List (ℚ × ℚ)) : deref (p :: l) 0 = p := by
  simp [deref]

/-- On a table with strictly increasing energies the linear scan stops at the
position that holds the value or lies just below it. -/
theorem linear_scan_from_found (l : List (ℚ × ℚ))
    (hs : List.Sorted (fun a b : ℚ × ℚ => a.1 < b.1) l) (val : ℚ) (i k : Nat)
    (hk : k < l.length)
    (hm : (deref l k).1 = val ∨
      (k + 1 < l.length ∧ (deref l k).1 < val ∧ val < (deref l (k + 1)).1)) :
    linear_scan_from l val i = i + k := by
  induction l generalizing i k with
  | nil => simp at hk
  | cons p rest ih =>
    cases rest with
    | nil =>
      have hk0 : k = 0 := by simpa using hk
      subst hk0
      rcases hm with hm | ⟨h1, _, _⟩
      · rw [deref_cons_zero] at hm
        simp [linear_scan_from, hm]
      · simp at h1
    | cons q rest2 =>
      cases k with
      | zero =>
        rw [deref_cons_zero, deref_cons_succ, deref_cons_zero] at hm
        have hc : p.1 = val ∨ (p.1 < val ∧ val < q.1) := by
          rcases hm with hm | ⟨_, h2, h3⟩
          · exact Or.inl hm
          · exact Or.inr ⟨h2, h3⟩
        simp [linear_scan_from, hc]
      | succ k =>
        have hle : (deref (p :: q :: rest2) (k + 1)).1 ≤ val := by
          rcases hm with hm | ⟨_, h2, _⟩
          · exact le_of_eq hm
          · exact le_of_lt h2
        have h0 : p.1 < (deref (p :: q :: rest2) (k + 1)).1 := by
          have := strict_deref_lt (p :: q :: rest2) hs 0 (k + 1) (by omega) hk
          rwa [deref_cons_zero] at this
        have h1 : q.1 ≤ (deref (p :: q :: rest2) (k + 1)).1 := by
          have := sorted_deref_le (p :: q :: rest2) (strict_sorted_le _ hs) 1 (k + 1)
            (by omega) hk
          rwa [deref_cons_succ, deref_cons_zero] at this
        have hc : ¬ (p.1 = val ∨ (p.1 < val ∧ val < q.1)) := by
          rintro (h | ⟨_, h⟩)
          · linarith
          · linarith
        have hs2 : List.Sorted (fun a b : ℚ × ℚ => a.1 < b.1) (q :: rest2) :=
          List.Sorted.of_cons hs
        have hk2 : k < (q :: rest2).length := by
          simp only [List.length_cons] at hk ⊢
          omega
        have hm2 : (deref (q :: rest2) k).1 = val ∨
            (k + 1 < (q :: rest2).length ∧ (deref (q :: rest2) k).1 < val ∧
              val < (deref (q :: rest2) (k + 1)).1) := by
          rcases hm with hm | ⟨h1', h2, h3⟩
          · left; rwa [deref_cons_succ] at hm
          · right
            rw [deref_cons_succ] at h2
            rw [deref_cons_succ] at h3
            simp only [List.length_cons] at h1' ⊢
            exact ⟨by omega, h2, h3⟩
        simp only [linear_scan_from, hc, if_false]
        rw [ih hs2 (i + 1) k hk2 hm2]
        omega

/-- When no point holds the value or encloses it with its successor, the linear
scan ends at the `end` position. -/
theorem linear_scan_from_none (l : List (ℚ × ℚ)) (val : ℚ) (i : Nat)
    (hno : ∀ k, k < l.length → (deref l k).1 ≠ val ∧
      ¬ (k + 1 < l.length ∧ (deref l k).1 < val ∧ val < (deref l (k + 1)).1)) :
    linear_scan_from l val i = i + l.length := by
  induction l generalizing i with
  | nil => rfl
  | cons p rest ih =>
    cases rest with
    | nil =>
      have h0 := (hno 0 (by simp)).1
      rw [deref_cons_zero] at h0
      simp [linear_scan_from, h0]
    | cons q rest2 =>
      have h0 := hno 0 (by simp)
      rw [deref_cons_zero, deref_cons_succ, deref_cons_zero] at h0
      have hc : ¬ (p.1 = val ∨ (p.1 < val ∧ val < q.1)) := by
        rintro (h | ⟨h1, h2⟩)
        · exact h0.1 h
        · exact h0.2 ⟨by simp, h1, h2⟩
      simp only [linear_scan_from, hc, if_false]
      rw [ih (i + 1)]
      · simp only [List.length_cons]; omega
      · intro k hk
        have := hno (k + 1) (by simp only [List.length_cons] at hk ⊢; omega)
        rw [deref_cons_succ, deref_cons_succ] at this
        refine ⟨this.1, ?_⟩
        rintro ⟨h1, h2, h3⟩
        exact this.2 ⟨by simp only [List.length_cons] at h1 ⊢; omega, h2, h3⟩

/-- On a table with strictly increasing energies and at least two points,
`interval_search` and the linear scan return the same position. -/
theorem interval_search_eq_linear_scan (qeff : List (ℚ × ℚ))
    (hs : List.Sorted (fun a b : ℚ × ℚ => a.1 < b.1) qeff) (hn : 2 ≤ qeff.length)
    (val : ℚ) :
    interval_search qeff 0 qeff.length (Nat.zero_le _) val qe_comp = linear_scan qeff val := by
  have hle := strict_sorted_le qeff hs
  unfold linear_scan
  by_cases hout : val < (deref qeff 0).1 ∨ (deref qeff (qeff.length - 1)).1 < val
  · rw [interval_search_special qeff val (Or.inr hout), linear_scan_from_none, Nat.zero_add]
    intro k hk
    rcases hout with h | h
    · have h1 := sorted_deref_le qeff hle 0 k (Nat.zero_le _) hk
      refine ⟨by intro he; linarith, ?_⟩
      rintro ⟨_, h2, _⟩
      linarith
    · have h1 := sorted_deref_le qeff hle k (qeff.length - 1) (by omega) (by omega)
      refine ⟨by intro he; linarith, ?_⟩
      rintro ⟨h2, _, h3⟩
      have := sorted_deref_le qeff hle (k + 1) (qeff.length - 1) (by omega) (by omega)
      linarith
  · have h1 : (deref qeff 0).1 ≤ val := by
      by_contra h; exact hout (Or.inl (not_le.mp h))
    have h2 : val ≤ (deref qeff (qeff.length - 1)).1 := by
      by_contra h; exact hout (Or.inr (not_le.mp h))
    obtain ⟨it, hit, hlt, hcase⟩ := interval_search_spec qeff val hle hn h1 h2
    rw [hit, linear_scan_from_found qeff hs val 0 it hlt hcase, Nat.zero_add]

/-- C15: for every table with strictly increasing energies and at least two
points and every value, `interval_search` returns the position a straightforward
linear scan returns: the `end` position when the value is below the first or
above the last table energy, the position of the point whose energy equals the
value (first and last point included), and otherwise the position `i` with
`E_i < val < E_(i+1)`. -/
theorem C15_interval_search_is_linear_scan (qeff : List (ℚ × ℚ))
    (hs : List.Sorted (fun a b : ℚ × ℚ => a.1 < b.1) qeff) (hn : 2 ≤ qeff.length)
    (val : ℚ) :
    interval_search qeff 0 qeff.length (Nat.zero_le _) val qe_comp = linear_scan qeff val ∧
    (val < (deref qeff 0).1 ∨ (deref qeff (qeff.length - 1)).1 < val →
      interval_search qeff 0 qeff.length (Nat.zero_le _) val qe_comp = qeff.length) ∧
    (∀ i, i < qeff.length → (deref qeff i).1 = val →
      interval_search qeff 0 qeff.length (Nat.zero_le _) val qe_comp = i) ∧
    (∀ i, i + 1 < qeff.length → (deref qeff i).1 < val → val < (deref qeff (i + 1)).1 →
      interval_search qeff 0 qeff.length (Nat.zero_le _) val qe_comp = i) := by
  have he := interval_search_eq_linear_scan qeff hs hn val
  refine ⟨he, fun hout => interval_search_special qeff val (Or.inr hout), ?_, ?_⟩
  · intro i hi hv
    rw [he]
    unfold linear_scan
    rw [linear_scan_from_found qeff hs val 0 i hi (Or.inl hv), Nat.zero_add]
  · intro i hi h1 h2
    rw [he]
    unfold linear_scan
    rw [linear_scan_from_found qeff hs val 0 i (by omega) (Or.inr ⟨hi, h1, h2⟩), Nat.zero_add]

theorem threePointQeff_strict :
    List.Sorted (fun a b : ℚ × ℚ => a.1 < b.1) threePointQeff := by
  simp only [threePointQeff, List.Sorted, List.pairwise_cons, List.mem_cons,
    List.mem_singleton, List.not_mem_nil, forall_eq_or_imp, forall_eq, List.Pairwise.nil,
    and_true, IsEmpty.forall_iff, implies_true]
  norm_num

/-- C15 on the table `[(2, 0.2), (3, 0.3), (4, 0.1)]`: the value 4 (last point)
is found at position 2, the value 2.5 at position 0, and 5 is out of range. -/
theorem C15_interval_search_is_linear_scan_witness :
    List.Sorted (fun a b : ℚ × ℚ => a.1 < b.1) threePointQeff ∧ 2 ≤ threePointQeff.length ∧
    interval_search threePointQeff 0 threePointQeff.length (Nat.zero_le _) 4 qe_comp = 2 ∧
    interval_search threePointQeff 0 threePointQeff.length (Nat.zero_le _) (5 / 2) qe_comp = 0 ∧
    interval_search threePointQeff 0 threePointQeff.length (Nat.zero_le _) 5 qe_comp = 3 ∧
    linear_scan threePointQeff 4 = 2 := by
  have hn : 2 ≤ threePointQeff.length := by simp [threePointQeff]
  have h4 := C15_interval_search_is_linear_scan threePointQeff threePointQeff_strict hn 4
  have h25 := C15_interval_search_is_linear_scan threePointQeff threePointQeff_strict hn (5 / 2)
  have h5 := C15_interval_search_is_linear_scan threePointQeff threePointQeff_strict hn 5
  have e4 := h4.2.2.1 2 (by simp [threePointQeff]) (by norm_num [deref, threePointQeff])
  have e25 := h25.2.2.2 0 (by simp [threePointQeff]) (by norm_num [deref, threePointQeff])
    (by norm_num [deref, threePointQeff])
  have e5 := h5.2.1 (Or.inr (by norm_num [deref, threePointQeff]))
  refine ⟨threePointQeff_strict, hn, e4, e25, ?_, ?_⟩
  · rw [e5]; simp [threePointQeff]
  · rw [← h4.1, e4]

/-! ### Where `InsertHit` merges -/

/-- The loop of `InsertHit` merges into the first group, in list order, whose
time is within the window, and stops there. -/
theorem InsertHit_loop_found (cfg : PhotoMultiplierHitDigiConfig) (amp : ℚ) (time : TimeType)
    (idx : Nat) (noise : Bool) (l : List HitData) (i k : Nat) (g : HitData)
    (hk : l[k]? = some g) (hw : |time - g.time| ≤ cfg.hitTimeWindow)
    (hfirst : ∀ (j : Nat) (g' : HitData), j < k → l[j]? = some g' → ¬ |time - g'.time| ≤ cfg.hitTimeWindow) :
    InsertHit_loop cfg amp time idx noise l i = (l.set k (g.merged amp idx noise), i + k) := by
  induction l generalizing i k with
  | nil => simp at hk
  | cons a rest ih =>
    cases k with
    | zero =>
      simp only [List.getElem?_cons_zero, Option.some.injEq] at hk
      subst hk
      simp [InsertHit_loop, hw, HitData.merged]
    | succ k =>
      have ha : ¬ |time - a.time| ≤ cfg.hitTimeWindow :=
        hfirst 0 a (Nat.succ_pos _) (by simp)
      simp only [List.getElem?_cons_succ] at hk
      have := ih (i + 1) k hk (fun j g' hj hg' => hfirst (j + 1) g' (by omega) (by simpa using hg'))
      simp only [InsertHit_loop, ha, if_false, this, List.set_cons_succ]
      congr 1
      omega

/-- When no group is within the window the loop of `InsertHit` changes nothing
and ends with the counter at the number of groups. -/
theorem InsertHit_loop_none (cfg : PhotoMultiplierHitDigiConfig) (amp : ℚ) (time : TimeType)
    (idx : Nat) (noise : Bool) (l : List HitData) (i : Nat)
    (hno : ∀ g ∈ l, ¬ |time - g.time| ≤ cfg.hitTimeWindow) :
    InsertHit_loop cfg amp time idx noise l i = (l, i + l.length) := by
  induction l generalizing i with
  | nil => rfl
  | cons a rest ih =>
    have ha := hno a (List.mem_cons_self _ _)
    simp only [InsertHit_loop, ha, if_false,
      ih (i + 1) (fun g hg => hno g (List.mem_cons_of_mem _ hg)), List.length_cons]
    congr 1
    omega

/-- Among groups of which one is within the window there is a first one. -/
theorem exists_first_in_window (cfg : PhotoMultiplierHitDigiConfig) (time : TimeType)
    (l : List HitData) (h : ∃ g ∈ l, |time - g.time| ≤ cfg.hitTimeWindow) :
    ∃ (k : Nat) (g : HitData), l[k]? = some g ∧ |time - g.time| ≤ cfg.hitTimeWindow ∧
      ∀ (j : Nat) (g' : HitData), j < k → l[j]? = some g' →
        ¬ |time - g'.time| ≤ cfg.hitTimeWindow := by
  induction l with
  | nil => simp at h
  | cons a rest ih =>
    by_cases ha : |time - a.time| ≤ cfg.hitTimeWindow
    · exact ⟨0, a, by simp, ha, fun j _ hj => absurd hj (Nat.not_lt_zero j)⟩
    · obtain ⟨g, hg, hgw⟩ := h
      have hg' : g ∈ rest := by
        rcases List.mem_cons.mp hg with he | he
        · subst he; exact absurd hgw ha
        · exact he
      obtain ⟨k, g1, hk, hw, hfirst⟩ := ih ⟨g, hg', hgw⟩
      refine ⟨k + 1, g1, by simpa using hk, hw, ?_⟩
      intro j g' hj hg2
      cases j with
      | zero =>
        simp only [List.getElem?_cons_zero, Option.some.injEq] at hg2
        subst hg2; exact ha
      | succ j =>
        exact hfirst j g' (by omega) (by simpa using hg2)

theorem getElem?_lt_length {α : Type} (l : List α) (k : Nat) (a : α) (h : l[k]? = some a) :
    k < l.length := by
  by_contra hc
  rw [List.getElem?_eq_none (by omega)] at h
  exact Option.noConfusion h

theorem assign_self {α : Type} (t : GroupTable α) (id : CellIDType) (gs : List α)
    (h : GroupTable.find t id = some gs) : GroupTable.assign t id gs = t := by
  induction t with
  | nil => rfl
  | cons kv rest ih =>
    unfold GroupTable.find at h
    unfold GroupTable.assign
    by_cases hk : kv.1 = id
    · simp only [hk, if_true, Option.some.injEq] at h ⊢
      subst h; subst hk
      rfl
    · simp only [hk, if_false] at h ⊢
      rw [ih h]

/-- A call whose cell has a group within the window merges into the first such
group; nothing else changes and no draw is taken. -/
theorem InsertHit_merge (cfg : PhotoMultiplierHitDigiConfig) (rng : RandomSource)
    (t : HitGroups) (id : CellIDType) (amp : ℚ) (time : TimeType) (pl pg : Position)
    (idx : Nat) (noise : Bool) (gs : List HitData) (k : Nat) (g : HitData)
    (hf : GroupTable.find t id = some gs) (hk : gs[k]? = some g)
    (hw : |time - g.time| ≤ cfg.hitTimeWindow)
    (hfirst : ∀ (j : Nat) (g' : HitData), j < k → gs[j]? = some g' → ¬ |time - g'.time| ≤ cfg.hitTimeWindow) :
    InsertHit cfg rng t id amp time pl pg idx noise =
      (GroupTable.assign t id (gs.set k (g.merged amp idx noise)), rng) := by
  unfold InsertHit
  rw [hf]
  have hl := InsertHit_loop_found cfg amp time idx noise gs 0 k g hk hw hfirst
  have hklt := getElem?_lt_length gs k g hk
  simp only [hl, List.length_set, Nat.zero_add]
  have : ¬ k ≥ gs.length := by omega
  simp only [this, if_false]

/-- A call whose cell is in the table but has no group within the window leaves
the table as it is and takes one standard-normal draw. -/
theorem InsertHit_no_match (cfg : PhotoMultiplierHitDigiConfig) (rng : RandomSource)
    (t : HitGroups) (id : CellIDType) (amp : ℚ) (time : TimeType) (pl pg : Position)
    (idx : Nat) (noise : Bool) (gs : List HitData)
    (hf : GroupTable.find t id = some gs)
    (hno : ∀ g ∈ gs, ¬ |time - g.time| ≤ cfg.hitTimeWindow) :
    InsertHit cfg rng t id amp time pl pg idx noise = (t, (m_rngNorm rng).2) := by
  unfold InsertHit
  rw [hf]
  have hl := InsertHit_loop_none cfg amp time idx noise gs 0 hno
  simp only [hl, Nat.zero_add, ge_iff_le, le_refl, if_true, assign_self t id gs hf]
  rw [insert_of_find_some t id gs _ hf]

/-- A call whose cell is not in the table appends the cell with one new group. -/
theorem InsertHit_new_cell (cfg : PhotoMultiplierHitDigiConfig) (rng : RandomSource)
    (t : HitGroups) (id : CellIDType) (amp : ℚ) (time : TimeType) (pl pg : Position)
    (idx : Nat) (noise : Bool) (hf : GroupTable.find t id = none) :
    InsertHit cfg rng t id amp time pl pg idx noise =
      (t ++ [(id, [HitData.mk 1 (amp + cfg.pedMean + cfg.pedError * (m_rngNorm rng).1) time
        pl pg (if !noise then [idx] else [])])], (m_rngNorm rng).2) := by
  unfold InsertHit
  rw [hf]
  simp only [insert_of_find_none _ _ _ hf]

theorem set_map_same {β : Type} (f : HitData → β) (l : List HitData) (k : Nat)
    (g a : HitData) (hk : l[k]? = some g) (hfa : f a = f g) :
    (l.set k a).map f = l.map f := by
  induction l generalizing k with
  | nil => rfl
  | cons b rest ih =>
    cases k with
    | zero =>
      simp only [List.getElem?_cons_zero, Option.some.injEq] at hk
      subst hk
      simp [hfa]
    | succ k =>
      simp only [List.getElem?_cons_succ] at hk
      simp [ih k hk]

/-- Replacing the groups of a cell by groups that look the same through `F`
leaves the table as it was, seen through `F`. -/
theorem pairs_assign_map {β : Type} (F : CellIDType × HitData → β) (t : HitGroups)
    (id : CellIDType) (gs v : List HitData) (h : GroupTable.find t id = some gs)
    (hv : v.map (fun g => F (id, g)) = gs.map (fun g => F (id, g))) :
    (HitGroups.pairs (GroupTable.assign t id v)).map F = (HitGroups.pairs t).map F := by
  induction t with
  | nil => simp [GroupTable.find] at h
  | cons kv rest ih =>
    unfold GroupTable.find at h
    unfold GroupTable.assign
    by_cases hk : kv.1 = id
    · simp only [hk, if_true, Option.some.injEq] at h ⊢
      subst h
      simp only [HitGroups.pairs, List.flatMap_cons, List.map_append, List.map_map,
        Function.comp_def, hk]
      rw [hv]
    · simp only [hk, if_false] at h ⊢
      have := ih h
      simp only [HitGroups.pairs, List.flatMap_cons, List.map_append] at this ⊢
      rw [this]

/-- One `InsertHit` call keeps cell, time and positions of every group, in
place, and adds at most one group, with the time and positions of the call. -/
theorem InsertHit_groupKey (cfg : PhotoMultiplierHitDigiConfig) (rng : RandomSource)
    (t : HitGroups) (id : CellIDType) (amp : ℚ) (time : TimeType) (pl pg : Position)
    (idx : Nat) (noise : Bool) :
    ∃ extra, (extra = [] ∨ extra = [(id, time, pl, pg)]) ∧
      (HitGroups.pairs (InsertHit cfg rng t id amp time pl pg idx noise).1).map groupKey =
        (HitGroups.pairs t).map groupKey ++ extra := by
  cases hf : GroupTable.find t id with
  | none =>
    refine ⟨[(id, time, pl, pg)], Or.inr rfl, ?_⟩
    rw [InsertHit_new_cell cfg rng t id amp time pl pg idx noise hf]
    simp [pairs_append, HitGroups.pairs, groupKey]
  | some gs =>
    refine ⟨[], Or.inl rfl, ?_⟩
    rw [List.append_nil]
    by_cases hw : ∃ g ∈ gs, |time - g.time| ≤ cfg.hitTimeWindow
    · obtain ⟨k, g, hk, hgw, hfirst⟩ := exists_first_in_window cfg time gs hw
      rw [InsertHit_merge cfg rng t id amp time pl pg idx noise gs k g hf hk hgw hfirst]
      exact pairs_assign_map groupKey t id gs _ hf
        (set_map_same (fun g => groupKey (id, g)) gs k g _ hk (by simp [groupKey, HitData.merged]))
    · have hno : ∀ g ∈ gs, ¬ |time - g.time| ≤ cfg.hitTimeWindow :=
        fun g hg hgw => hw ⟨g, hg, hgw⟩
      rw [InsertHit_no_match cfg rng t id amp time pl pg idx noise gs hf hno]

theorem run_calls_groupKey (cfg : PhotoMultiplierHitDigiConfig) (calls : List InsertCall)
    (t : HitGroups) (rng : RandomSource) :
    ∃ extra, (HitGroups.pairs (run_calls cfg calls (t, rng)).1).map groupKey =
        (HitGroups.pairs t).map groupKey ++ extra ∧
      ∀ e ∈ extra, ∃ c ∈ calls, e = (c.id, c.time, c.pos_hit_local, c.pos_hit_global) := by
  induction calls generalizing t rng with
  | nil => exact ⟨[], by simp [run_calls], by simp⟩
  | cons c cs ih =>
    obtain ⟨e1, he1, h1⟩ := InsertHit_groupKey cfg rng t c.id c.amp c.time c.pos_hit_local
      c.pos_hit_global c.sim_hit_index c.is_noise_hit
    obtain ⟨e2, h2, hm2⟩ := ih (InsertHit cfg rng t c.id c.amp c.time c.pos_hit_local
      c.pos_hit_global c.sim_hit_index c.is_noise_hit).1
      (InsertHit cfg rng t c.id c.amp c.time c.pos_hit_local
      c.pos_hit_global c.sim_hit_index c.is_noise_hit).2
    refine ⟨e1 ++ e2, ?_, ?_⟩
    · simp only [run_calls]
      rw [h2, h1, List.append_assoc]
    · intro e he
      rcases List.mem_append.mp he with he | he
      · rcases he1 with he1 | he1
        · rw [he1] at he; simp at he
        · rw [he1] at he
          simp only [List.mem_singleton] at he
          exact ⟨c, List.mem_cons_self _ _, he⟩
      · obtain ⟨c', hc', hec⟩ := hm2 e he
        exact ⟨c', List.mem_cons_of_mem _ hc', hec⟩

/-- C16: (1) one `InsertHit` call keeps the cell, representative time, local and
global position of every group, in place, and adds at most one group, which
carries the time and positions of the call: no group is removed and no two groups
are merged; (2) for a cell that is in the table, the call merges into the first
group in list order with `|time - group time| <= hitTimeWindow`, and into none
when no group satisfies it, so the decision reads only the groups' times, which
by (1) are their creation times; (3) after any sequence of calls the groups that
existed keep cell, time and positions, and every added group has the cell, time
and positions of one of the calls. -/
theorem C16_groups_keep_time_and_place (cfg : PhotoMultiplierHitDigiConfig)
    (rng : RandomSource) (t : HitGroups) :
    (∀ (id : CellIDType) (amp : ℚ) (time : TimeType) (pl pg : Position) (idx : Nat)
        (noise : Bool),
      (∃ extra, (extra = [] ∨ extra = [(id, time, pl, pg)]) ∧
        (HitGroups.pairs (InsertHit cfg rng t id amp time pl pg idx noise).1).map groupKey =
          (HitGroups.pairs t).map groupKey ++ extra) ∧
      (∀ gs, GroupTable.find t id = some gs →
        ((∃ g ∈ gs, |time - g.time| ≤ cfg.hitTimeWindow) →
          ∃ (k : Nat) (g : HitData), gs[k]? = some g ∧ |time - g.time| ≤ cfg.hitTimeWindow ∧
            (∀ (j : Nat) (g' : HitData), j < k → gs[j]? = some g' →
              ¬ |time - g'.time| ≤ cfg.hitTimeWindow) ∧
            GroupTable.find (InsertHit cfg rng t id amp time pl pg idx noise).1 id =
              some (gs.set k (g.merged amp idx noise)) ∧
            (g.merged amp idx noise).time = g.time) ∧
        ((∀ g ∈ gs, ¬ |time - g.time| ≤ cfg.hitTimeWindow) →
          GroupTable.find (InsertHit cfg rng t id amp time pl pg idx noise).1 id = some gs))) ∧
    (∀ calls : List InsertCall,
      ∃ extra, (HitGroups.pairs (run_calls cfg calls (t, rng)).1).map groupKey =
          (HitGroups.pairs t).map groupKey ++ extra ∧
        ∀ e ∈ extra, ∃ c ∈ calls, e = (c.id, c.time, c.pos_hit_local, c.pos_hit_global)) := by
  refine ⟨?_, fun calls => run_calls_groupKey cfg calls t rng⟩
  intro id amp time pl pg idx noise
  refine ⟨InsertHit_groupKey cfg rng t id amp time pl pg idx noise, ?_⟩
  intro gs hf
  constructor
  · intro hw
    obtain ⟨k, g, hk, hgw, hfirst⟩ := exists_first_in_window cfg time gs hw
    refine ⟨k, g, hk, hgw, hfirst, ?_, rfl⟩
    rw [InsertHit_merge cfg rng t id amp time pl pg idx noise gs k g hf hk hgw hfirst]
    exact find_assign t id gs _ hf
  · intro hno
    rw [InsertHit_no_match cfg rng t id amp time pl pg idx noise gs hf hno]
    exact hf

/-- C17 (the code at the input of C1): two `InsertHit` calls for cell `0xA` at
times `0.0` and `0.5` with window `0.1`, from the empty table. The second call
neither merges nor creates a group, so the photo-electron counts of all groups
sum to 1, not to the number of calls, 2. -/
theorem C17_far_calls_photo_electron_sum :
    farCalls.length = 2 ∧
    ((HitGroups.pairs (run_calls scenarioCfg farCalls ([], zeroRng)).1).map
      (fun p => p.2.npe)).sum = 1 := by
  refine ⟨rfl, ?_⟩
  have h : (run_calls scenarioCfg farCalls ([], zeroRng)).1 =
      [(0xA, [HitData.mk 1 1 0 origin origin [0]])] := by
    simp [run_calls, farCalls, InsertHit, InsertHit_loop, GroupTable.find, GroupTable.insert,
      GroupTable.assign, m_rngNorm, scenarioCfg, zeroRng]
    norm_num [abs_le]
  rw [h]
  simp [HitGroups.pairs]

/-- C18: for every table and every noise event whose cell has a group with
`|time - group time| <= hitTimeWindow`, `InsertHit` replaces the first such
group of the cell by the same group with photo-electron count plus 1 and signal
plus the noise amplitude, takes no draw, and leaves everything else, in
particular every contributor list of the table, unchanged. -/
theorem C18_noise_merges_without_contributor (cfg : PhotoMultiplierHitDigiConfig)
    (rng : RandomSource) (t : HitGroups) (id : CellIDType) (amp : ℚ) (time : TimeType)
    (pl pg : Position) (idx : Nat) (gs : List HitData)
    (hf : GroupTable.find t id = some gs)
    (hw : ∃ g ∈ gs, |time - g.time| ≤ cfg.hitTimeWindow) :
    ∃ (k : Nat) (g : HitData), gs[k]? = some g ∧ |time - g.time| ≤ cfg.hitTimeWindow ∧
      (∀ (j : Nat) (g' : HitData), j < k → gs[j]? = some g' →
        ¬ |time - g'.time| ≤ cfg.hitTimeWindow) ∧
      InsertHit cfg rng t id amp time pl pg idx true =
        (GroupTable.assign t id
          (gs.set k { g with npe := g.npe + 1, signal := g.signal + amp }), rng) ∧
      (HitGroups.pairs (InsertHit cfg rng t id amp time pl pg idx true).1).map
          (fun p => p.2.sim_hit_indices) =
        (HitGroups.pairs t).map (fun p => p.2.sim_hit_indices) := by
  obtain ⟨k, g, hk, hgw, hfirst⟩ := exists_first_in_window cfg time gs hw
  have hm := InsertHit_merge cfg rng t id amp time pl pg idx true gs k g hf hk hgw hfirst
  have hg : g.merged amp idx true = { g with npe := g.npe + 1, signal := g.signal + amp } := by
    simp [HitData.merged]
  rw [hg] at hm
  refine ⟨k, g, hk, hgw, hfirst, hm, ?_⟩
  rw [hm]
  exact pairs_assign_map (fun p => p.2.sim_hit_indices) t id gs _ hf
    (set_map_same (fun g => g.sim_hit_indices) gs k g _ hk rfl)

/-- C18 at a concrete table: the group of cell `0xA` at time `2.5`, seeded by the
real hit 0 (count 3, signal `-3.5`), takes a noise event of amplitude 1 at time
`2.55`: count 4, signal `-2.5`, contributors still `[0]`. -/
theorem C18_noise_merges_without_contributor_witness :
    GroupTable.find oneGroupTable 0xA = some [HitData.mk 3 (-7 / 2) (5 / 2) origin origin [0]] ∧
    (∃ g ∈ [HitData.mk 3 (-7 / 2) (5 / 2) origin origin [0]],
      |(51 / 20 : ℚ) - g.time| ≤ scenarioCfg.hitTimeWindow) ∧
    InsertHit scenarioCfg zeroRng oneGroupTable 0xA 1 (51 / 20) origin origin 0 true =
      ([(0xA, [HitData.mk 4 (-5 / 2) (5 / 2) origin origin [0]])], zeroRng) := by
  have hf : GroupTable.find oneGroupTable 0xA =
      some [HitData.mk 3 (-7 / 2) (5 / 2) origin origin [0]] := by
    simp [GroupTable.find, oneGroupTable]
  have hw : ∃ g ∈ [HitData.mk 3 (-7 / 2) (5 / 2) origin origin [0]],
      |(51 / 20 : ℚ) - g.time| ≤ scenarioCfg.hitTimeWindow :=
    ⟨_, List.mem_singleton_self _, by norm_num [scenarioCfg, abs_le]⟩
  obtain ⟨k, g, hk, _, _, hm, _⟩ := C18_noise_merges_without_contributor scenarioCfg zeroRng
    oneGroupTable 0xA 1 (51 / 20) origin origin 0 _ hf hw
  refine ⟨hf, hw, ?_⟩
  rw [hm]
  have hk0 : k = 0 := by
    have := getElem?_lt_length _ k g hk
    simpa using this
  subst hk0
  simp only [List.getElem?_cons_zero, Option.some.injEq] at hk
  subst hk
  simp only [GroupTable.assign, oneGroupTable, if_true, List.set_cons_zero]
  norm_num

/-! ### Noise injection and the pixel-gap gate -/

/-- `InsertHit` takes no standard-normal draw or exactly one. -/
theorem InsertHit_rng (cfg : PhotoMultiplierHitDigiConfig) (rng : RandomSource)
    (t : HitGroups) (id : CellIDType) (amp : ℚ) (time : TimeType) (pl pg : Position)
    (idx : Nat) (noise : Bool) :
    (InsertHit cfg rng t id amp time pl pg idx noise).2 = rng ∨
      (InsertHit cfg rng t id amp time pl pg idx noise).2 = (m_rngNorm rng).2 := by
  cases hf : GroupTable.find t id with
  | none =>
    rw [InsertHit_new_cell cfg rng t id amp time pl pg idx noise hf]
    exact Or.inr rfl
  | some gs =>
    by_cases hw : ∃ g ∈ gs, |time - g.time| ≤ cfg.hitTimeWindow
    · obtain ⟨k, g, hk, hgw, hfirst⟩ := exists_first_in_window cfg time gs hw
      rw [InsertHit_merge cfg rng t id amp time pl pg idx noise gs k g hf hk hgw hfirst]
      exact Or.inl rfl
    · rw [InsertHit_no_match cfg rng t id amp time pl pg idx noise gs hf
        (fun g hg hgw => hw ⟨g, hg, hgw⟩)]
      exact Or.inr rfl

/-- C19: (1) with noise enabled, the noise generator is called with the
probability `noiseRate * noiseTimeWindow` and the action runs on the cells it
yields, in order; (2) the action inserts a noise event whose time is
`noiseTimeWindow * u / ns` for the uniform draw `u` it takes, which with the
unit constant `ns = 1` is `noiseTimeWindow * u` and lies in
`[0, noiseTimeWindow)` when the window is positive and `u` is in `[0, 1)`;
(3) with noise disabled the table and the random source are returned as the
loop over simulated hits left them, whatever the noise generator is. -/
theorem C19_noise_injection (cfg : PhotoMultiplierHitDigiConfig) (svc : Services)
    (st : HitGroups × RandomSource) :
    (cfg.enableNoise = true →
      noise_injection cfg svc st =
        (svc.VisitRngCellIDs (cfg.noiseRate * cfg.noiseTimeWindow)).foldl
          (cellID_action cfg svc) st) ∧
    (∀ id : CellIDType, ∃ time : TimeType,
      cellID_action cfg svc st id =
        InsertHit cfg (m_rngUni (m_rngNorm st.2).2).2 st.1 id
          (cfg.speMean + st.2.gaus st.2.nGaus * cfg.speError) time ⟨0, 0, 0⟩
          (svc.position id) 0 true ∧
      time = cfg.noiseTimeWindow * st.2.uniform st.2.nUniform / svc.ns ∧
      (svc.ns = 1 → time = cfg.noiseTimeWindow * st.2.uniform st.2.nUniform ∧
        (0 < cfg.noiseTimeWindow → 0 ≤ st.2.uniform st.2.nUniform →
          st.2.uniform st.2.nUniform < 1 → 0 ≤ time ∧ time < cfg.noiseTimeWindow))) ∧
    (cfg.enableNoise = false →
      ∀ gen : ℚ → List CellIDType,
        noise_injection cfg { svc with VisitRngCellIDs := gen } st = st) := by
  refine ⟨?_, ?_, ?_⟩
  · intro hn
    simp only [noise_injection, hn, if_true]
  · intro id
    refine ⟨cfg.noiseTimeWindow * st.2.uniform st.2.nUniform / svc.ns, rfl, rfl, ?_⟩
    intro hns
    rw [hns, div_one]
    refine ⟨rfl, fun hW h0 h1 => ⟨mul_nonneg hW.le h0, ?_⟩⟩
    calc cfg.noiseTimeWindow * st.2.uniform st.2.nUniform
        < cfg.noiseTimeWindow * 1 := mul_lt_mul_of_pos_left h1 hW
      _ = cfg.noiseTimeWindow := mul_one _
  · intro hn gen
    simp only [noise_injection, hn, Bool.false_eq_true, if_false]

/-- C19 at a concrete input: rate 2, window 3, one cell `0xB` yielded, every draw
`0.5`: the generator receives probability 6 and the noise event has time `1.5`. -/
theorem C19_noise_injection_witness :
    noiseCfg.enableNoise = true ∧ noiseCfg.noiseRate * noiseCfg.noiseTimeWindow = 6 ∧
    oneNoiseCellServices.ns = 1 ∧
    (noise_injection noiseCfg oneNoiseCellServices ([], halfRng)).1 =
      [(0xB, [HitData.mk 1 1 (3 / 2) ⟨0, 0, 0⟩ origin []])] := by
  have h := C19_noise_injection noiseCfg oneNoiseCellServices ([], halfRng)
  have hp : noiseCfg.noiseRate * noiseCfg.noiseTimeWindow = 6 := by
    norm_num [noiseCfg]
  refine ⟨rfl, hp, rfl, ?_⟩
  rw [h.1 rfl]
  obtain ⟨time, ha, ht, _⟩ := h.2.1 0xB
  have hv : oneNoiseCellServices.VisitRngCellIDs
      (noiseCfg.noiseRate * noiseCfg.noiseTimeWindow) = [0xB] := rfl
  rw [hv, List.foldl_cons, List.foldl_nil, ha, ht, InsertHit_empty]
  norm_num [noiseCfg, scenarioCfg, halfRng, oneNoiseCellServices, plainServices, m_rngNorm,
    m_rngUni]

theorem qe_pass_default_4 : qe_pass defaultQeff 4 0 = true := by
  have hdef : qe_prob defaultQeff 4 = some 0.3 := by
    rw [qe_prob_strict defaultQeff _ 0 (by simp [defaultQeff]) 4
      (by norm_num [deref, defaultQeff]) (by norm_num [deref, defaultQeff])]
    · norm_num [deref, defaultQeff]
    · simp only [defaultQeff, List.Sorted, List.pairwise_cons, List.mem_singleton,
        List.not_mem_nil, forall_eq, List.Pairwise.nil, and_true]
      norm_num
  rw [qe_pass_eq, hdef]
  norm_num

/-- C20: for a simulated hit that passed the safety-factor and the
quantum-efficiency gate, (1) with pixel gaps enabled the hit is discarded
(table unchanged, no amplitude draw) when the absolute x-offset or the absolute
y-offset, in units of `mm`, between the sensor-local position of `vec2pos` of
its position and the sensor-local position of the pixel centre is strictly above
`pixelSize / 2`, and is inserted otherwise; the z-offset does not enter; whether the amplitude draw
was taken tells the two cases apart; (2) with pixel gaps disabled the hit is
inserted, with zero positions, and the result does not depend on the geometry
services. -/
theorem C20_pixel_gap_gate (cfg : PhotoMultiplierHitDigiConfig) (svc : Services)
    (qeff : List (ℚ × ℚ)) (st : HitGroups × RandomSource) (idx : Nat)
    (sim_hit : SimTrackerHit)
    (h1 : ¬ (m_rngUni st.2).1 > cfg.safetyFactor)
    (h2 : qe_pass qeff (sim_hit.EDep * 1e9) (m_rngUni (m_rngUni st.2).2).1 = true) :
    (cfg.enablePixelGaps = true →
      process_sim_hit cfg svc qeff st idx sim_hit =
        (if |(svc.get_sensor_local_position sim_hit.cellID
              (svc.vec2pos sim_hit.position)).x / svc.mm -
              (svc.get_sensor_local_position sim_hit.cellID
                (svc.position sim_hit.cellID)).x / svc.mm| > cfg.pixelSize / 2 ∨
            |(svc.get_sensor_local_position sim_hit.cellID
              (svc.vec2pos sim_hit.position)).y / svc.mm -
              (svc.get_sensor_local_position sim_hit.cellID
                (svc.position sim_hit.cellID)).y / svc.mm| > cfg.pixelSize / 2
         then (st.1, (m_rngUni (m_rngUni st.2).2).2)
         else InsertHit cfg (m_rngNorm (m_rngUni (m_rngUni st.2).2).2).2 st.1 sim_hit.cellID
           (cfg.speMean + (m_rngNorm (m_rngUni (m_rngUni st.2).2).2).1 * cfg.speError)
           sim_hit.time (svc.get_sensor_local_position sim_hit.cellID
              (svc.vec2pos sim_hit.position))
           (svc.position sim_hit.cellID) idx false) ∧
      ((process_sim_hit cfg svc qeff st idx sim_hit).2.nGaus = st.2.nGaus ↔
        (|(svc.get_sensor_local_position sim_hit.cellID
              (svc.vec2pos sim_hit.position)).x / svc.mm -
              (svc.get_sensor_local_position sim_hit.cellID
                (svc.position sim_hit.cellID)).x / svc.mm| > cfg.pixelSize / 2 ∨
            |(svc.get_sensor_local_position sim_hit.cellID
              (svc.vec2pos sim_hit.position)).y / svc.mm -
              (svc.get_sensor_local_position sim_hit.cellID
                (svc.position sim_hit.cellID)).y / svc.mm| > cfg.pixelSize / 2))) ∧
    (cfg.enablePixelGaps = false →
      process_sim_hit cfg svc qeff st idx sim_hit =
        InsertHit cfg (m_rngNorm (m_rngUni (m_rngUni st.2).2).2).2 st.1 sim_hit.cellID
          (cfg.speMean + (m_rngNorm (m_rngUni (m_rngUni st.2).2).2).1 * cfg.speError)
          sim_hit.time ⟨0, 0, 0⟩ ⟨0, 0, 0⟩ idx false ∧
      ∀ svc2 : Services,
        process_sim_hit cfg svc2 qeff st idx sim_hit =
          process_sim_hit cfg svc qeff st idx sim_hit) := by
  have hgen : ∀ s : Services, cfg.enablePixelGaps = false →
      process_sim_hit cfg s qeff st idx sim_hit =
        InsertHit cfg (m_rngNorm (m_rngUni (m_rngUni st.2).2).2).2 st.1 sim_hit.cellID
          (cfg.speMean + (m_rngNorm (m_rngUni (m_rngUni st.2).2).2).1 * cfg.speError)
          sim_hit.time ⟨0, 0, 0⟩ ⟨0, 0, 0⟩ idx false := by
    intro s hg
    unfold process_sim_hit
    simp only [h1, h2, hg, if_false, Bool.not_true, Bool.false_eq_true, false_and]
  constructor
  · intro hg
    have he : process_sim_hit cfg svc qeff st idx sim_hit =
        (if |(svc.get_sensor_local_position sim_hit.cellID
              (svc.vec2pos sim_hit.position)).x / svc.mm -
              (svc.get_sensor_local_position sim_hit.cellID
                (svc.position sim_hit.cellID)).x / svc.mm| > cfg.pixelSize / 2 ∨
            |(svc.get_sensor_local_position sim_hit.cellID
              (svc.vec2pos sim_hit.position)).y / svc.mm -
              (svc.get_sensor_local_position sim_hit.cellID
                (svc.position sim_hit.cellID)).y / svc.mm| > cfg.pixelSize / 2
         then (st.1, (m_rngUni (m_rngUni st.2).2).2)
         else InsertHit cfg (m_rngNorm (m_rngUni (m_rngUni st.2).2).2).2 st.1 sim_hit.cellID
           (cfg.speMean + (m_rngNorm (m_rngUni (m_rngUni st.2).2).2).1 * cfg.speError)
           sim_hit.time (svc.get_sensor_local_position sim_hit.cellID
              (svc.vec2pos sim_hit.position))
           (svc.position sim_hit.cellID) idx false) := by
      unfold process_sim_hit
      simp only [h1, h2, hg, if_false, if_true, Bool.not_true, Bool.false_eq_true, true_and]
    refine ⟨he, ?_⟩
    rw [he]
    split_ifs with hc
    · simp only [hc, iff_true]
      simp [m_rngUni]
    · simp only [hc, iff_false]
      rcases InsertHit_rng cfg (m_rngNorm (m_rngUni (m_rngUni st.2).2).2).2 st.1
        sim_hit.cellID (cfg.speMean + (m_rngNorm (m_rngUni (m_rngUni st.2).2).2).1 *
          cfg.speError) sim_hit.time
        (svc.get_sensor_local_position sim_hit.cellID
              (svc.vec2pos sim_hit.position))
        (svc.position sim_hit.cellID) idx false with hr | hr
      · rw [hr]; simp [m_rngUni, m_rngNorm]
      · rw [hr]; simp only [m_rngUni, m_rngNorm]; omega
  · intro hg
    refine ⟨hgen svc hg, fun svc2 => ?_⟩
    rw [hgen svc2 hg, hgen svc hg]

/-- C20 at concrete inputs, pixel size 1, pixel centre at the origin. With
`mm = 1`: the hit with x-offset exactly `0.5` and z-offset 100 is inserted, the
hit with y-offset `0.51` is discarded. With `mm = 1 / 10` and `vec2pos`
multiplying by `mm`: the hit at `(0.25, -0.25, 0)` is inserted (its stored local
position is `(0.025, -0.025, 0)`), the hit with y-offset `0.51` is discarded. -/
theorem C20_pixel_gap_gate_witness :
    (¬ (m_rngUni zeroRng).1 > pixelGapCfg.safetyFactor) ∧
    qe_pass defaultQeff (edgeHit.EDep * 1e9) (m_rngUni (m_rngUni zeroRng).2).1 = true ∧
    qe_pass defaultQeff (gapHit.EDep * 1e9) (m_rngUni (m_rngUni zeroRng).2).1 = true ∧
    qe_pass defaultQeff (quarterHit.EDep * 1e9) (m_rngUni (m_rngUni zeroRng).2).1 = true ∧
    (process_sim_hit pixelGapCfg plainServices defaultQeff ([], zeroRng) 0 edgeHit).1 =
      [(0xA, [HitData.mk 1 1 0 ⟨1 / 2, 0, 100⟩ origin [0]])] ∧
    (process_sim_hit pixelGapCfg plainServices defaultQeff ([], zeroRng) 0 gapHit).1 = [] ∧
    (process_sim_hit pixelGapCfg tenthServices defaultQeff ([], zeroRng) 0 quarterHit).1 =
      [(0xA, [HitData.mk 1 1 0 ⟨1 / 40, -(1 / 40), 0⟩ origin [0]])] ∧
    (process_sim_hit pixelGapCfg tenthServices defaultQeff ([], zeroRng) 0 gapHit).1 = [] := by
  have h1 : ¬ (m_rngUni zeroRng).1 > pixelGapCfg.safetyFactor := by
    norm_num [m_rngUni, zeroRng, pixelGapCfg, scenarioCfg]
  have e1 : edgeHit.EDep * 1e9 = 4 := by norm_num [edgeHit]
  have e2 : gapHit.EDep * 1e9 = 4 := by norm_num [gapHit]
  have e3 : quarterHit.EDep * 1e9 = 4 := by norm_num [quarterHit]
  have hu : (m_rngUni (m_rngUni zeroRng).2).1 = 0 := rfl
  have h2 : qe_pass defaultQeff (edgeHit.EDep * 1e9) (m_rngUni (m_rngUni zeroRng).2).1 = true := by
    rw [e1, hu]; exact qe_pass_default_4
  have h3 : qe_pass defaultQeff (gapHit.EDep * 1e9) (m_rngUni (m_rngUni zeroRng).2).1 = true := by
    rw [e2, hu]; exact qe_pass_default_4
  have h4 : qe_pass defaultQeff (quarterHit.EDep * 1e9)
      (m_rngUni (m_rngUni zeroRng).2).1 = true := by
    rw [e3, hu]; exact qe_pass_default_4
  have ha := ((C20_pixel_gap_gate pixelGapCfg plainServices defaultQeff ([], zeroRng) 0 edgeHit
    h1 h2).1 rfl).1
  have hb := ((C20_pixel_gap_gate pixelGapCfg plainServices defaultQeff ([], zeroRng) 0 gapHit
    h1 h3).1 rfl).1
  have hq := ((C20_pixel_gap_gate pixelGapCfg tenthServices defaultQeff ([], zeroRng) 0
    quarterHit h1 h4).1 rfl).1
  have hd := ((C20_pixel_gap_gate pixelGapCfg tenthServices defaultQeff ([], zeroRng) 0 gapHit
    h1 h3).1 rfl).1
  refine ⟨h1, h2, h3, h4, ?_, ?_, ?_, ?_⟩
  · rw [ha]
    have hc : ¬ (|(plainServices.get_sensor_local_position edgeHit.cellID
          (plainServices.vec2pos edgeHit.position)).x / plainServices.mm -
        (plainServices.get_sensor_local_position edgeHit.cellID
          (plainServices.position edgeHit.cellID)).x / plainServices.mm| >
          pixelGapCfg.pixelSize / 2 ∨
        |(plainServices.get_sensor_local_position edgeHit.cellID
          (plainServices.vec2pos edgeHit.position)).y / plainServices.mm -
        (plainServices.get_sensor_local_position edgeHit.cellID
          (plainServices.position edgeHit.cellID)).y / plainServices.mm| >
          pixelGapCfg.pixelSize / 2) := by
      norm_num [plainServices, edgeHit, origin, pixelGapCfg, scenarioCfg, abs_le]
    rw [if_neg hc, InsertHit_empty]
    norm_num [plainServices, edgeHit, origin, pixelGapCfg, scenarioCfg, m_rngNorm, m_rngUni,
      zeroRng]
  · rw [hb]
    have hc : (|(plainServices.get_sensor_local_position gapHit.cellID
          (plainServices.vec2pos gapHit.position)).x / plainServices.mm -
        (plainServices.get_sensor_local_position gapHit.cellID
          (plainServices.position gapHit.cellID)).x / plainServices.mm| >
          pixelGapCfg.pixelSize / 2 ∨
        |(plainServices.get_sensor_local_position gapHit.cellID
          (plainServices.vec2pos gapHit.position)).y / plainServices.mm -
        (plainServices.get_sensor_local_position gapHit.cellID
          (plainServices.position gapHit.cellID)).y / plainServices.mm| >
          pixelGapCfg.pixelSize / 2) := by
      right
      norm_num [plainServices, gapHit, origin, pixelGapCfg, scenarioCfg, abs_of_pos]
    rw [if_pos hc]
  · rw [hq]
    have hc : ¬ (|(tenthServices.get_sensor_local_position quarterHit.cellID
          (tenthServices.vec2pos quarterHit.position)).x / tenthServices.mm -
        (tenthServices.get_sensor_local_position quarterHit.cellID
          (tenthServices.position quarterHit.cellID)).x / tenthServices.mm| >
          pixelGapCfg.pixelSize / 2 ∨
        |(tenthServices.get_sensor_local_position quarterHit.cellID
          (tenthServices.vec2pos quarterHit.position)).y / tenthServices.mm -
        (tenthServices.get_sensor_local_position quarterHit.cellID
          (tenthServices.position quarterHit.cellID)).y / tenthServices.mm| >
          pixelGapCfg.pixelSize / 2) := by
      norm_num [tenthServices, quarterHit, origin, pixelGapCfg, scenarioCfg, abs_le]
    rw [if_neg hc, InsertHit_empty]
    norm_num [tenthServices, quarterHit, origin, pixelGapCfg, scenarioCfg, m_rngNorm, m_rngUni,
      zeroRng]
  · rw [hd]
    have hc : (|(tenthServices.get_sensor_local_position gapHit.cellID
          (tenthServices.vec2pos gapHit.position)).x / tenthServices.mm -
        (tenthServices.get_sensor_local_position gapHit.cellID
          (tenthServices.position gapHit.cellID)).x / tenthServices.mm| >
          pixelGapCfg.pixelSize / 2 ∨
        |(tenthServices.get_sensor_local_position gapHit.cellID
          (tenthServices.vec2pos gapHit.position)).y / tenthServices.mm -
        (tenthServices.get_sensor_local_position gapHit.cellID
          (tenthServices.position gapHit.cellID)).y / tenthServices.mm| >
          pixelGapCfg.pixelSize / 2) := by
      right
      norm_num [tenthServices, gapHit, origin, pixelGapCfg, scenarioCfg, abs_of_pos]
    rw [if_pos hc]

/-! ### CalorimeterIslandCluster (modelled) -/

theorem neighbours_symm (d : ℚ × ℚ) (hits : List CalorimeterHit) (i j : Nat) :
    neighbours d hits i j = neighbours d hits j i := by
  unfold neighbours
  cases hits[i]? <;> cases hits[j]? <;> simp [is_neighbour, abs_sub_comm]

/-- One grouping step keeps the groups a partition of the positions taken so
far, keeps neighbours together and keeps every group connected. -/
theorem add_to_groups_inv (d : ℚ × ℚ) (hits : List CalorimeterHit)
    (groups : List (List Nat)) (m : Nat)
    (h1 : groups.flatten.Perm (List.range m))
    (h3 : ∀ a b, a < m → b < m → neighbours d hits a b = true →
      ∃ g ∈ groups, a ∈ g ∧ b ∈ g)
    (h4 : ∀ g ∈ groups, ∀ a ∈ g, ∀ b ∈ g,
      Relation.ReflTransGen (fun i j => neighbours d hits i j = true) a b) :
    (add_to_groups d hits groups m).flatten.Perm (List.range (m + 1)) ∧
    (∀ a b, a < m + 1 → b < m + 1 → neighbours d hits a b = true →
      ∃ g ∈ add_to_groups d hits groups m, a ∈ g ∧ b ∈ g) ∧
    (∀ g ∈ add_to_groups d hits groups m, ∀ a ∈ g, ∀ b ∈ g,
      Relation.ReflTransGen (fun i j => neighbours d hits i j = true) a b) := by
  have hcover : ∀ a, a < m → ∃ g ∈ groups, a ∈ g := by
    intro a ha
    have : a ∈ groups.flatten := (h1.mem_iff).mpr (List.mem_range.mpr ha)
    exact List.mem_flatten.mp this
  -- membership in the merged group
  have hnear : ∀ g ∈ groups, g.any (fun j => neighbours d hits m j) = true → ∀ a ∈ g,
      a ∈ (groups.filter (fun g => g.any (fun j => neighbours d hits m j))).flatten ++ [m] := by
    intro g hg hp a ha
    exact List.mem_append_left _
      (List.mem_flatten.mpr ⟨g, List.mem_filter.mpr ⟨hg, hp⟩, ha⟩)
  have hmN : m ∈ (groups.filter (fun g => g.any (fun j => neighbours d hits m j))).flatten
      ++ [m] := List.mem_append_right _ (List.mem_singleton_self m)
  have hNmem : (groups.filter (fun g => g.any (fun j => neighbours d hits m j))).flatten ++ [m]
      ∈ add_to_groups d hits groups m := by
    unfold add_to_groups
    exact List.mem_append_right _ (List.mem_singleton_self _)
  have hfar : ∀ g ∈ groups, ¬ g.any (fun j => neighbours d hits m j) = true →
      g ∈ add_to_groups d hits groups m := by
    intro g hg hp
    unfold add_to_groups
    exact List.mem_append_left _ (List.mem_filter.mpr ⟨hg, by simpa using hp⟩)
  -- a group that holds `a` with `a` a neighbour of `m` is merged
  have hpair : ∀ a, a < m → neighbours d hits m a = true →
      a ∈ (groups.filter (fun g => g.any (fun j => neighbours d hits m j))).flatten ++ [m] := by
    intro a ha hn
    obtain ⟨g, hg, hag⟩ := hcover a ha
    exact hnear g hg (List.any_eq_true.mpr ⟨a, hag, hn⟩) a hag
  refine ⟨?_, ?_, ?_⟩
  · have hp := (List.filter_append_perm (fun g : List Nat =>
      g.any (fun j => neighbours d hits m j)) groups).flatten
    rw [List.flatten_append] at hp
    have hp2 := hp.trans h1
    unfold add_to_groups
    rw [List.flatten_append, List.range_succ]
    simp only [List.flatten_cons, List.flatten_nil, List.append_nil]
    rw [← List.append_assoc]
    exact List.Perm.append_right [m] (List.perm_append_comm.trans hp2)
  · intro a b ha hb hn
    by_cases hbm : b = m
    · subst hbm
      by_cases ham : a = b
      · subst ham
        exact ⟨_, hNmem, hmN, hmN⟩
      · have : neighbours d hits b a = true := by rw [neighbours_symm]; exact hn
        exact ⟨_, hNmem, hpair a (by omega) this, hmN⟩
    · by_cases ham : a = m
      · subst ham
        exact ⟨_, hNmem, hmN, hpair b (by omega) hn⟩
      · obtain ⟨g, hg, hag, hbg⟩ := h3 a b (by omega) (by omega) hn
        by_cases hp : g.any (fun j => neighbours d hits m j) = true
        · exact ⟨_, hNmem, hnear g hg hp a hag, hnear g hg hp b hbg⟩
        · exact ⟨g, hfar g hg hp, hag, hbg⟩
  · intro g hg
    unfold add_to_groups at hg
    rcases List.mem_append.mp hg with hg | hg
    · exact h4 g (List.mem_filter.mp hg).1
    · rw [List.mem_singleton] at hg
      subst hg
      -- every element of the merged group is connected with `m`, both ways
      have hm : ∀ x ∈ (groups.filter
          (fun g => g.any (fun j => neighbours d hits m j))).flatten ++ [m],
          Relation.ReflTransGen (fun i j => neighbours d hits i j = true) x m ∧
          Relation.ReflTransGen (fun i j => neighbours d hits i j = true) m x := by
        intro x hx
        rcases List.mem_append.mp hx with hx | hx
        · obtain ⟨c, hc, hxc⟩ := List.mem_flatten.mp hx
          obtain ⟨hcg, hcp⟩ := List.mem_filter.mp hc
          obtain ⟨y, hyc, hmy⟩ := List.any_eq_true.mp hcp
          have hym : neighbours d hits y m = true := by rw [neighbours_symm]; exact hmy
          exact ⟨(h4 c hcg x hxc y hyc).tail hym,
            Relation.ReflTransGen.head hmy (h4 c hcg y hyc x hxc)⟩
        · rw [List.mem_singleton] at hx
          subst hx
          exact ⟨Relation.ReflTransGen.refl, Relation.ReflTransGen.refl⟩
      intro a ha b hb
      exact (hm a ha).1.trans (hm b hb).2

/-- The groups built from the first `m` positions. -/
theorem group_prefix_inv (d : ℚ × ℚ) (hits : List CalorimeterHit) (m : Nat) :
    ((List.range m).foldl (add_to_groups d hits) []).flatten.Perm (List.range m) ∧
    (∀ a b, a < m → b < m → neighbours d hits a b = true →
      ∃ g ∈ (List.range m).foldl (add_to_groups d hits) [], a ∈ g ∧ b ∈ g) ∧
    (∀ g ∈ (List.range m).foldl (add_to_groups d hits) [], ∀ a ∈ g, ∀ b ∈ g,
      Relation.ReflTransGen (fun i j => neighbours d hits i j = true) a b) := by
  induction m with
  | zero =>
    refine ⟨by simp, ?_, ?_⟩
    · intro a b ha; exact absurd ha (Nat.not_lt_zero a)
    · intro g hg; simp at hg
  | succ m ih =>
    have hstep := add_to_groups_inv d hits _ m ih.1 ih.2.1 ih.2.2
    have hf : (List.range (m + 1)).foldl (add_to_groups d hits) [] =
        add_to_groups d hits ((List.range m).foldl (add_to_groups d hits) []) m := by
      rw [List.range_succ, List.foldl_append]
      rfl
    rw [hf]
    exact hstep

/-- Two groups of a partition that share a position are the same group. -/
theorem group_unique (groups : List (List Nat)) (n : Nat)
    (h1 : groups.flatten.Perm (List.range n)) (g1 g2 : List Nat) (hg1 : g1 ∈ groups)
    (hg2 : g2 ∈ groups) (b : Nat) (hb1 : b ∈ g1) (hb2 : b ∈ g2) : g1 = g2 := by
  have hnd : groups.flatten.Nodup := (h1.nodup_iff).mpr (List.nodup_range n)
  rw [List.nodup_flatten] at hnd
  by_contra hne
  have hdis := List.Pairwise.forall (fun _ _ h => h.symm) hnd.2 hg1 hg2 hne
  exact hdis hb1 hb2

theorem neighbours_lt (d : ℚ × ℚ) (hits : List CalorimeterHit) (i j : Nat)
    (h : neighbours d hits i j = true) : i < hits.length ∧ j < hits.length := by
  unfold neighbours at h
  constructor
  · by_contra hc
    rw [List.getElem?_eq_none (by omega)] at h
    simp at h
  · by_contra hc
    rw [List.getElem?_eq_none (n := j) (by omega)] at h
    cases hi : hits[i]? <;> simp [hi] at h

/-- In the groups of the model two positions share a group exactly when a chain
of neighbours leads from one to the other. -/
theorem group_hits_connected (d : ℚ × ℚ) (hits : List CalorimeterHit) (a b : Nat)
    (ha : a < hits.length) :
    (∃ g ∈ group_hits d hits, a ∈ g ∧ b ∈ g) ↔
      Relation.ReflTransGen (fun i j => neighbours d hits i j = true) a b := by
  obtain ⟨h1, h3, h4⟩ := group_prefix_inv d hits hits.length
  constructor
  · rintro ⟨g, hg, hag, hbg⟩
    exact h4 g hg a hag b hbg
  · intro hr
    induction hr with
    | refl =>
      have : a ∈ (group_hits d hits).flatten := (h1.mem_iff).mpr (List.mem_range.mpr ha)
      obtain ⟨g, hg, hag⟩ := List.mem_flatten.mp this
      exact ⟨g, hg, hag, hag⟩
    | @tail x y _ hbc ih =>
      obtain ⟨g1, hg1, hag1, hbg1⟩ := ih
      obtain ⟨hb, hc⟩ := neighbours_lt d hits x y hbc
      obtain ⟨g2, hg2, hbg2, hcg2⟩ := h3 x y hb hc hbc
      have := group_unique (group_hits d hits) hits.length h1 g1 g2 hg1 hg2 x hbg1 hbg2
      subst this
      exact ⟨g1, hg1, hag1, hcg2⟩

/-- C14 (on the model of the missing clustering code, splitting off, zero energy
thresholds): for every list of hits and thresholds, the protoclusters partition
the positions of the input hits (every position occurs in exactly one
protocluster, once); two hits share a protocluster exactly when a chain of
neighbours connects them; every protocluster has as many weights as hits; and
with thresholds of 1 mm the four inputs of the test give one protocluster of one
hit, two protoclusters of one hit each, one protocluster of two hits, and one
protocluster of three hits. -/
theorem C14_island_protoclusters (d : ℚ × ℚ) (hits : List CalorimeterHit) :
    ((CalorimeterIslandCluster_AlgorithmProcess d hits).flatMap (fun c => c.hits)).Perm
      (List.range hits.length) ∧
    (∀ a b, a < hits.length →
      ((∃ c ∈ CalorimeterIslandCluster_AlgorithmProcess d hits, a ∈ c.hits ∧ b ∈ c.hits) ↔
        Relation.ReflTransGen (fun i j => neighbours d hits i j = true) a b)) ∧
    (∀ c ∈ CalorimeterIslandCluster_AlgorithmProcess d hits,
      c.weights.length = c.hits.length) ∧
    (CalorimeterIslandCluster_AlgorithmProcess (1, 1) singleCellHits).map
      (fun c => (c.hits.length, c.weights.length)) = [(1, 1)] ∧
    (CalorimeterIslandCluster_AlgorithmProcess (1, 1) separatedHits).map
      (fun c => (c.hits.length, c.weights.length)) = [(1, 1), (1, 1)] ∧
    (CalorimeterIslandCluster_AlgorithmProcess (1, 1) adjacentHits).map
      (fun c => (c.hits.length, c.weights.length)) = [(2, 2)] ∧
    (CalorimeterIslandCluster_AlgorithmProcess (1, 1) chainHits).map
      (fun c => (c.hits.length, c.weights.length)) = [(3, 3)] := by
  refine ⟨?_, ?_, ?_, ?_, ?_, ?_, ?_⟩
  · have h1 := (group_prefix_inv d hits hits.length).1
    have : (CalorimeterIslandCluster_AlgorithmProcess d hits).flatMap (fun c => c.hits) =
        (group_hits d hits).flatten := by
      simp [CalorimeterIslandCluster_AlgorithmProcess, List.flatMap_def, List.map_map,
        Function.comp_def]
    rw [this]
    exact h1
  · intro a b ha
    rw [← group_hits_connected d hits a b ha]
    simp only [CalorimeterIslandCluster_AlgorithmProcess, List.mem_map]
    constructor
    · rintro ⟨c, ⟨g, hg, rfl⟩, hac, hbc⟩
      exact ⟨g, hg, hac, hbc⟩
    · rintro ⟨g, hg, hag, hbg⟩
      exact ⟨⟨g, g.map (fun _ => 1)⟩, ⟨g, hg, rfl⟩, hag, hbg⟩
  · intro c hc
    simp only [CalorimeterIslandCluster_AlgorithmProcess, List.mem_map] at hc
    obtain ⟨g, _, rfl⟩ := hc
    simp
  · simp [CalorimeterIslandCluster_AlgorithmProcess, group_hits, add_to_groups, neighbours,
      is_neighbour, singleCellHits, List.range, List.range.loop]
  · simp [CalorimeterIslandCluster_AlgorithmProcess, group_hits, add_to_groups, neighbours,
      is_neighbour, separatedHits, List.range, List.range.loop]
    norm_num [abs_le]
  · simp [CalorimeterIslandCluster_AlgorithmProcess, group_hits, add_to_groups, neighbours,
      is_neighbour, adjacentHits, List.range, List.range.loop]
    norm_num [abs_le]
  · simp [CalorimeterIslandCluster_AlgorithmProcess, group_hits, add_to_groups, neighbours,
      is_neighbour, chainHits, List.range, List.range.loop]
    norm_num [abs_le]

/-! ### Consequences of the map insertion on an existing key -/

/-- C23: for every table in which the cell is present and no group of the cell
has `|time - group time| <= hitTimeWindow`, `InsertHit` (real hit or noise
event) returns the table unchanged, and the random source with exactly one more
standard-normal draw taken. -/
theorem C23_no_match_leaves_table (cfg : PhotoMultiplierHitDigiConfig) (rng : RandomSource)
    (t : HitGroups) (id : CellIDType) (amp : ℚ) (time : TimeType) (pl pg : Position)
    (idx : Nat) (noise : Bool) (gs : List HitData)
    (hf : GroupTable.find t id = some gs)
    (hno : ∀ g ∈ gs, ¬ |time - g.time| ≤ cfg.hitTimeWindow) :
    InsertHit cfg rng t id amp time pl pg idx noise =
      (t, { rng with nGaus := rng.nGaus + 1 }) := by
  rw [InsertHit_no_match cfg rng t id amp time pl pg idx noise gs hf hno]
  rfl

/-- C23 at the scenario input: the table holds the group of the hit at time
`0.0` in cell `0xA`; the hit at time `0.5` leaves it unchanged and takes one
standard-normal draw. -/
theorem C23_no_match_leaves_table_witness :
    GroupTable.find hitAt0Table 0xA = some [HitData.mk 1 1 0 origin origin [0]] ∧
    (∀ g ∈ [HitData.mk 1 1 0 origin origin [0]],
      ¬ |hitFar.time - g.time| ≤ scenarioCfg.hitTimeWindow) ∧
    InsertHit scenarioCfg zeroRng hitAt0Table 0xA hitFar.amp hitFar.time origin origin 1 false =
      (hitAt0Table, { zeroRng with nGaus := zeroRng.nGaus + 1 }) :=
  have hf : GroupTable.find hitAt0Table 0xA = some [HitData.mk 1 1 0 origin origin [0]] := by
    simp [GroupTable.find, hitAt0Table]
  have hno : ∀ g ∈ [HitData.mk 1 1 0 origin origin [0]],
      ¬ |hitFar.time - g.time| ≤ scenarioCfg.hitTimeWindow := by
    intro g hg
    simp only [List.mem_singleton] at hg
    subst hg
    norm_num [hitFar, scenarioCfg, abs_le]
  ⟨hf, hno, C23_no_match_leaves_table scenarioCfg zeroRng hitAt0Table 0xA hitFar.amp
    hitFar.time origin origin 1 false _ hf hno⟩

/-! ### Tables of one point and of points with equal energy -/

/-- C26: a configuration of a single (wavelength, efficiency) pair leaves the
one-point table of the converted pair, not the default table, and on every
table of exactly one point `qe_pass` returns false for every energy and every
draw, the point's own energy and draw 0 included. -/
theorem C26_single_point_table_rejects (hc : ℚ) (cfg : PhotoMultiplierHitDigiConfig)
    (wl qe e q ev rand : ℚ) :
    (cfg.quantumEfficiency = [(wl, qe)] → qe_init hc cfg = [(hc / wl, qe)]) ∧
    qe_pass [(e, q)] ev rand = false ∧ qe_pass [(e, q)] e 0 = false := by
  have hp : ∀ x r : ℚ, qe_pass [(e, q)] x r = false := by
    intro x r
    have hs := interval_search_special [(e, q)] x (Or.inl (by simp))
    unfold qe_pass
    simp only [hs, if_true]
  refine ⟨?_, hp ev rand, hp e 0⟩
  intro h
  simp [qe_init, h, std_sort_by_energy, List.insertionSort, List.orderedInsert]

/-- C28: the sorted tables `[(1, 0.1), (2, 0.2), (2, 0.8)]` and
`[(2, 0.2), (2, 0.8), (3, 0.3)]` both hold the pair `(2, 0.2)`, `(2, 0.8)`; at
energy 2 the search returns position 1 in both, which is the point `(2, 0.2)`
in the first and `(2, 0.8)` in the second, so `qe_pass(2, 0.5)` is false for the
first table (efficiency 0.2) and true for the second (efficiency 0.8). -/
theorem C28_shared_energy_depends_on_search :
    List.Sorted (fun a b : ℚ × ℚ => a.1 ≤ b.1) sharedEnergyQeff ∧
    List.Sorted (fun a b : ℚ × ℚ => a.1 ≤ b.1) sharedEnergyQeffLow ∧
    qe_prob sharedEnergyQeff 2 = some (1 / 5) ∧
    qe_pass sharedEnergyQeff 2 (1 / 2) = false ∧
    qe_prob sharedEnergyQeffLow 2 = some (4 / 5) ∧
    qe_pass sharedEnergyQeffLow 2 (1 / 2) = true := by
  have hA : interval_search sharedEnergyQeff 0 sharedEnergyQeff.length (Nat.zero_le _) 2
      qe_comp = 1 := by
    unfold interval_search
    rw [interval_search_loop]
    norm_num [deref, qe_comp, sharedEnergyQeff]
  have hB : interval_search sharedEnergyQeffLow 0 sharedEnergyQeffLow.length (Nat.zero_le _) 2
      qe_comp = 1 := by
    unfold interval_search
    rw [interval_search_loop]
    norm_num [deref, qe_comp, sharedEnergyQeffLow]
  have pA : qe_prob sharedEnergyQeff 2 = some (1 / 5) := by
    unfold qe_prob
    simp only [hA]
    norm_num [deref, sharedEnergyQeff]
  have pB : qe_prob sharedEnergyQeffLow 2 = some (4 / 5) := by
    unfold qe_prob
    simp only [hB]
    norm_num [deref, sharedEnergyQeffLow]
  refine ⟨?_, ?_, pA, ?_, pB, ?_⟩
  · simp only [sharedEnergyQeff, List.Sorted, List.pairwise_cons, List.mem_cons,
      List.mem_singleton, List.not_mem_nil, forall_eq_or_imp, forall_eq, List.Pairwise.nil,
      and_true, IsEmpty.forall_iff, implies_true]
    norm_num
  · simp only [sharedEnergyQeffLow, List.Sorted, List.pairwise_cons, List.mem_cons,
      List.mem_singleton, List.not_mem_nil, forall_eq_or_imp, forall_eq, List.Pairwise.nil,
      and_true, IsEmpty.forall_iff, implies_true]
    norm_num
  · rw [qe_pass_eq, pA]; norm_num
  · rw [qe_pass_eq, pB]; norm_num

/-! ### Properties of groups along runs -/

theorem run_calls_preserves (P : HitData → Prop) (cfg : PhotoMultiplierHitDigiConfig)
    (calls : List InsertCall) (t : HitGroups) (rng : RandomSource)
    (hmerge : ∀ c ∈ calls, ∀ g, P g → P (g.merged c.amp c.sim_hit_index c.is_noise_hit))
    (hnew : ∀ c ∈ calls, ∀ sig, P (HitData.mk 1 sig c.time c.pos_hit_local c.pos_hit_global
      (if !c.is_noise_hit then [c.sim_hit_index] else [])))
    (h : ∀ kv ∈ t, ∀ g ∈ kv.2, P g) :
    ∀ kv ∈ (run_calls cfg calls (t, rng)).1, ∀ g ∈ kv.2, P g := by
  induction calls generalizing t rng with
  | nil => exact h
  | cons c cs ih =>
    simp only [run_calls]
    apply ih
    · exact fun c' hc' => hmerge c' (List.mem_cons_of_mem _ hc')
    · exact fun c' hc' => hnew c' (List.mem_cons_of_mem _ hc')
    · exact InsertHit_preserves P cfg rng t c.id c.amp c.time c.pos_hit_local
        c.pos_hit_global c.sim_hit_index c.is_noise_hit
        (hmerge c (List.mem_cons_self _ _)) (hnew c (List.mem_cons_self _ _)) h

/-- A property of groups that survives the merge of a real hit and holds for a
group created by a real hit is kept by the loop over simulated hits. -/
theorem sim_hit_loop_preserves (P : HitData → Prop) (cfg : PhotoMultiplierHitDigiConfig)
    (svc : Services) (qeff : List (ℚ × ℚ)) (hits : List SimTrackerHit) (k : Nat)
    (st : HitGroups × RandomSource)
    (hmerge : ∀ amp idx g, P g → P (g.merged amp idx false))
    (hnew : ∀ sig time pl pg idx, P (HitData.mk 1 sig time pl pg [idx]))
    (h : ∀ kv ∈ st.1, ∀ g ∈ kv.2, P g) :
    ∀ kv ∈ (sim_hit_loop cfg svc qeff hits k st).1, ∀ g ∈ kv.2, P g := by
  induction hits generalizing k st with
  | nil => exact h
  | cons a rest ih =>
    simp only [sim_hit_loop]
    apply ih
    unfold process_sim_hit
    simp only []
    split_ifs <;>
      first
      | exact h
      | exact InsertHit_preserves P cfg _ st.1 _ _ _ _ _ k false
          (fun g hg => hmerge _ k g hg) (fun sig => hnew sig _ _ _ k) h

/-- A property of groups that survives the merge of a noise event and holds for
a group created by a noise event is kept by the noise injection. -/
theorem noise_injection_preserves (P : HitData → Prop) (cfg : PhotoMultiplierHitDigiConfig)
    (svc : Services) (st : HitGroups × RandomSource)
    (hmerge : ∀ amp idx g, P g → P (g.merged amp idx true))
    (hnew : ∀ sig time pl pg, P (HitData.mk 1 sig time pl pg []))
    (h : ∀ kv ∈ st.1, ∀ g ∈ kv.2, P g) :
    ∀ kv ∈ (noise_injection cfg svc st).1, ∀ g ∈ kv.2, P g := by
  have hfold : ∀ (ids : List CellIDType) (s : HitGroups × RandomSource),
      (∀ kv ∈ s.1, ∀ g ∈ kv.2, P g) →
      ∀ kv ∈ (ids.foldl (cellID_action cfg svc) s).1, ∀ g ∈ kv.2, P g := by
    intro ids
    induction ids with
    | nil => intro s hs; exact hs
    | cons id rest ih =>
      intro s hs
      simp only [List.foldl_cons]
      apply ih
      unfold cellID_action
      exact InsertHit_preserves P cfg _ s.1 _ _ _ _ _ 0 true
        (fun g hg => hmerge _ 0 g hg) (fun sig => hnew sig _ _ _) hs
  unfold noise_injection
  by_cases hn : cfg.enableNoise = true
  · simp only [hn, if_true]
    exact hfold _ st h
  · simp only [hn, if_false]
    exact h

/-- C25: (1) for every sequence of `InsertHit` calls from the empty table, every
group has a photo-electron count of at least 1 and at least the length of its
contributor list; (2) when no call is a noise event the count equals that
length; (3) the same holds for the final table of `AlgorithmProcess`, with
equality when noise injection is disabled. -/
theorem C25_npe_and_contributors (cfg : PhotoMultiplierHitDigiConfig) (rng : RandomSource)
    (calls : List InsertCall) :
    (∀ kv ∈ (run_calls cfg calls ([], rng)).1, ∀ g ∈ kv.2,
      1 ≤ g.npe ∧ g.sim_hit_indices.length ≤ g.npe) ∧
    ((∀ c ∈ calls, c.is_noise_hit = false) →
      ∀ kv ∈ (run_calls cfg calls ([], rng)).1, ∀ g ∈ kv.2,
        g.npe = g.sim_hit_indices.length) ∧
    (∀ (svc : Services) (qeff : List (ℚ × ℚ)) (sim_hits : List SimTrackerHit),
      (∀ kv ∈ (final_hit_groups cfg svc qeff rng sim_hits).1, ∀ g ∈ kv.2,
        1 ≤ g.npe ∧ g.sim_hit_indices.length ≤ g.npe) ∧
      (cfg.enableNoise = false →
        ∀ kv ∈ (final_hit_groups cfg svc qeff rng sim_hits).1, ∀ g ∈ kv.2,
          g.npe = g.sim_hit_indices.length)) := by
  have hm1 : ∀ (amp : ℚ) (idx : Nat) (noise : Bool) (g : HitData),
      1 ≤ g.npe ∧ g.sim_hit_indices.length ≤ g.npe →
      1 ≤ (g.merged amp idx noise).npe ∧
        (g.merged amp idx noise).sim_hit_indices.length ≤ (g.merged amp idx noise).npe := by
    intro amp idx noise g hg
    cases noise
    · simp only [HitData.merged, Bool.not_false, if_true, List.length_append,
        List.length_singleton]
      omega
    · simp only [HitData.merged, Bool.not_true, Bool.false_eq_true, if_false]
      omega
  have hn1 : ∀ (sig : ℚ) (time : TimeType) (pl pg : Position) (l : List Nat),
      l.length ≤ 1 →
      1 ≤ (HitData.mk 1 sig time pl pg l).npe ∧
        (HitData.mk 1 sig time pl pg l).sim_hit_indices.length ≤
          (HitData.mk 1 sig time pl pg l).npe := by
    intro sig time pl pg l hl
    exact ⟨le_refl _, hl⟩
  have hm2 : ∀ (amp : ℚ) (idx : Nat) (g : HitData),
      g.npe = g.sim_hit_indices.length →
      (g.merged amp idx false).npe = (g.merged amp idx false).sim_hit_indices.length := by
    intro amp idx g hg
    simp only [HitData.merged, Bool.not_false, if_true, List.length_append,
      List.length_singleton]
    omega
  have hnil : ∀ kv ∈ ([] : HitGroups), ∀ g ∈ kv.2,
      1 ≤ g.npe ∧ g.sim_hit_indices.length ≤ g.npe :=
    fun kv hkv => absurd hkv (List.not_mem_nil _)
  have hnil2 : ∀ kv ∈ ([] : HitGroups), ∀ g ∈ kv.2, g.npe = g.sim_hit_indices.length :=
    fun kv hkv => absurd hkv (List.not_mem_nil _)
  refine ⟨?_, ?_, ?_⟩
  · apply run_calls_preserves (fun g => 1 ≤ g.npe ∧ g.sim_hit_indices.length ≤ g.npe) cfg calls
      [] rng _ _ hnil
    · exact fun c _ g hg => hm1 c.amp c.sim_hit_index c.is_noise_hit g hg
    · intro c _ sig
      apply hn1
      cases c.is_noise_hit <;> simp
  · intro hreal
    apply run_calls_preserves (fun g => g.npe = g.sim_hit_indices.length) cfg calls [] rng _ _
      hnil2
    · intro c hc g hg
      rw [hreal c hc]
      exact hm2 c.amp c.sim_hit_index g hg
    · intro c hc sig
      rw [hreal c hc]
      rfl
  · intro svc qeff sim_hits
    constructor
    · unfold final_hit_groups
      apply noise_injection_preserves (fun g => 1 ≤ g.npe ∧ g.sim_hit_indices.length ≤ g.npe)
      · exact fun amp idx g hg => hm1 amp idx true g hg
      · exact fun sig time pl pg => hn1 sig time pl pg [] (by simp)
      · apply sim_hit_loop_preserves
          (fun g => 1 ≤ g.npe ∧ g.sim_hit_indices.length ≤ g.npe)
        · exact fun amp idx g hg => hm1 amp idx false g hg
        · exact fun sig time pl pg idx => hn1 sig time pl pg [idx] (by simp)
        · exact hnil
    · intro hoff
      unfold final_hit_groups noise_injection
      simp only [hoff, Bool.false_eq_true, if_false]
      apply sim_hit_loop_preserves (fun g => g.npe = g.sim_hit_indices.length)
      · exact hm2
      · exact fun sig time pl pg idx => rfl
      · exact hnil2

/-- C25 at a concrete run: a real hit and a noise event merge in cell `0xA`
(count 2, one contributor), a real hit creates the group of cell `0xB` (count 1,
one contributor). -/
theorem C25_npe_and_contributors_witness :
    (run_calls scenarioCfg mixedCalls ([], zeroRng)).1 =
      [(0xA, [HitData.mk 2 2 0 origin origin [0]]),
        (0xB, [HitData.mk 1 1 0 origin origin [1]])] ∧
    ∀ kv ∈ (run_calls scenarioCfg mixedCalls ([], zeroRng)).1, ∀ g ∈ kv.2,
      1 ≤ g.npe ∧ g.sim_hit_indices.length ≤ g.npe := by
  refine ⟨?_, (C25_npe_and_contributors scenarioCfg zeroRng mixedCalls).1⟩
  simp [run_calls, mixedCalls, InsertHit, InsertHit_loop, GroupTable.find, GroupTable.insert,
    GroupTable.assign, m_rngNorm, scenarioCfg, zeroRng]
  norm_num

/-! ### One group per cell -/

theorem keys_assign {α : Type} (t : GroupTable α) (id : CellIDType) (v : List α) :
    (GroupTable.assign t id v).map Prod.fst = t.map Prod.fst := by
  induction t with
  | nil => rfl
  | cons kv rest ih =>
    unfold GroupTable.assign
    by_cases hk : kv.1 = id
    · simp [hk]
    · simp only [hk, if_false, List.map_cons, ih]

theorem find_none_not_mem_keys {α : Type} (t : GroupTable α) (id : CellIDType)
    (h : GroupTable.find t id = none) : id ∉ t.map Prod.fst := by
  induction t with
  | nil => simp
  | cons kv rest ih =>
    unfold GroupTable.find at h
    by_cases hk : kv.1 = id
    · simp [hk] at h
    · simp only [hk, if_false] at h
      simp only [List.map_cons, List.mem_cons, not_or]
      exact ⟨fun he => hk he.symm, ih h⟩

/-- One `InsertHit` call keeps the table one of distinct cells with exactly one
group each. -/
theorem InsertHit_one_group (cfg : PhotoMultiplierHitDigiConfig) (rng : RandomSource)
    (t : HitGroups) (id : CellIDType) (amp : ℚ) (time : TimeType) (pl pg : Position)
    (idx : Nat) (noise : Bool)
    (h : (∀ kv ∈ t, ∃ g, kv.2 = [g]) ∧ (t.map Prod.fst).Nodup) :
    (∀ kv ∈ (InsertHit cfg rng t id amp time pl pg idx noise).1, ∃ g, kv.2 = [g]) ∧
      ((InsertHit cfg rng t id amp time pl pg idx noise).1.map Prod.fst).Nodup := by
  cases hf : GroupTable.find t id with
  | none =>
    rw [InsertHit_new_cell cfg rng t id amp time pl pg idx noise hf]
    constructor
    · intro kv hkv
      rcases List.mem_append.mp hkv with hk | hk
      · exact h.1 kv hk
      · rw [List.mem_singleton] at hk
        subst hk
        exact ⟨_, rfl⟩
    · rw [List.map_append, List.map_cons, List.map_nil]
      exact List.Nodup.append h.2 (List.nodup_singleton _)
        (by
          intro a ha hb
          rw [List.mem_singleton] at hb
          subst hb
          exact find_none_not_mem_keys t _ hf ha)
  | some gs =>
    by_cases hw : ∃ g ∈ gs, |time - g.time| ≤ cfg.hitTimeWindow
    · obtain ⟨k, g, hk, hgw, hfirst⟩ := exists_first_in_window cfg time gs hw
      rw [InsertHit_merge cfg rng t id amp time pl pg idx noise gs k g hf hk hgw hfirst]
      constructor
      · intro kv hkv
        rcases mem_assign _ _ _ _ hkv with hm | hm
        · exact h.1 kv hm
        · subst hm
          obtain ⟨g0, hg0⟩ := h.1 _ (find_some_mem t id gs hf)
          simp only at hg0
          subst hg0
          have hk0 : k = 0 := by
            have := getElem?_lt_length _ k g hk
            simpa using this
          subst hk0
          exact ⟨_, rfl⟩
      · rw [keys_assign]
        exact h.2
    · rw [InsertHit_no_match cfg rng t id amp time pl pg idx noise gs hf
        (fun g hg hgw => hw ⟨g, hg, hgw⟩)]
      exact h

/-- A property of tables kept by every `InsertHit` call is kept by runs of
calls. -/
theorem run_calls_table_inv (W : HitGroups → Prop) (cfg : PhotoMultiplierHitDigiConfig)
    (hstep : ∀ rng t id amp time pl pg idx noise, W t →
      W (InsertHit cfg rng t id amp time pl pg idx noise).1)
    (calls : List InsertCall) (t : HitGroups) (rng : RandomSource) (h : W t) :
    W (run_calls cfg calls (t, rng)).1 := by
  induction calls generalizing t rng with
  | nil => exact h
  | cons c cs ih =>
    simp only [run_calls]
    exact ih _ _ (hstep _ _ _ _ _ _ _ _ _ h)

/-- A property of tables kept by every `InsertHit` call holds for the final
table of `AlgorithmProcess` if it holds for the empty table. -/
theorem final_hit_groups_table_inv (W : HitGroups → Prop)
    (cfg : PhotoMultiplierHitDigiConfig)
    (hstep : ∀ rng t id amp time pl pg idx noise, W t →
      W (InsertHit cfg rng t id amp time pl pg idx noise).1)
    (svc : Services) (qeff : List (ℚ × ℚ)) (rng : RandomSource)
    (sim_hits : List SimTrackerHit) (h : W []) :
    W (final_hit_groups cfg svc qeff rng sim_hits).1 := by
  have hloop : ∀ (hits : List SimTrackerHit) (k : Nat) (st : HitGroups × RandomSource),
      W st.1 → W (sim_hit_loop cfg svc qeff hits k st).1 := by
    intro hits
    induction hits with
    | nil => intro k st hs; exact hs
    | cons a rest ih =>
      intro k st hs
      simp only [sim_hit_loop]
      apply ih
      unfold process_sim_hit
      simp only []
      split_ifs <;>
        first
        | exact hs
        | exact hstep _ _ _ _ _ _ _ _ _ hs
  have hfold : ∀ (ids : List CellIDType) (s : HitGroups × RandomSource),
      W s.1 → W (ids.foldl (cellID_action cfg svc) s).1 := by
    intro ids
    induction ids with
    | nil => intro s hs; exact hs
    | cons id rest ih =>
      intro s hs
      simp only [List.foldl_cons]
      apply ih
      unfold cellID_action
      exact hstep _ _ _ _ _ _ _ _ _ hs
  unfold final_hit_groups noise_injection
  by_cases hn : cfg.enableNoise = true
  · simp only [hn, if_true]
    exact hfold _ _ (hloop sim_hits 0 ([], rng) h)
  · simp only [hn, if_false]
    exact hloop sim_hits 0 ([], rng) h

theorem pairs_keys_of_one_group (t : HitGroups) (h : ∀ kv ∈ t, ∃ g, kv.2 = [g]) :
    (HitGroups.pairs t).map Prod.fst = t.map Prod.fst := by
  induction t with
  | nil => rfl
  | cons kv rest ih =>
    obtain ⟨g, hg⟩ := h kv (List.mem_cons_self _ _)
    have := ih (fun kv' hkv' => h kv' (List.mem_cons_of_mem _ hkv'))
    simp only [HitGroups.pairs, List.flatMap_cons, List.map_append, List.map_cons] at this ⊢
    rw [this, hg]
    simp

/-- C22: in every table reached from the empty table by `InsertHit` calls the
cells are distinct and each maps to a list of exactly one group; the same holds
for the final table of `AlgorithmProcess`, whose raw hits therefore carry
pairwise distinct cell identifiers: at most one raw hit per cell. -/
theorem C22_one_group_per_cell (cfg : PhotoMultiplierHitDigiConfig) (rng : RandomSource)
    (calls : List InsertCall) :
    ((∀ kv ∈ (run_calls cfg calls ([], rng)).1, ∃ g, kv.2 = [g]) ∧
      ((run_calls cfg calls ([], rng)).1.map Prod.fst).Nodup) ∧
    (∀ (svc : Services) (qeff : List (ℚ × ℚ)) (sim_hits : List SimTrackerHit),
      (∀ kv ∈ (final_hit_groups cfg svc qeff rng sim_hits).1, ∃ g, kv.2 = [g]) ∧
      ((final_hit_groups cfg svc qeff rng sim_hits).1.map Prod.fst).Nodup ∧
      ∃ r, AlgorithmProcess cfg svc qeff rng sim_hits = some r ∧
        (r.raw_hits.map (fun h => h.cellID)).Nodup) := by
  have h0 : (∀ kv ∈ ([] : HitGroups), ∃ g, kv.2 = [g]) ∧
      (([] : HitGroups).map Prod.fst).Nodup :=
    ⟨fun kv hkv => absurd hkv (List.not_mem_nil _), List.nodup_nil⟩
  refine ⟨?_, ?_⟩
  · exact run_calls_table_inv
      (fun t => (∀ kv ∈ t, ∃ g, kv.2 = [g]) ∧ (t.map Prod.fst).Nodup) cfg
      (fun rng t id amp time pl pg idx noise h =>
        InsertHit_one_group cfg rng t id amp time pl pg idx noise h) calls [] rng h0
  · intro svc qeff sim_hits
    have hW := final_hit_groups_table_inv
      (fun t => (∀ kv ∈ t, ∃ g, kv.2 = [g]) ∧ (t.map Prod.fst).Nodup) cfg
      (fun rng t id amp time pl pg idx noise h =>
        InsertHit_one_group cfg rng t id amp time pl pg idx noise h) svc qeff rng sim_hits h0
    refine ⟨hW.1, hW.2, ?_⟩
    obtain ⟨r, h1, h2, _⟩ := build_output_spec cfg sim_hits
      (final_hit_groups cfg svc qeff rng sim_hits).1 ⟨[], []⟩
      (final_hit_groups_valid cfg svc qeff rng sim_hits)
    refine ⟨r, h1, ?_⟩
    rw [h2]
    simp only [List.nil_append, List.map_map, Function.comp_def]
    have := pairs_keys_of_one_group _ hW.1
    simp only [List.map] at this
    rw [show (fun p : CellIDType × HitData => p.1) = Prod.fst from rfl, this]
    exact hW.2

/-! ### The two acceptance gates -/

/-- The body of the hit loop with pixel gaps disabled. -/
theorem process_sim_hit_no_gaps (cfg : PhotoMultiplierHitDigiConfig) (svc : Services)
    (qeff : List (ℚ × ℚ)) (st : HitGroups × RandomSource) (idx : Nat)
    (sim_hit : SimTrackerHit) (hg : cfg.enablePixelGaps = false) :
    process_sim_hit cfg svc qeff st idx sim_hit =
      if (m_rngUni st.2).1 ≤ cfg.safetyFactor ∧
          qe_pass qeff (sim_hit.EDep * 1e9) (m_rngUni (m_rngUni st.2).2).1 = true then
        InsertHit cfg (m_rngNorm (m_rngUni (m_rngUni st.2).2).2).2 st.1 sim_hit.cellID
          (cfg.speMean + (m_rngNorm (m_rngUni (m_rngUni st.2).2).2).1 * cfg.speError)
          sim_hit.time ⟨0, 0, 0⟩ ⟨0, 0, 0⟩ idx false
      else
        (st.1, if (m_rngUni st.2).1 ≤ cfg.safetyFactor then (m_rngUni (m_rngUni st.2).2).2
          else (m_rngUni st.2).2) := by
  unfold process_sim_hit
  by_cases h1 : (m_rngUni st.2).1 ≤ cfg.safetyFactor
  · have h1' : ¬ (m_rngUni st.2).1 > cfg.safetyFactor := not_lt.mpr h1
    by_cases h2 : qe_pass qeff (sim_hit.EDep * 1e9) (m_rngUni (m_rngUni st.2).2).1 = true
    · simp only [h1, h1', h2, hg, if_false, if_true, Bool.not_true, Bool.false_eq_true,
        false_and, and_self]
    · simp only [h1, h1', h2, if_false, if_true, and_false]
      simp only [Bool.not_eq_true] at h2
      simp [h2]
  · have h1' : (m_rngUni st.2).1 > cfg.safetyFactor := not_le.mp h1
    simp only [h1, h1', if_true, if_false, false_and]

theorem sim_hit_loop_eq_foldl (cfg : PhotoMultiplierHitDigiConfig) (svc : Services)
    (qeff : List (ℚ × ℚ)) (hits : List SimTrackerHit) (k : Nat)
    (st : HitGroups × RandomSource) :
    sim_hit_loop cfg svc qeff hits k st =
      (List.enumFrom k hits).foldl (fun s p => process_sim_hit cfg svc qeff s p.1 p.2) st := by
  induction hits generalizing k st with
  | nil => rfl
  | cons a rest ih =>
    simp only [sim_hit_loop, List.enumFrom_cons, List.foldl_cons]
    exact ih (k + 1) _

/-- C21: with pixel gaps disabled, (1) for every simulated hit the loop body
calls `InsertHit` exactly when `u1 <= safetyFactor` and
`qe_pass(edep * 1e9, u2)` holds, where `u1` is the first uniform draw taken for
the hit and `u2` the second (taken only when the first gate is passed), and it
then passes the hit's cell, time and the index given to the body, not marked as
noise; (2) a hit discarded at either gate leaves the table unchanged and takes
no standard-normal draw, while an accepted hit takes at least one; (3) the loop
runs the body on the hits in input order, each with its own position in the
input as index, starting from the empty table. -/
theorem C21_acceptance_gates (cfg : PhotoMultiplierHitDigiConfig) (svc : Services)
    (qeff : List (ℚ × ℚ)) (hg : cfg.enablePixelGaps = false) :
    (∀ (st : HitGroups × RandomSource) (idx : Nat) (sim_hit : SimTrackerHit),
      (((m_rngUni st.2).1 ≤ cfg.safetyFactor ∧
          qe_pass qeff (sim_hit.EDep * 1e9) (m_rngUni (m_rngUni st.2).2).1 = true) →
        process_sim_hit cfg svc qeff st idx sim_hit =
          InsertHit cfg (m_rngNorm (m_rngUni (m_rngUni st.2).2).2).2 st.1 sim_hit.cellID
            (cfg.speMean + (m_rngNorm (m_rngUni (m_rngUni st.2).2).2).1 * cfg.speError)
            sim_hit.time ⟨0, 0, 0⟩ ⟨0, 0, 0⟩ idx false ∧
        st.2.nGaus < (process_sim_hit cfg svc qeff st idx sim_hit).2.nGaus) ∧
      (¬ ((m_rngUni st.2).1 ≤ cfg.safetyFactor ∧
          qe_pass qeff (sim_hit.EDep * 1e9) (m_rngUni (m_rngUni st.2).2).1 = true) →
        (process_sim_hit cfg svc qeff st idx sim_hit).1 = st.1 ∧
        (process_sim_hit cfg svc qeff st idx sim_hit).2.nGaus = st.2.nGaus)) ∧
    (∀ (rng : RandomSource) (sim_hits : List SimTrackerHit),
      sim_hit_loop cfg svc qeff sim_hits 0 ([], rng) =
        sim_hits.enum.foldl (fun s p => process_sim_hit cfg svc qeff s p.1 p.2) ([], rng)) := by
  refine ⟨?_, fun rng sim_hits => sim_hit_loop_eq_foldl cfg svc qeff sim_hits 0 ([], rng)⟩
  intro st idx sim_hit
  have he := process_sim_hit_no_gaps cfg svc qeff st idx sim_hit hg
  constructor
  · intro hacc
    rw [he, if_pos hacc]
    refine ⟨rfl, ?_⟩
    rcases InsertHit_rng cfg (m_rngNorm (m_rngUni (m_rngUni st.2).2).2).2 st.1
      sim_hit.cellID (cfg.speMean + (m_rngNorm (m_rngUni (m_rngUni st.2).2).2).1 *
        cfg.speError) sim_hit.time ⟨0, 0, 0⟩ ⟨0, 0, 0⟩ idx false with hr | hr
    · rw [hr]; simp [m_rngUni, m_rngNorm]
    · rw [hr]; simp only [m_rngUni, m_rngNorm]; omega
  · intro hrej
    rw [he, if_neg hrej]
    refine ⟨rfl, ?_⟩
    split_ifs <;> simp [m_rngUni]

/-- C21 at concrete inputs: with safety factor 1, the default table and zero
draws a hit of 4 eV is inserted with its index; with safety factor 0 and draws
of `0.5` it is discarded. -/
theorem C21_acceptance_gates_witness :
    scenarioCfg.enablePixelGaps = false ∧ closedGateCfg.enablePixelGaps = false ∧
    (process_sim_hit scenarioCfg plainServices defaultQeff ([], zeroRng) 0 simHitA).1 =
      [(0xA, [HitData.mk 1 1 (5 / 2) ⟨0, 0, 0⟩ ⟨0, 0, 0⟩ [0]])] ∧
    (process_sim_hit closedGateCfg plainServices defaultQeff ([], halfRng) 0 simHitA).1 = [] := by
  have ha := (C21_acceptance_gates scenarioCfg plainServices defaultQeff rfl).1
    ([], zeroRng) 0 simHitA
  have hb := (C21_acceptance_gates closedGateCfg plainServices defaultQeff rfl).1
    ([], halfRng) 0 simHitA
  have e1 : simHitA.EDep * 1e9 = 4 := by norm_num [simHitA]
  have hacc : (m_rngUni (([] : HitGroups), zeroRng).2).1 ≤ scenarioCfg.safetyFactor ∧
      qe_pass defaultQeff (simHitA.EDep * 1e9)
        (m_rngUni (m_rngUni (([] : HitGroups), zeroRng).2).2).1 = true := by
    constructor
    · norm_num [m_rngUni, zeroRng, scenarioCfg]
    · rw [e1]; exact qe_pass_default_4
  have hrej : ¬ ((m_rngUni (([] : HitGroups), halfRng).2).1 ≤ closedGateCfg.safetyFactor ∧
      qe_pass defaultQeff (simHitA.EDep * 1e9)
        (m_rngUni (m_rngUni (([] : HitGroups), halfRng).2).2).1 = true) := by
    rintro ⟨h, _⟩
    norm_num [m_rngUni, halfRng, closedGateCfg, scenarioCfg] at h
  refine ⟨rfl, rfl, ?_, (hb.2 hrej).1⟩
  rw [(ha.1 hacc).1, InsertHit_empty]
  norm_num [simHitA, scenarioCfg, m_rngNorm, m_rngUni, zeroRng]

/-! ### Double-precision evaluation of the interpolation

The roundings of line 272 on the default table at 4 eV, one lemma per
operation. -/

theorem roundNearestEven_of_floor (x : ℚ) (f : ℤ) (h1 : (f : ℚ) ≤ x) (h2 : x < f + 1) :
    roundNearestEven x =
      if x - f < 1 / 2 then f
      else if 1 / 2 < x - f then f + 1
      else if f % 2 = 0 then f else f + 1 := by
  have hf : ⌊x⌋ = f := Int.floor_eq_iff.mpr ⟨h1, h2⟩
  simp only [roundNearestEven, hf]

theorem round_binary64_of_binade (q : ℚ) (e : ℤ) (h1 : (2 : ℚ) ^ e ≤ |q|)
    (h2 : |q| < (2 : ℚ) ^ (e + 1)) :
    round_binary64 q = roundNearestEven (q * 2 ^ (52 - e)) * 2 ^ (e - 52) := by
  have hpos : 0 < |q| := lt_of_lt_of_le (by positivity) h1
  have hq : q ≠ 0 := abs_pos.mp hpos
  have ha : e ≤ Int.log 2 |q| :=
    (Int.zpow_le_iff_le_log (by norm_num) hpos).mp (by exact_mod_cast h1)
  have hb : Int.log 2 |q| < e + 1 :=
    (Int.lt_zpow_iff_log_lt (by norm_num) hpos).mp (by exact_mod_cast h2)
  have hlog : Int.log 2 |q| = e := by omega
  simp only [round_binary64, hq, if_false, hlog]

/-- Evaluation of `round_binary64` from the binade `e` of `q` and the floor `f`
of the significand. -/
theorem round_binary64_eval (q : ℚ) (e f : ℤ) (h1 : (2 : ℚ) ^ e ≤ |q|)
    (h2 : |q| < (2 : ℚ) ^ (e + 1)) (h3 : (f : ℚ) ≤ q * 2 ^ (52 - e))
    (h4 : q * 2 ^ (52 - e) < f + 1) :
    round_binary64 q =
      ((if q * 2 ^ (52 - e) - f < 1 / 2 then f
        else if 1 / 2 < q * 2 ^ (52 - e) - f then f + 1
        else if f % 2 = 0 then f else f + 1 : ℤ) : ℚ) * 2 ^ (e - 52) := by
  rw [round_binary64_of_binade q e h1 h2, roundNearestEven_of_floor _ f h3 h4]

/-- The literal `2.6` as a binary64 value. -/
theorem round_binary64_2_6 :
    round_binary64 (2.6) =
      5854679515581645 / 2251799813685248 := by
  rw [round_binary64_eval (2.6)
    1 5854679515581644
    (by norm_num [abs_of_pos]) (by norm_num [abs_of_pos]) (by norm_num) (by norm_num)]
  norm_num

/-- The literal `0.3` as a binary64 value. -/
theorem round_binary64_0_3 :
    round_binary64 (0.3) =
      5404319552844595 / 18014398509481984 := by
  rw [round_binary64_eval (0.3)
    (-2) 5404319552844595
    (by norm_num [abs_of_pos]) (by norm_num [abs_of_pos]) (by norm_num) (by norm_num)]
  norm_num

/-- The value 7 is a binary64 value. -/
theorem round_binary64_7 :
    round_binary64 (7) =
      7 := by
  rw [round_binary64_eval (7)
    2 7881299347898368
    (by norm_num [abs_of_pos]) (by norm_num [abs_of_pos]) (by norm_num) (by norm_num)]
  norm_num

/-- The difference `7.0 - 4.0` is exact. -/
theorem round_binary64_3 :
    round_binary64 (3) =
      3 := by
  rw [round_binary64_eval (3)
    1 6755399441055744
    (by norm_num [abs_of_pos]) (by norm_num [abs_of_pos]) (by norm_num) (by norm_num)]
  norm_num

/-- The difference `4.0 - 2.6` of binary64 values is exact. -/
theorem round_binary64_b :
    round_binary64 (3152519739159347 / 2251799813685248) =
      3152519739159347 / 2251799813685248 := by
  rw [round_binary64_eval (3152519739159347 / 2251799813685248)
    0 6305039478318694
    (by norm_num [abs_of_pos]) (by norm_num [abs_of_pos]) (by norm_num) (by norm_num)]
  norm_num

/-- The difference `2.6 - 4.0` of binary64 values is exact. -/
theorem round_binary64_nb :
    round_binary64 (-(3152519739159347 / 2251799813685248)) =
      -(3152519739159347 / 2251799813685248) := by
  rw [round_binary64_eval (-(3152519739159347 / 2251799813685248))
    0 (-6305039478318694)
    (by norm_num [abs_of_neg]) (by norm_num [abs_of_neg]) (by norm_num) (by norm_num)]
  norm_num

/-- The denominator `7.0 - 2.6` of line 272, rounded. -/
theorem round_binary64_den :
    round_binary64 (9907919180215091 / 2251799813685248) =
      2476979795053773 / 562949953421312 := by
  rw [round_binary64_eval (9907919180215091 / 2251799813685248)
    2 4953959590107545
    (by norm_num [abs_of_pos]) (by norm_num [abs_of_pos]) (by norm_num) (by norm_num)]
  norm_num

/-- The product `0.3 * (7.0 - 4.0)` of line 272, rounded (a tie, resolved to the even
significand). -/
theorem round_binary64_c :
    round_binary64 (16212958658533785 / 18014398509481984) =
      2026619832316723 / 2251799813685248 := by
  rw [round_binary64_eval (16212958658533785 / 18014398509481984)
    (-1) 8106479329266892
    (by norm_num [abs_of_pos]) (by norm_num [abs_of_pos]) (by norm_num) (by norm_num)]
  norm_num

/-- The product `0.3 * (4.0 - 2.6)` of line 272, rounded. -/
theorem round_binary64_d :
    round_binary64 (17037224067067401444747832679465 / 40564819207303340847894502572032) =
      7566047373982433 / 18014398509481984 := by
  rw [round_binary64_eval (17037224067067401444747832679465 / 40564819207303340847894502572032)
    (-2) 7566047373982432
    (by norm_num [abs_of_pos]) (by norm_num [abs_of_pos]) (by norm_num) (by norm_num)]
  norm_num

/-- The sum of the two products of line 272, rounded. -/
theorem round_binary64_s :
    round_binary64 (23779006032516217 / 18014398509481984) =
      2972375754064527 / 2251799813685248 := by
  rw [round_binary64_eval (23779006032516217 / 18014398509481984)
    0 5944751508129054
    (by norm_num [abs_of_pos]) (by norm_num [abs_of_pos]) (by norm_num) (by norm_num)]
  norm_num

/-- The quotient of line 272, rounded. -/
theorem round_binary64_p :
    round_binary64 (990791918021509 / 3302639726738364) =
      2702159776422297 / 9007199254740992 := by
  rw [round_binary64_eval (990791918021509 / 3302639726738364)
    (-2) 5404319552844594
    (by norm_num [abs_of_pos]) (by norm_num [abs_of_pos]) (by norm_num) (by norm_num)]
  norm_num


theorem defaultQeffDouble_eq : defaultQeffDouble =
    [(5854679515581645 / 2251799813685248, 5404319552844595 / 18014398509481984),
      (7, 5404319552844595 / 18014398509481984)] := by
  have h7 : round_binary64 7.0 = 7 := by
    have : (7.0 : ℚ) = 7 := by norm_num
    rw [this, round_binary64_7]
  simp only [defaultQeffDouble, round_binary64_2_6, round_binary64_0_3, h7]

theorem interval_search_double_default_4 :
    interval_search defaultQeffDouble 0 defaultQeffDouble.length (Nat.zero_le _) 4
      qe_comp_double = 0 := by
  have h0 : qe_comp_double (deref defaultQeffDouble 0) 4 =
      -(3152519739159347 / 2251799813685248) := by
    rw [defaultQeffDouble_eq]
    norm_num [qe_comp_double, deref, round_binary64_nb]
  have h1 : qe_comp_double (deref defaultQeffDouble 1) 4 = 3 := by
    rw [defaultQeffDouble_eq]
    norm_num [qe_comp_double, deref, round_binary64_3]
  have hl : defaultQeffDouble.length = 2 := rfl
  unfold interval_search
  simp only [hl]
  rw [interval_search_loop]
  norm_num [h0, h1]
  rw [interval_search_loop]
  norm_num [h0, h1]
  rw [interval_search_loop]
  norm_num [h0, h1]

theorem qe_pass_double_default_4 (r : ℚ) :
    qe_pass_double defaultQeffDouble 4 r =
      decide (r ≤ 2702159776422297 / 9007199254740992) := by
  have hs : interval_search defaultQeffDouble 0 2 (Nat.zero_le _) 4 qe_comp_double = 0 :=
    interval_search_double_default_4
  have hl : defaultQeffDouble.length = 2 := rfl
  have d0 : deref defaultQeffDouble 0 =
      (5854679515581645 / 2251799813685248, 5404319552844595 / 18014398509481984) := by
    rw [defaultQeffDouble_eq]; rfl
  have d1 : deref defaultQeffDouble 1 = (7, 5404319552844595 / 18014398509481984) := by
    rw [defaultQeffDouble_eq]; rfl
  unfold qe_pass_double
  simp only [hl, hs, d0, d1, zero_add]
  norm_num [round_binary64_3, round_binary64_b, round_binary64_den, round_binary64_c,
    round_binary64_d, round_binary64_s, round_binary64_p]


theorem qe_pass_double_mono (qeff : List (ℚ × ℚ)) (ev r r2 : ℚ)
    (h : qe_pass_double qeff ev r = true) (hle : r2 ≤ r) :
    qe_pass_double qeff ev r2 = true := by
  unfold qe_pass_double at h ⊢
  by_cases hit : interval_search qeff 0 qeff.length (Nat.zero_le _) ev qe_comp_double =
      qeff.length
  · simp only [hit, if_true] at h
    exact absurd h (by simp)
  · simp only [hit, if_false, decide_eq_true_eq] at h ⊢
    exact le_trans hle h

theorem defaultQeffDouble_sorted :
    List.Sorted (fun a b : ℚ × ℚ => a.1 ≤ b.1) defaultQeffDouble := by
  rw [defaultQeffDouble_eq]
  simp only [List.Sorted, List.pairwise_cons, List.mem_singleton,
    List.not_mem_nil, forall_eq, List.Pairwise.nil, and_true]
  norm_num

theorem defaultQeffDouble_efficiency (p : ℚ × ℚ) (hp : p ∈ defaultQeffDouble) :
    p.2 = 5404319552844595 / 18014398509481984 := by
  rw [defaultQeffDouble_eq] at hp
  simp only [List.mem_cons, List.mem_singleton, List.not_mem_nil, or_false] at hp
  rcases hp with hp | hp <;> subst hp <;> rfl

/-! ### Bounds of the interpolated efficiency -/

/-- C27 (amended): in exact arithmetic, for every table sorted ascending by
energy with at least two points and every energy within the range of the first
and last table energy, `qe_pass` accepts a draw exactly when it is at most an
efficiency `prob` for which there are bracketing positions `it` and `hi` (`hi`
the successor of `it`, or `it` itself when `it` is the last position) with
`E_it <= ev <= E_hi` and `min q_it q_hi <= prob <= max q_it q_hi`; `prob` is
`q_it`, or the interpolation quotient with a non-zero denominator `E_hi - E_it`;
if all table efficiencies lie in `[0, 1]` so does `prob`; and `qe_pass` is
monotone in the draw: a draw below an accepted draw is accepted. The last part
holds in double precision too (`qe_pass_double`), for every table and energy. -/
theorem C27_efficiency_between_bracket (qeff : List (ℚ × ℚ)) (ev : ℚ)
    (hs : List.Sorted (fun a b : ℚ × ℚ => a.1 ≤ b.1) qeff) (hn : 2 ≤ qeff.length)
    (hlo : (deref qeff 0).1 ≤ ev) (hhi : ev ≤ (deref qeff (qeff.length - 1)).1) :
    ∃ (it hi : Nat) (prob : ℚ), qe_prob qeff ev = some prob ∧
      (∀ r : ℚ, qe_pass qeff ev r = decide (r ≤ prob)) ∧
      it < qeff.length ∧ hi < qeff.length ∧ (hi = it + 1 ∨ (hi = it ∧ it + 1 = qeff.length)) ∧
      (deref qeff it).1 ≤ ev ∧ ev ≤ (deref qeff hi).1 ∧
      min (deref qeff it).2 (deref qeff hi).2 ≤ prob ∧
      prob ≤ max (deref qeff it).2 (deref qeff hi).2 ∧
      (prob = (deref qeff it).2 ∨
        ((deref qeff hi).1 - (deref qeff it).1 ≠ 0 ∧
          prob = ((deref qeff it).2 * ((deref qeff hi).1 - ev)
              + (deref qeff hi).2 * (ev - (deref qeff it).1))
            / ((deref qeff hi).1 - (deref qeff it).1))) ∧
      ((∀ p ∈ qeff, 0 ≤ p.2 ∧ p.2 ≤ 1) → 0 ≤ prob ∧ prob ≤ 1) ∧
      (∀ r r2 : ℚ, qe_pass qeff ev r = true → r2 ≤ r → qe_pass qeff ev r2 = true) ∧
      (∀ r r2 : ℚ, qe_pass_double qeff ev r = true → r2 ≤ r →
        qe_pass_double qeff ev r2 = true) := by
  obtain ⟨it, prob, hp, hlt, hcase⟩ := qe_prob_spec qeff ev hs hn hlo hhi
  have hlink : ∀ r : ℚ, qe_pass qeff ev r = decide (r ≤ prob) := by
    intro r
    rw [qe_pass_eq, hp]
  have hmono : ∀ r r2 : ℚ, qe_pass qeff ev r = true → r2 ≤ r → qe_pass qeff ev r2 = true := by
    intro r r2 hr hle
    rw [qe_pass_eq, hp] at hr ⊢
    simp only [decide_eq_true_eq] at hr ⊢
    exact le_trans hle hr
  have hmonod : ∀ r r2 : ℚ, qe_pass_double qeff ev r = true → r2 ≤ r →
      qe_pass_double qeff ev r2 = true :=
    fun r r2 hr hle => qe_pass_double_mono qeff ev r r2 hr hle
  have hunit : ∀ hi, hi < qeff.length →
      min (deref qeff it).2 (deref qeff hi).2 ≤ prob →
      prob ≤ max (deref qeff it).2 (deref qeff hi).2 →
      (∀ p ∈ qeff, 0 ≤ p.2 ∧ p.2 ≤ 1) → 0 ≤ prob ∧ prob ≤ 1 := by
    intro hi hhilt h1 h2 hq
    have ha := hq _ (deref_mem qeff it hlt)
    have hb := hq _ (deref_mem qeff hi hhilt)
    exact ⟨le_trans (le_min ha.1 hb.1) h1, le_trans h2 (max_le ha.2 hb.2)⟩
  rcases hcase with ⟨he, hpr⟩ | ⟨h1, h2, h3, hpr⟩
  · by_cases hnext : it + 1 < qeff.length
    · have hsucc := sorted_deref_le qeff hs it (it + 1) (Nat.le_succ _) hnext
      have hb1 : min (deref qeff it).2 (deref qeff (it + 1)).2 ≤ prob := by
        rw [hpr]; exact min_le_left _ _
      have hb2 : prob ≤ max (deref qeff it).2 (deref qeff (it + 1)).2 := by
        rw [hpr]; exact le_max_left _ _
      exact ⟨it, it + 1, prob, hp, hlink, hlt, hnext, Or.inl rfl, le_of_eq he,
        by rw [← he]; exact hsucc,
        hb1, hb2, Or.inl hpr, hunit (it + 1) hnext hb1 hb2, hmono, hmonod⟩
    · have hb1 : min (deref qeff it).2 (deref qeff it).2 ≤ prob := by
        rw [hpr, min_self]
      have hb2 : prob ≤ max (deref qeff it).2 (deref qeff it).2 := by
        rw [hpr, max_self]
      exact ⟨it, it, prob, hp, hlink, hlt, hlt, Or.inr ⟨rfl, by omega⟩, le_of_eq he,
        le_of_eq he.symm,
        hb1, hb2, Or.inl hpr, hunit it hlt hb1 hb2, hmono, hmonod⟩
  · have hb := interpolation_bounds (deref qeff it).1 (deref qeff (it + 1)).1
      (deref qeff it).2 (deref qeff (it + 1)).2 ev
      (min (deref qeff it).2 (deref qeff (it + 1)).2)
      (max (deref qeff it).2 (deref qeff (it + 1)).2) h2 h3
      ⟨min_le_left _ _, le_max_left _ _⟩ ⟨min_le_right _ _, le_max_right _ _⟩
    rw [← hpr] at hb
    have hd : (deref qeff (it + 1)).1 - (deref qeff it).1 ≠ 0 := by
      intro h0; linarith
    exact ⟨it, it + 1, prob, hp, hlink, hlt, h1, Or.inl rfl, le_of_lt h2, le_of_lt h3,
      hb.1, hb.2,
      Or.inr ⟨hd, hpr⟩, hunit (it + 1) h1 hb.1 hb.2, hmono, hmonod⟩

/-- C27 (amended) on the default table at energy 4, exact arithmetic: `qe_pass`
accepts a draw exactly when it is at most an efficiency `prob` in `[0, 1]`; the
draw 0 is accepted since the draw `0.29` is, in exact arithmetic and in double
precision. -/
theorem C27_efficiency_between_bracket_witness :
    List.Sorted (fun a b : ℚ × ℚ => a.1 ≤ b.1) defaultQeff ∧ 2 ≤ defaultQeff.length ∧
    (deref defaultQeff 0).1 ≤ 4 ∧ 4 ≤ (deref defaultQeff (defaultQeff.length - 1)).1 ∧
    (∃ prob, qe_prob defaultQeff 4 = some prob ∧
      (∀ r : ℚ, qe_pass defaultQeff 4 r = decide (r ≤ prob)) ∧ 0 ≤ prob ∧ prob ≤ 1) ∧
    (qe_pass defaultQeff 4 (29 / 100) = true → qe_pass defaultQeff 4 0 = true) ∧
    (qe_pass_double defaultQeff 4 (29 / 100) = true →
      qe_pass_double defaultQeff 4 0 = true) := by
  have hn : 2 ≤ defaultQeff.length := by simp [defaultQeff]
  have hlo : (deref defaultQeff 0).1 ≤ 4 := by norm_num [deref, defaultQeff]
  have hhi : 4 ≤ (deref defaultQeff (defaultQeff.length - 1)).1 := by
    norm_num [deref, defaultQeff]
  have hq : ∀ p ∈ defaultQeff, 0 ≤ p.2 ∧ p.2 ≤ 1 := by
    intro p hp
    simp only [defaultQeff, List.mem_cons, List.mem_singleton, List.not_mem_nil, or_false] at hp
    rcases hp with hp | hp <;> subst hp <;> norm_num
  obtain ⟨it, hi, prob, hp, hlink, _, _, _, _, _, _, _, _, hunit, hmono, hmonod⟩ :=
    C27_efficiency_between_bracket defaultQeff 4 defaultQeff_sorted hn hlo hhi
  exact ⟨defaultQeff_sorted, hn, hlo, hhi, ⟨prob, hp, hlink, hunit hq⟩,
    fun h => hmono (29 / 100) 0 h (by norm_num),
    fun h => hmonod (29 / 100) 0 h (by norm_num)⟩

/-- C27 fails in double precision. On the default table `{{2.6, 0.3}, {7.0, 0.3}}`
(sorted, two points, all efficiencies in `[0, 1]`) at the in-range energy 4 eV
the `qe_pass` of binary64 arithmetic accepts a draw exactly when it is at most
`prob = 2702159776422297 / 2 ^ 53` (printed `0.29999999999999993`), which is
below the smaller efficiency of every pair of table points: both table
efficiencies are the binary64 value of `0.3`, `5404319552844595 / 2 ^ 54`. The
draw equal to that table efficiency is rejected. -/
theorem C27_counterexample :
    List.Sorted (fun a b : ℚ × ℚ => a.1 ≤ b.1) defaultQeffDouble ∧
    2 ≤ defaultQeffDouble.length ∧
    (deref defaultQeffDouble 0).1 ≤ 4 ∧
    4 ≤ (deref defaultQeffDouble (defaultQeffDouble.length - 1)).1 ∧
    (∀ p ∈ defaultQeffDouble, 0 ≤ p.2 ∧ p.2 ≤ 1) ∧
    (∃ prob : ℚ, prob = 2702159776422297 / 9007199254740992 ∧
      (∀ r : ℚ, qe_pass_double defaultQeffDouble 4 r = decide (r ≤ prob)) ∧
      ∀ it hi : Nat, it < defaultQeffDouble.length → hi < defaultQeffDouble.length →
        prob < min (deref defaultQeffDouble it).2 (deref defaultQeffDouble hi).2) ∧
    qe_pass_double defaultQeffDouble 4 (round_binary64 0.3) = false := by
  have hl : defaultQeffDouble.length = 2 := rfl
  have hq : ∀ p ∈ defaultQeffDouble, 0 ≤ p.2 ∧ p.2 ≤ 1 := by
    intro p hp
    rw [defaultQeffDouble_efficiency p hp]
    norm_num
  refine ⟨defaultQeffDouble_sorted, by simp [hl], ?_, ?_, hq,
    ⟨_, rfl, qe_pass_double_default_4, ?_⟩, ?_⟩
  · rw [defaultQeffDouble_eq]; norm_num [deref]
  · rw [defaultQeffDouble_eq]; norm_num [deref]
  · intro it hi h1 h2
    rw [defaultQeffDouble_efficiency _ (deref_mem defaultQeffDouble it h1),
      defaultQeffDouble_efficiency _ (deref_mem defaultQeffDouble hi h2), min_self]
    norm_num
  · rw [qe_pass_double_default_4, round_binary64_0_3]
    norm_num

/-! ### Contributor indices of the final table -/

theorem set_split {α : Type} (l : List α) (k : Nat) (g : α) (hk : l[k]? = some g) :
    ∃ a b, l = a ++ g :: b ∧ ∀ g2, l.set k g2 = a ++ g2 :: b := by
  induction l generalizing k with
  | nil => simp at hk
  | cons x rest ih =>
    cases k with
    | zero =>
      simp only [List.getElem?_cons_zero, Option.some.injEq] at hk
      subst hk
      exact ⟨[], rest, rfl, fun g2 => rfl⟩
    | succ k =>
      simp only [List.getElem?_cons_succ] at hk
      obtain ⟨a, b, h1, h2⟩ := ih k hk
      refine ⟨x :: a, b, by rw [h1]; rfl, fun g2 => ?_⟩
      simp only [List.set_cons_succ, h2, List.cons_append]

theorem pairs_assign_split (t : HitGroups) (id : CellIDType) (gs : List HitData)
    (h : GroupTable.find t id = some gs) :
    ∃ P Q, HitGroups.pairs t = P ++ gs.map (fun g => (id, g)) ++ Q ∧
      ∀ v, HitGroups.pairs (GroupTable.assign t id v) = P ++ v.map (fun g => (id, g)) ++ Q := by
  induction t with
  | nil => simp [GroupTable.find] at h
  | cons kv rest ih =>
    unfold GroupTable.find at h
    by_cases hk : kv.1 = id
    · simp only [hk, if_true, Option.some.injEq] at h
      subst h
      refine ⟨[], HitGroups.pairs rest, ?_, fun v => ?_⟩
      · simp [HitGroups.pairs, List.flatMap_cons, hk]
      · unfold GroupTable.assign
        simp [HitGroups.pairs, List.flatMap_cons, hk]
    · simp only [hk, if_false] at h
      obtain ⟨P, Q, h1, h2⟩ := ih h
      refine ⟨kv.2.map (fun g => (kv.1, g)) ++ P, Q, ?_, fun v => ?_⟩
      · have : HitGroups.pairs (kv :: rest) =
            kv.2.map (fun g => (kv.1, g)) ++ HitGroups.pairs rest := by
          simp [HitGroups.pairs, List.flatMap_cons]
        rw [this, h1]
        simp only [List.append_assoc]
      · unfold GroupTable.assign
        simp only [hk, if_false]
        have : HitGroups.pairs (kv :: GroupTable.assign rest id v) =
            kv.2.map (fun g => (kv.1, g)) ++ HitGroups.pairs (GroupTable.assign rest id v) := by
          simp [HitGroups.pairs, List.flatMap_cons]
        rw [this, h2 v]
        simp only [List.append_assoc]

/-- The contributor lists after the insertion of a real hit: unchanged, or one
list `[idx]` added at the end, or `idx` appended to one list. -/
theorem InsertHit_real_contributors (cfg : PhotoMultiplierHitDigiConfig) (rng : RandomSource)
    (t : HitGroups) (id : CellIDType) (amp : ℚ) (time : TimeType) (pl pg : Position)
    (idx : Nat) :
    HitGroups.contributors (InsertHit cfg rng t id amp time pl pg idx false).1 =
        HitGroups.contributors t ∨
    HitGroups.contributors (InsertHit cfg rng t id amp time pl pg idx false).1 =
        HitGroups.contributors t ++ [[idx]] ∨
    ∃ A l B, HitGroups.contributors t = A ++ l :: B ∧
      HitGroups.contributors (InsertHit cfg rng t id amp time pl pg idx false).1 =
        A ++ (l ++ [idx]) :: B := by
  cases hf : GroupTable.find t id with
  | none =>
    right; left
    rw [InsertHit_new_cell cfg rng t id amp time pl pg idx false hf]
    simp [HitGroups.contributors, pairs_append, HitGroups.pairs]
  | some gs =>
    by_cases hw : ∃ g ∈ gs, |time - g.time| ≤ cfg.hitTimeWindow
    · right; right
      obtain ⟨k, g, hk, hgw, hfirst⟩ := exists_first_in_window cfg time gs hw
      rw [InsertHit_merge cfg rng t id amp time pl pg idx false gs k g hf hk hgw hfirst]
      obtain ⟨a, b, hab, hset⟩ := set_split gs k g hk
      obtain ⟨P, Q, hP, hassign⟩ := pairs_assign_split t id gs hf
      refine ⟨(P ++ a.map (fun g => (id, g))).map (fun p => p.2.sim_hit_indices),
        g.sim_hit_indices,
        (b.map (fun g => (id, g)) ++ Q).map (fun p => p.2.sim_hit_indices), ?_, ?_⟩
      · unfold HitGroups.contributors
        rw [hP, hab]
        simp [List.map_append]
      · unfold HitGroups.contributors
        rw [hassign, hset]
        simp [List.map_append, HitData.merged]
    · left
      rw [InsertHit_no_match cfg rng t id amp time pl pg idx false gs hf
        (fun g hg hgw => hw ⟨g, hg, hgw⟩)]

theorem contributorsBelow_mono (k m : Nat) (L : List (List Nat)) (hkm : k ≤ m)
    (h : contributorsBelow k L) : contributorsBelow m L :=
  ⟨fun l hl => ⟨(h.1 l hl).1, fun i hi => lt_of_lt_of_le ((h.1 l hl).2 i hi) hkm⟩, h.2⟩

theorem contributorsBelow_add_list (k : Nat) (L : List (List Nat))
    (h : contributorsBelow k L) : contributorsBelow (k + 1) (L ++ [[k]]) := by
  constructor
  · intro l hl
    rcases List.mem_append.mp hl with hl | hl
    · exact ⟨(h.1 l hl).1, fun i hi => Nat.lt_succ_of_lt ((h.1 l hl).2 i hi)⟩
    · rw [List.mem_singleton] at hl
      subst hl
      exact ⟨List.sorted_singleton k, fun i hi => by
        rw [List.mem_singleton] at hi; omega⟩
  · rw [List.flatten_append]
    simp only [List.flatten_cons, List.flatten_nil, List.append_nil]
    refine List.Nodup.append h.2 (List.nodup_singleton _) ?_
    intro a ha hb
    rw [List.mem_singleton] at hb
    subst hb
    obtain ⟨l, hl, hal⟩ := List.mem_flatten.mp ha
    exact absurd ((h.1 l hl).2 a hal) (lt_irrefl _)

theorem contributorsBelow_append_index (k : Nat) (A B : List (List Nat)) (l : List Nat)
    (h : contributorsBelow k (A ++ l :: B)) :
    contributorsBelow (k + 1) (A ++ (l ++ [k]) :: B) := by
  have hl : l ∈ A ++ l :: B := List.mem_append_right _ (List.mem_cons_self _ _)
  constructor
  · intro x hx
    rcases List.mem_append.mp hx with hx | hx
    · have := h.1 x (List.mem_append_left _ hx)
      exact ⟨this.1, fun i hi => Nat.lt_succ_of_lt (this.2 i hi)⟩
    · rcases List.mem_cons.mp hx with hx | hx
      · subst hx
        constructor
        · have hsorted := (h.1 l hl).1
          unfold List.Sorted at hsorted ⊢
          rw [List.pairwise_append]
          exact ⟨hsorted, List.pairwise_singleton _ _, fun a ha b hb => by
            rw [List.mem_singleton] at hb
            rw [hb]
            exact (h.1 l hl).2 a ha⟩
        · intro i hi
          rcases List.mem_append.mp hi with hi | hi
          · exact Nat.lt_succ_of_lt ((h.1 l hl).2 i hi)
          · rw [List.mem_singleton] at hi; omega
      · have := h.1 x (List.mem_append_right _ (List.mem_cons_of_mem _ hx))
        exact ⟨this.1, fun i hi => Nat.lt_succ_of_lt (this.2 i hi)⟩
  · have hperm : (A ++ (l ++ [k]) :: B).flatten.Perm ((A ++ l :: B).flatten ++ [k]) := by
      simp only [List.flatten_append, List.flatten_cons, List.append_assoc]
      refine List.Perm.append_left _ (List.Perm.append_left _ ?_)
      exact List.perm_append_comm
    rw [hperm.nodup_iff]
    refine List.Nodup.append h.2 (List.nodup_singleton _) ?_
    intro a ha hb
    rw [List.mem_singleton] at hb
    subst hb
    obtain ⟨x, hx, hax⟩ := List.mem_flatten.mp ha
    exact absurd ((h.1 x hx).2 a hax) (lt_irrefl _)

theorem contributorsBelow_add_empty (k m : Nat) (L : List (List Nat))
    (h : contributorsBelow k L) : contributorsBelow k (L ++ List.replicate m []) := by
  constructor
  · intro l hl
    rcases List.mem_append.mp hl with hl | hl
    · exact h.1 l hl
    · rw [List.eq_of_mem_replicate hl]
      exact ⟨List.sorted_nil, fun i hi => absurd hi (List.not_mem_nil i)⟩
  · have : (L ++ List.replicate m ([] : List Nat)).flatten = L.flatten := by
      rw [List.flatten_append]
      have : (List.replicate m ([] : List Nat)).flatten = [] := by
        induction m with
        | zero => rfl
        | succ m ih => simp [List.replicate_succ, ih]
      rw [this, List.append_nil]
    rw [this]
    exact h.2

theorem process_sim_hit_contributors (cfg : PhotoMultiplierHitDigiConfig) (svc : Services)
    (qeff : List (ℚ × ℚ)) (st : HitGroups × RandomSource) (k : Nat) (sim_hit : SimTrackerHit)
    (h : contributorsBelow k (HitGroups.contributors st.1)) :
    contributorsBelow (k + 1)
      (HitGroups.contributors (process_sim_hit cfg svc qeff st k sim_hit).1) := by
  have hkeep := contributorsBelow_mono k (k + 1) _ (Nat.le_succ k) h
  have hins : ∀ (r : RandomSource) (amp : ℚ) (time : TimeType) (pl pg : Position),
      contributorsBelow (k + 1)
        (HitGroups.contributors (InsertHit cfg r st.1 sim_hit.cellID amp time pl pg k false).1) := by
    intro r amp time pl pg
    rcases InsertHit_real_contributors cfg r st.1 sim_hit.cellID amp time pl pg k with
      he | he | ⟨A, l, B, hA, he⟩
    · rw [he]; exact hkeep
    · rw [he]; exact contributorsBelow_add_list k _ h
    · rw [he]
      rw [hA] at h
      exact contributorsBelow_append_index k A B l h
  unfold process_sim_hit
  simp only []
  split_ifs <;>
    first
    | exact hkeep
    | exact hins _ _ _ _ _

theorem sim_hit_loop_contributors (cfg : PhotoMultiplierHitDigiConfig) (svc : Services)
    (qeff : List (ℚ × ℚ)) (hits : List SimTrackerHit) (k : Nat)
    (st : HitGroups × RandomSource)
    (h : contributorsBelow k (HitGroups.contributors st.1)) :
    contributorsBelow (k + hits.length)
      (HitGroups.contributors (sim_hit_loop cfg svc qeff hits k st).1) := by
  induction hits generalizing k st with
  | nil => exact h
  | cons a rest ih =>
    simp only [sim_hit_loop, List.length_cons]
    have := ih (k + 1) _ (process_sim_hit_contributors cfg svc qeff st k a h)
    have he : k + (rest.length + 1) = k + 1 + rest.length := by omega
    rw [he]
    exact this

theorem noise_injection_contributors (cfg : PhotoMultiplierHitDigiConfig) (svc : Services)
    (n : Nat) (st : HitGroups × RandomSource)
    (h : contributorsBelow n (HitGroups.contributors st.1)) :
    contributorsBelow n (HitGroups.contributors (noise_injection cfg svc st).1) := by
  have hfold : ∀ (ids : List CellIDType) (s : HitGroups × RandomSource),
      contributorsBelow n (HitGroups.contributors s.1) →
      contributorsBelow n
        (HitGroups.contributors (ids.foldl (cellID_action cfg svc) s).1) := by
    intro ids
    induction ids with
    | nil => intro s hs; exact hs
    | cons id rest ih =>
      intro s hs
      simp only [List.foldl_cons]
      apply ih
      unfold cellID_action
      obtain ⟨m, hm⟩ := InsertHit_noise_indices cfg (m_rngUni (m_rngNorm s.2).2).2 s.1 id
        (cfg.speMean + (m_rngNorm s.2).1 * cfg.speError)
        (cfg.noiseTimeWindow * (m_rngUni (m_rngNorm s.2).2).1 / svc.ns) ⟨0, 0, 0⟩
        (svc.position id) 0
      unfold HitGroups.contributors at hs ⊢
      rw [hm]
      exact contributorsBelow_add_empty n m _ hs
  unfold noise_injection
  by_cases hn : cfg.enableNoise = true
  · simp only [hn, if_true]
    exact hfold _ st h
  · simp only [hn, if_false]
    exact h

theorem mem_pairs (t : HitGroups) (kv : CellIDType × List HitData) (g : HitData)
    (hkv : kv ∈ t) (hg : g ∈ kv.2) : (kv.1, g) ∈ HitGroups.pairs t := by
  unfold HitGroups.pairs
  rw [List.mem_flatMap]
  exact ⟨kv, hkv, List.mem_map_of_mem _ hg⟩

/-- C24: for every input of `n` simulated hits, in the final table of
`AlgorithmProcess` every contributor index is below `n`, every contributor list
is strictly increasing, and all contributor lists together hold no index twice,
so no index occurs in the lists of two groups; `AlgorithmProcess` returns a
result: no lookup `sim_hits->at(i)` is out of range. -/
theorem C24_contributor_indices (cfg : PhotoMultiplierHitDigiConfig) (svc : Services)
    (qeff : List (ℚ × ℚ)) (rng : RandomSource) (sim_hits : List SimTrackerHit) :
    (∀ kv ∈ (final_hit_groups cfg svc qeff rng sim_hits).1, ∀ g ∈ kv.2,
      (∀ i ∈ g.sim_hit_indices, i < sim_hits.length) ∧
      List.Sorted (fun a b : Nat => a < b) g.sim_hit_indices) ∧
    ((HitGroups.pairs (final_hit_groups cfg svc qeff rng sim_hits).1).flatMap
      (fun p => p.2.sim_hit_indices)).Nodup ∧
    ∃ r, AlgorithmProcess cfg svc qeff rng sim_hits = some r := by
  have h0 : contributorsBelow 0 (HitGroups.contributors ([] : HitGroups)) :=
    ⟨fun l hl => by simp [HitGroups.contributors, HitGroups.pairs] at hl, by
      simp [HitGroups.contributors, HitGroups.pairs]⟩
  have hJ : contributorsBelow sim_hits.length
      (HitGroups.contributors (final_hit_groups cfg svc qeff rng sim_hits).1) := by
    unfold final_hit_groups
    apply noise_injection_contributors
    have := sim_hit_loop_contributors cfg svc qeff sim_hits 0 ([], rng) h0
    rwa [Nat.zero_add] at this
  refine ⟨?_, ?_, ?_⟩
  · intro kv hkv g hg
    have hm : g.sim_hit_indices ∈
        HitGroups.contributors (final_hit_groups cfg svc qeff rng sim_hits).1 := by
      unfold HitGroups.contributors
      exact List.mem_map_of_mem (fun p : CellIDType × HitData => p.2.sim_hit_indices)
        (mem_pairs _ kv g hkv hg)
    exact ⟨(hJ.1 _ hm).2, (hJ.1 _ hm).1⟩
  · rw [List.flatMap_def]
    exact hJ.2
  · obtain ⟨r, h1, _⟩ := build_output_spec cfg sim_hits
      (final_hit_groups cfg svc qeff rng sim_hits).1 ⟨[], []⟩
      (final_hit_groups_valid cfg svc qeff rng sim_hits)
    exact ⟨r, h1⟩

/-- C24 at a concrete input: three accepted hits, the first and third in cell
`0xA` within the window, the second in cell `0xB`; the contributor lists are
`[0, 2]` and `[1]`. -/
theorem C24_contributor_indices_witness :
    (final_hit_groups scenarioCfg plainServices defaultQeff zeroRng threeSimHits).1 =
      [(0xA, [HitData.mk 2 2 0 ⟨0, 0, 0⟩ ⟨0, 0, 0⟩ [0, 2]]),
        (0xB, [HitData.mk 1 1 0 ⟨0, 0, 0⟩ ⟨0, 0, 0⟩ [1]])] ∧
    ((HitGroups.pairs (final_hit_groups scenarioCfg plainServices defaultQeff zeroRng
      threeSimHits).1).flatMap (fun p => p.2.sim_hit_indices)).Nodup := by
  refine ⟨?_, (C24_contributor_indices scenarioCfg plainServices defaultQeff zeroRng
    threeSimHits).2.1⟩
  have e4 : (4 / 1000000000 : ℚ) * 1e9 = 4 := by norm_num
  have hq : ∀ r : RandomSource, r.uniform = (fun _ => 0) →
      qe_pass defaultQeff 4 (m_rngUni (m_rngUni r).2).1 = true := by
    intro r hr
    have : (m_rngUni (m_rngUni r).2).1 = 0 := by simp [m_rngUni, hr]
    rw [this]; exact qe_pass_default_4
  have hstep : ∀ (t : HitGroups) (r : RandomSource) (k : Nat) (h : SimTrackerHit),
      r.uniform = (fun _ => 0) → h.EDep = 4 / 1000000000 →
      process_sim_hit scenarioCfg plainServices defaultQeff (t, r) k h =
        InsertHit scenarioCfg (m_rngNorm (m_rngUni (m_rngUni r).2).2).2 t h.cellID
          (scenarioCfg.speMean + (m_rngNorm (m_rngUni (m_rngUni r).2).2).1 *
            scenarioCfg.speError) h.time ⟨0, 0, 0⟩ ⟨0, 0, 0⟩ k false := by
    intro t r k h hr hE
    rw [process_sim_hit_no_gaps scenarioCfg plainServices defaultQeff (t, r) k h rfl]
    have h1 : (m_rngUni (t, r).2).1 ≤ scenarioCfg.safetyFactor := by
      simp [m_rngUni, hr, scenarioCfg]
    have h2 : qe_pass defaultQeff (h.EDep * 1e9) (m_rngUni (m_rngUni (t, r).2).2).1 = true := by
      rw [hE, e4]; exact hq r hr
    rw [if_pos ⟨h1, h2⟩]
  have s1 : process_sim_hit scenarioCfg plainServices defaultQeff ([], zeroRng) 0
      ⟨0xA, 4 / 1000000000, 0, origin⟩ =
      ([(0xA, [HitData.mk 1 1 0 ⟨0, 0, 0⟩ ⟨0, 0, 0⟩ [0]])],
        ⟨fun _ => 0, fun _ => 0, 2, 2⟩) := by
    rw [hstep [] zeroRng 0 _ rfl rfl, InsertHit_empty]
    norm_num [m_rngNorm, m_rngUni, scenarioCfg, zeroRng]
  have s2 : process_sim_hit scenarioCfg plainServices defaultQeff
      ([(0xA, [HitData.mk 1 1 0 ⟨0, 0, 0⟩ ⟨0, 0, 0⟩ [0]])], ⟨fun _ => 0, fun _ => 0, 2, 2⟩) 1
      ⟨0xB, 4 / 1000000000, 0, origin⟩ =
      ([(0xA, [HitData.mk 1 1 0 ⟨0, 0, 0⟩ ⟨0, 0, 0⟩ [0]]),
        (0xB, [HitData.mk 1 1 0 ⟨0, 0, 0⟩ ⟨0, 0, 0⟩ [1]])],
        ⟨fun _ => 0, fun _ => 0, 4, 4⟩) := by
    rw [hstep _ _ 1 _ rfl rfl]
    simp [InsertHit, GroupTable.find, GroupTable.insert, m_rngNorm, m_rngUni, scenarioCfg]
  have s3 : (process_sim_hit scenarioCfg plainServices defaultQeff
      ([(0xA, [HitData.mk 1 1 0 ⟨0, 0, 0⟩ ⟨0, 0, 0⟩ [0]]),
        (0xB, [HitData.mk 1 1 0 ⟨0, 0, 0⟩ ⟨0, 0, 0⟩ [1]])],
        ⟨fun _ => 0, fun _ => 0, 4, 4⟩) 2
      ⟨0xA, 4 / 1000000000, 1 / 20, origin⟩).1 =
      [(0xA, [HitData.mk 2 2 0 ⟨0, 0, 0⟩ ⟨0, 0, 0⟩ [0, 2]]),
        (0xB, [HitData.mk 1 1 0 ⟨0, 0, 0⟩ ⟨0, 0, 0⟩ [1]])] := by
    rw [hstep _ _ 2 _ rfl rfl]
    simp [InsertHit, InsertHit_loop, GroupTable.find, GroupTable.assign, m_rngNorm, m_rngUni,
      scenarioCfg]
    norm_num [abs_le]
  unfold final_hit_groups noise_injection
  simp only [show scenarioCfg.enableNoise = false from rfl, Bool.false_eq_true, if_false,
    threeSimHits, sim_hit_loop, s1, s2]
  exact s3

end eicrecon
